import Mathlib

/-!
# Verification of the go-trader matching engine and persistence layer

A shallow embedding, in Lean 4, of the go-trader repository's matching
engine (`matching` package) and persistence layer (`persistence` package),
together with theorems settling the specification claims about them.

Modelling conventions:

* Go `uint64`/`uint32`/`uint8` values are modelled as `Nat`.  All
  subtractions performed by the source are guarded (the source subtracts a
  quantity only when it is bounded by the minuend), so truncated `Nat`
  subtraction coincides with Go's wrapping subtraction on every reachable
  state; additions in the source never feed back into control flow in a way
  where wrap-around matters for the claims proved here.  Signed `int64`
  fields (`TrailingDistance`, `TrailingStep`) are modelled as `Int`, and the
  wire codec applies the explicit two's-complement conversions
  (`% 2 ^ 64`) that `uint64(int64)` / `int64(uint64)` perform.
* Go maps (`symbols`, `orderBooks`, `orders`) are modelled as association
  lists with the usual map semantics; go-trader only ever inserts a fresh
  key, overwrites an existing key in place, or deletes a key.
* The AVL trees of price levels (`avltree.go`) are modelled as finite maps
  from price to level: `Insert` appends a (fresh-priced) level, `Remove`
  filters it out, `Find` is association lookup and `First` returns the
  minimal key under the tree's comparator (descending trees yield the
  highest price first, ascending trees the lowest), exactly the in-order
  minimum the AVL `First` computes.
* Pointers are replaced by identifiers: an `OrderNode`'s intrusive list
  membership becomes membership of its order id in the level's `orderList`,
  and the cached best-level pointers of `OrderBook` become the cached best
  *price* (pointer equality between nodes of one tree is price equality,
  since each tree holds at most one level per price).
* Handler callbacks (`MarketHandler`) are captured as a returned list of
  `MarketEvent` values, dispatched in source order.
* Go code paths that would dereference a nil pointer (and panic) are
  unreachable from any consistent engine state; the model completes them
  as no-ops, and every theorem touching such a path carries the hypotheses
  that make it unreachable.
-/

namespace GoTrader

/-! ## Big-endian byte strings (`encoding/binary`) -/

/-- Big-endian byte string of width `w` for the value `n` (low `8*w` bits),
as written by `binary.BigEndian.PutUintN`. -/
def beBytes : Nat → Nat → List Nat
  | 0, _ => []
  | w + 1, n => beBytes w (n / 256) ++ [n % 256]

/-- Value of a big-endian byte string, as read by `binary.BigEndian.UintN`. -/
def beVal (l : List Nat) : Nat :=
  l.foldl (fun acc b => acc * 256 + b) 0

theorem beBytes_length (w n : Nat) : (beBytes w n).length = w := by
  induction w generalizing n with
  | zero => rfl
  | succ w ih => simp [beBytes, ih]

theorem beVal_append_singleton (l : List Nat) (b : Nat) :
    beVal (l ++ [b]) = beVal l * 256 + b := by
  simp [beVal, List.foldl_append]

theorem beVal_beBytes (w n : Nat) : beVal (beBytes w n) = n % 256 ^ w := by
  induction w generalizing n with
  | zero => simp [beBytes, beVal, Nat.mod_one]
  | succ w ih =>
    rw [beBytes, beVal_append_singleton, ih]
    have h : (256 : Nat) ^ (w + 1) = 256 * 256 ^ w := by ring
    rw [h, Nat.mod_mul]
    ring

theorem beVal_beBytes_of_lt {w n : Nat} (h : n < 256 ^ w) :
    beVal (beBytes w n) = n := by
  rw [beVal_beBytes, Nat.mod_eq_of_lt h]

theorem beVal_lt (l : List Nat) (h : ∀ b ∈ l, b < 256) :
    beVal l < 256 ^ l.length := by
  induction l using List.reverseRecOn with
  | nil => simp [beVal]
  | append_singleton xs b ih =>
    rw [beVal_append_singleton]
    have hb : b < 256 := h b (by simp)
    have hxs : beVal xs < 256 ^ xs.length := ih fun x hx => h x (by simp [hx])
    have : beVal xs * 256 + b < (beVal xs + 1) * 256 := by omega
    calc beVal xs * 256 + b < (beVal xs + 1) * 256 := this
      _ ≤ 256 ^ xs.length * 256 := by
          have : beVal xs + 1 ≤ 256 ^ xs.length := hxs
          exact Nat.mul_le_mul_right 256 this
      _ = 256 ^ (xs ++ [b]).length := by
          simp [List.length_append, Nat.pow_succ]

theorem beBytes_beVal (l : List Nat) (h : ∀ b ∈ l, b < 256) :
    beBytes l.length (beVal l) = l := by
  induction l using List.reverseRecOn with
  | nil => simp [beBytes, beVal]
  | append_singleton xs b ih =>
    have hb : b < 256 := h b (by simp)
    have hxs : ∀ x ∈ xs, x < 256 := fun x hx => h x (by simp [hx])
    rw [beVal_append_singleton]
    have hlen : (xs ++ [b]).length = xs.length + 1 := by simp
    rw [hlen, beBytes]
    have hdiv : (beVal xs * 256 + b) / 256 = beVal xs := by
      omega
    have hmod : (beVal xs * 256 + b) % 256 = b := by
      omega
    rw [hdiv, hmod, ih hxs]

/-- Go's `uint64(d)` conversion of a signed 64-bit integer: the
two's-complement bit pattern as a natural number. -/
def toUInt64Bits (d : Int) : Nat :=
  (d % (2 ^ 64 : Int)).toNat

/-- Go's `int64(n)` conversion of an unsigned 64-bit integer: reinterpret
the bit pattern as a signed value. -/
def ofUInt64Bits (n : Nat) : Int :=
  if n < 2 ^ 63 then (n : Int) else (n : Int) - 2 ^ 64

theorem toUInt64Bits_lt (d : Int) : toUInt64Bits d < 2 ^ 64 := by
  have h1 : d % (2 ^ 64 : Int) < 2 ^ 64 := Int.emod_lt_of_pos d (by norm_num)
  have h2 : 0 ≤ d % (2 ^ 64 : Int) := Int.emod_nonneg d (by norm_num)
  unfold toUInt64Bits
  omega

theorem ofUInt64Bits_toUInt64Bits {d : Int}
    (h1 : -(2 ^ 63) ≤ d) (h2 : d < 2 ^ 63) :
    ofUInt64Bits (toUInt64Bits d) = d := by
  unfold toUInt64Bits ofUInt64Bits
  have hlt : d % (2 ^ 64 : Int) < 2 ^ 64 := Int.emod_lt_of_pos d (by norm_num)
  have hge : 0 ≤ d % (2 ^ 64 : Int) := Int.emod_nonneg d (by norm_num)
  rcases le_or_lt 0 d with hd | hd
  · have : d % (2 ^ 64 : Int) = d := Int.emod_eq_of_lt hd (by omega)
    rw [this]
    have : d.toNat < 2 ^ 63 := by omega
    simp only [this, if_pos]
    omega
  · have hstep : d % (2 ^ 64 : Int) = (d + 2 ^ 64 * 1) % 2 ^ 64 := by
      rw [Int.add_mul_emod_self_left]
    have : d % (2 ^ 64 : Int) = d + 2 ^ 64 := by
      rw [hstep, Int.emod_eq_of_lt (by omega) (by omega)]
      ring
    rw [this]
    have hge' : (2 ^ 63 : Int) ≤ d + 2 ^ 64 := by omega
    have : ¬ (d + 2 ^ 64).toNat < 2 ^ 63 := by omega
    simp only [this, if_neg, not_false_iff]
    omega

theorem toUInt64Bits_ofUInt64Bits {n : Nat} (h : n < 2 ^ 64) :
    toUInt64Bits (ofUInt64Bits n) = n := by
  unfold toUInt64Bits ofUInt64Bits
  by_cases hn : n < 2 ^ 63
  · simp only [hn, if_pos]
    have : (n : Int) % (2 ^ 64 : Int) = n :=
      Int.emod_eq_of_lt (by omega) (by omega)
    rw [this]
    simp
  · simp only [hn, if_neg, not_false_iff]
    have : ((n : Int) - 2 ^ 64) % (2 ^ 64 : Int) = n := by
      rw [Int.sub_emod, Int.emod_self, sub_zero, Int.emod_emod_of_dvd,
        Int.emod_eq_of_lt (by omega) (by omega)]
      exact dvd_refl _
    rw [this]
    simp

/-! ## Matching engine data model (`matching` package) -/

/-- `matching.ErrorCode` (errors.go). -/
inductive ErrorCode where
  | ErrorOK
  | ErrorSymbolDuplicate
  | ErrorSymbolNotFound
  | ErrorOrderBookDuplicate
  | ErrorOrderBookNotFound
  | ErrorOrderDuplicate
  | ErrorOrderNotFound
  | ErrorOrderIDInvalid
  | ErrorOrderTypeInvalid
  | ErrorOrderParameterInvalid
  | ErrorOrderQuantityInvalid
deriving DecidableEq, Repr

open ErrorCode

/-- `matching.OrderSide` constants (`uint8`). -/
def OrderSideBuy : Nat := 0

def OrderSideSell : Nat := 1

/-- `matching.OrderType` constants (`uint8`). -/
def OrderTypeMarket : Nat := 0

def OrderTypeLimit : Nat := 1

def OrderTypeStop : Nat := 2

def OrderTypeStopLimit : Nat := 3

def OrderTypeTrailingStop : Nat := 4

def OrderTypeTrailingStopLimit : Nat := 5

/-- `matching.OrderTimeInForce` constants (`uint8`). -/
def OrderTimeInForceGTC : Nat := 0

/-- `matching.Order` (order fields; `Type` is spelled `otype` since `Type`
is reserved in Lean). -/
structure Order where
  id : Nat
  symbolID : Nat
  otype : Nat
  side : Nat
  price : Nat
  stopPrice : Nat
  quantity : Nat
  executedQuantity : Nat
  leavesQuantity : Nat
  timeInForce : Nat
  maxVisibleQuantity : Nat
  slippage : Nat
  trailingDistance : Int
  trailingStep : Int
deriving DecidableEq, Repr

/-- The zero value of `matching.Order` (all fields zero), as produced by
Go for unset struct fields. -/
def Order.zero : Order :=
  ⟨0, 0, 0, 0, 0, 0, 0, 0, 0, 0, 0, 0, 0, 0⟩

/-- `Order.IsBuy`. -/
def Order.IsBuy (o : Order) : Bool :=
  o.side == OrderSideBuy

/-- `Order.HiddenQuantity`. -/
def Order.HiddenQuantity (o : Order) : Nat :=
  if o.leavesQuantity > o.maxVisibleQuantity then
    o.leavesQuantity - o.maxVisibleQuantity
  else 0

/-- `Order.VisibleQuantity`. -/
def Order.VisibleQuantity (o : Order) : Nat :=
  if o.leavesQuantity < o.maxVisibleQuantity then o.leavesQuantity
  else o.maxVisibleQuantity

/-- `matching.Symbol`. -/
structure Symbol where
  id : Nat
  name : String
deriving DecidableEq, Repr

/-- `matching.LevelType` constants (`uint8`): 0 = bid, 1 = ask. -/
def LevelTypeBid : Nat := 0

def LevelTypeAsk : Nat := 1

/-- `matching.Level`: the pure price-level data dispatched to handlers. -/
structure Level where
  ltype : Nat
  price : Nat
  totalVolume : Nat
  hiddenVolume : Nat
  visibleVolume : Nat
  orders : Nat
deriving DecidableEq, Repr

/-- `matching.NewLevel`. -/
def NewLevel (levelType : Nat) (price : Nat) : Level :=
  ⟨levelType, price, 0, 0, 0, 0⟩

/-- `matching.LevelNode`: a `Level` together with its intrusive FIFO order
list.  The AVL-tree links (`Parent`/`Left`/`Right`/`Balance`) are abstracted
away by the finite-map tree model; the order list holds order ids in
front-to-back order. -/
structure LevelNode where
  level : Level
  orderList : List Nat
deriving DecidableEq, Repr

/-- `matching.NewLevelNode`. -/
def NewLevelNode (levelType : Nat) (price : Nat) : LevelNode :=
  ⟨NewLevel levelType price, []⟩

/-- `matching.UpdateType`. -/
inductive UpdateType where
  | UpdateNone
  | UpdateAdd
  | UpdateUpdate
  | UpdateDelete
deriving DecidableEq, Repr

/-- One `MarketHandler` callback, in dispatch order.  Order books are
identified by their symbol id (the Go callbacks pass the `*OrderBook`
pointer). -/
inductive MarketEvent where
  | onAddSymbol (s : Symbol)
  | onDeleteSymbol (s : Symbol)
  | onAddOrderBook (symbolID : Nat)
  | onUpdateOrderBook (symbolID : Nat) (top : Bool)
  | onDeleteOrderBook (symbolID : Nat)
  | onAddLevel (symbolID : Nat) (level : Level) (top : Bool)
  | onUpdateLevel (symbolID : Nat) (level : Level) (top : Bool)
  | onDeleteLevel (symbolID : Nat) (level : Level) (top : Bool)
  | onAddOrder (o : Order)
  | onUpdateOrder (o : Order)
  | onDeleteOrder (o : Order)
  | onExecuteOrder (o : Order) (price : Nat) (quantity : Nat)
deriving DecidableEq, Repr

/-! ### Price-level trees

`orderbook.go` keeps six AVL trees per book.  Each tree is modelled as a
list of levels with pairwise-distinct prices; the `descending` flag of
`NewAVLTree` determines which price its `First` (the in-order minimum)
returns: the highest price for a descending tree, the lowest for an
ascending one. -/

/-- Which of the six per-book level trees an order lives in. -/
inductive TreeKey where
  | bids
  | asks
  | buyStop
  | sellStop
  | trailingBuyStop
  | trailingSellStop
deriving DecidableEq, Repr

/-- The `descending` construction flag of each tree (`NewOrderBook`). -/
def TreeKey.descending : TreeKey → Bool
  | .bids => true
  | .asks => false
  | .buyStop => false
  | .sellStop => true
  | .trailingBuyStop => false
  | .trailingSellStop => true

/-- `LevelTypeBid` for the buy-side trees, `LevelTypeAsk` otherwise
(`OrderBook.AddLevel`). -/
def TreeKey.levelType : TreeKey → Nat
  | .bids => LevelTypeBid
  | .buyStop => LevelTypeBid
  | .trailingBuyStop => LevelTypeBid
  | _ => LevelTypeAsk

/-- `p` is strictly better than `q` under tree `k`'s ordering — the
condition `AddLevel` uses to advance the cached best pointer. -/
def better (k : TreeKey) (p q : Nat) : Bool :=
  if k.descending then q < p else p < q

/-- Which tree an order is routed to (`OrderBook.AddOrder` /
`AddLevel` / `DeleteLevel` branch structure). -/
def routeKey (o : Order) : TreeKey :=
  if o.otype = OrderTypeTrailingStop ∨ o.otype = OrderTypeTrailingStopLimit then
    if o.IsBuy then .trailingBuyStop else .trailingSellStop
  else if o.otype = OrderTypeStop ∨ o.otype = OrderTypeStopLimit then
    if o.IsBuy then .buyStop else .sellStop
  else
    if o.IsBuy then .bids else .asks

/-- The price an order is keyed by in its tree: the stop price for (trailing)
stop orders, the limit price otherwise. -/
def routePrice (o : Order) : Nat :=
  if o.otype = OrderTypeTrailingStop ∨ o.otype = OrderTypeTrailingStopLimit then
    o.stopPrice
  else if o.otype = OrderTypeStop ∨ o.otype = OrderTypeStopLimit then
    o.stopPrice
  else o.price

/-- `AVLTree.Find`. -/
def findLevel : List LevelNode → Nat → Option LevelNode
  | [], _ => none
  | lv :: ls, p => if lv.level.price = p then some lv else findLevel ls p

/-- Replace the level at price `p` by `f` of it (in-place mutation of the
found tree node in Go). -/
def mapLevel (ls : List LevelNode) (p : Nat) (f : LevelNode → LevelNode) :
    List LevelNode :=
  ls.map (fun lv => if lv.level.price = p then f lv else lv)

/-- `AVLTree.Remove` of the level at price `p`. -/
def removeLevel : List LevelNode → Nat → List LevelNode
  | [], _ => []
  | lv :: ls, p =>
    if lv.level.price = p then removeLevel ls p else lv :: removeLevel ls p

/-- `AVLTree.First`, as a price: the best price in the tree under its
comparator (`none` on an empty tree). -/
def treeFirstPrice (k : TreeKey) (ls : List LevelNode) : Option Nat :=
  ls.foldl
    (fun acc lv =>
      match acc with
      | none => some lv.level.price
      | some b => if better k lv.level.price b then some lv.level.price else some b)
    none

/-! ### Order book (`orderbook.go`) -/

/-- `matching.OrderBook`.  The six cached best-level pointers are modelled
as the cached best *price* (`none` for a nil pointer). -/
structure OrderBook where
  symbol : Symbol
  bids : List LevelNode
  asks : List LevelNode
  buyStopLevels : List LevelNode
  sellStopLevels : List LevelNode
  trailingBuyStopLevels : List LevelNode
  trailingSellStopLevels : List LevelNode
  bestBid : Option Nat
  bestAsk : Option Nat
  bestBuyStop : Option Nat
  bestSellStop : Option Nat
  bestTrailingBuyStop : Option Nat
  bestTrailingSellStop : Option Nat
  lastBidPrice : Nat
  lastAskPrice : Nat
  matchingPrice : Nat
deriving DecidableEq, Repr

/-- `matching.NewOrderBook` (the `manager` back-pointer is implicit). -/
def NewOrderBook (symbol : Symbol) : OrderBook :=
  ⟨symbol, [], [], [], [], [], [], none, none, none, none, none, none, 0, 0, 0⟩

/-- The level tree selected by `k`. -/
def OrderBook.tree (ob : OrderBook) : TreeKey → List LevelNode
  | .bids => ob.bids
  | .asks => ob.asks
  | .buyStop => ob.buyStopLevels
  | .sellStop => ob.sellStopLevels
  | .trailingBuyStop => ob.trailingBuyStopLevels
  | .trailingSellStop => ob.trailingSellStopLevels

/-- Replace the level tree selected by `k`. -/
def OrderBook.setTree (ob : OrderBook) (k : TreeKey) (ls : List LevelNode) :
    OrderBook :=
  match k with
  | .bids => { ob with bids := ls }
  | .asks => { ob with asks := ls }
  | .buyStop => { ob with buyStopLevels := ls }
  | .sellStop => { ob with sellStopLevels := ls }
  | .trailingBuyStop => { ob with trailingBuyStopLevels := ls }
  | .trailingSellStop => { ob with trailingSellStopLevels := ls }

/-- The cached best price of the tree selected by `k`. -/
def OrderBook.best (ob : OrderBook) : TreeKey → Option Nat
  | .bids => ob.bestBid
  | .asks => ob.bestAsk
  | .buyStop => ob.bestBuyStop
  | .sellStop => ob.bestSellStop
  | .trailingBuyStop => ob.bestTrailingBuyStop
  | .trailingSellStop => ob.bestTrailingSellStop

/-- Replace the cached best price of the tree selected by `k`. -/
def OrderBook.setBest (ob : OrderBook) (k : TreeKey) (b : Option Nat) :
    OrderBook :=
  match k with
  | .bids => { ob with bestBid := b }
  | .asks => { ob with bestAsk := b }
  | .buyStop => { ob with bestBuyStop := b }
  | .sellStop => { ob with bestSellStop := b }
  | .trailingBuyStop => { ob with bestTrailingBuyStop := b }
  | .trailingSellStop => { ob with bestTrailingSellStop := b }

/-- `OrderList.PushBack` plus the level-statistics updates of
`OrderBook.AddOrder`. -/
def levelPushOrder (lv : LevelNode) (o : Order) : LevelNode :=
  { level :=
      { lv.level with
        totalVolume := lv.level.totalVolume + o.leavesQuantity
        hiddenVolume := lv.level.hiddenVolume + o.HiddenQuantity
        visibleVolume := lv.level.visibleVolume + o.VisibleQuantity
        orders := lv.level.orders + 1 }
    orderList := lv.orderList ++ [o.id] }

/-- `OrderList.Remove` plus the level-statistics updates of
`OrderBook.DeleteOrder`. -/
def levelRemoveOrder (lv : LevelNode) (o : Order) : LevelNode :=
  { level :=
      { lv.level with
        totalVolume := lv.level.totalVolume - o.leavesQuantity
        hiddenVolume := lv.level.hiddenVolume - o.HiddenQuantity
        visibleVolume := lv.level.visibleVolume - o.VisibleQuantity
        orders := lv.level.orders - 1 }
    orderList := lv.orderList.erase o.id }

/-- `OrderBook.AddLevel`: create the level for `o`'s routing price in the
routing tree and advance the cached best pointer when the new price is
strictly better (or the tree was empty). -/
def OrderBook.AddLevel (ob : OrderBook) (o : Order) : OrderBook :=
  let k := routeKey o
  let p := routePrice o
  let lv := NewLevelNode k.levelType p
  let ob1 := ob.setTree k (ob.tree k ++ [lv])
  match ob.best k with
  | none => ob1.setBest k (some p)
  | some b => if better k p b then ob1.setBest k (some p) else ob1

/-- `OrderBook.DeleteLevel`: remove `o`'s level from its routing tree and,
when the cached best pointed at it, re-seat the cached best from the tree's
`First`. -/
def OrderBook.DeleteLevel (ob : OrderBook) (o : Order) : OrderBook :=
  let k := routeKey o
  let p := routePrice o
  let ob1 := ob.setTree k (removeLevel (ob.tree k) p)
  if ob.best k = some p then
    ob1.setBest k (treeFirstPrice k (ob1.tree k))
  else ob1

/-- `OrderBook.AddOrder`: find or create the routing level, then push the
order and update the level statistics. -/
def OrderBook.AddOrder (ob : OrderBook) (o : Order) : OrderBook :=
  let k := routeKey o
  let p := routePrice o
  let ob1 :=
    match findLevel (ob.tree k) p with
    | some _ => ob
    | none => ob.AddLevel o
  ob1.setTree k (mapLevel (ob1.tree k) p (levelPushOrder · o))

/-- `OrderBook.ReduceOrder`: decrement the volume counters of `o`'s level.
(Unreachable-in-Go no-op when the level is absent: Go would dereference the
order's nil `Level` pointer.) -/
def OrderBook.ReduceOrder (ob : OrderBook) (o : Order)
    (quantity hidden visible : Nat) : OrderBook :=
  let k := routeKey o
  let p := routePrice o
  ob.setTree k (mapLevel (ob.tree k) p (fun lv =>
    { lv with level :=
        { lv.level with
          totalVolume := lv.level.totalVolume - quantity
          hiddenVolume := lv.level.hiddenVolume - hidden
          visibleVolume := lv.level.visibleVolume - visible } }))

/-- `OrderBook.DeleteOrder`: unlink the order from its level, update the
counters, and delete the level if it became empty. -/
def OrderBook.DeleteOrder (ob : OrderBook) (o : Order) : OrderBook :=
  let k := routeKey o
  let p := routePrice o
  match findLevel (ob.tree k) p with
  | none => ob
  | some lv =>
    let lv' := levelRemoveOrder lv o
    if lv'.orderList.isEmpty then
      (ob.setTree k (mapLevel (ob.tree k) p (fun _ => lv'))).DeleteLevel o
    else
      ob.setTree k (mapLevel (ob.tree k) p (fun _ => lv'))

/-! ### Market manager (market_manager.go) -/

/-- Association-list lookup keyed by `Nat` (Go map read). -/
def alookup {α : Type} : List (Nat × α) → Nat → Option α
  | [], _ => none
  | p :: l, k => if p.1 = k then some p.2 else alookup l k

/-- Overwrite the value at key `k` (Go map write to an existing key /
in-place mutation through a stored pointer). -/
def updEntry {α : Type} (l : List (Nat × α)) (k : Nat) (v : α) :
    List (Nat × α) :=
  l.map (fun p => if p.1 = k then (k, v) else p)

/-- Remove the entry at key `k` (Go `delete`). -/
def eraseEntry {α : Type} : List (Nat × α) → Nat → List (Nat × α)
  | [], _ => []
  | p :: l, k => if p.1 = k then eraseEntry l k else p :: eraseEntry l k

/-- `matching.MarketManager`.  The handler is replaced by the event lists
the operations return. -/
structure MarketManager where
  symbols : List (Nat × Symbol)
  orderBooks : List (Nat × OrderBook)
  orders : List (Nat × Order)
  matching : Bool
deriving DecidableEq, Repr

/-- `matching.NewMarketManager`. -/
def NewMarketManager : MarketManager :=
  ⟨[], [], [], false⟩

/-- Result of a mutating `MarketManager` operation: the new state, the
handler callbacks dispatched (in order), and the returned error code. -/
structure OpResult where
  mm : MarketManager
  events : List MarketEvent
  code : ErrorCode
deriving DecidableEq, Repr

/-- `MarketManager.EnableMatching`. -/
def MarketManager.EnableMatching (m : MarketManager) : MarketManager :=
  { m with matching := true }

/-- `MarketManager.DisableMatching`. -/
def MarketManager.DisableMatching (m : MarketManager) : MarketManager :=
  { m with matching := false }

/-- `MarketManager.validateOrder`. -/
def MarketManager.validateOrder (o : Order) : ErrorCode :=
  if o.id = 0 then ErrorOrderIDInvalid
  else if o.quantity = 0 then ErrorOrderQuantityInvalid
  else if o.otype = OrderTypeLimit then
    if o.price = 0 then ErrorOrderParameterInvalid else ErrorOK
  else if o.otype = OrderTypeStop then
    if o.stopPrice = 0 then ErrorOrderParameterInvalid else ErrorOK
  else if o.otype = OrderTypeStopLimit then
    if o.price = 0 ∨ o.stopPrice = 0 then ErrorOrderParameterInvalid else ErrorOK
  else if o.otype = OrderTypeTrailingStop then
    if o.trailingDistance = 0 then ErrorOrderParameterInvalid else ErrorOK
  else if o.otype = OrderTypeTrailingStopLimit then
    if o.price = 0 ∨ o.trailingDistance = 0 then ErrorOrderParameterInvalid
    else ErrorOK
  else ErrorOK

/-- `MarketManager.updateLevel`: the level event (determined by
`updateType`) followed by `OnUpdateOrderBook`.  `top` is the Go pointer
comparison `ob.bestBid == order.Level` (resp. `bestAsk`): it can only hold
for an order routed to the bid (resp. ask) tree, and is then equality of the
cached best price with the order's level price.  When the order's level does
not exist (`order.Level == nil` in Go) no events are dispatched. -/
def MarketManager.updateLevel (ob : OrderBook) (o : Order)
    (updateType : UpdateType) : List MarketEvent :=
  match findLevel (ob.tree (routeKey o)) (routePrice o) with
  | none => []
  | some lv =>
    let top :=
      if o.IsBuy then
        routeKey o == TreeKey.bids && ob.bestBid == some (routePrice o)
      else
        routeKey o == TreeKey.asks && ob.bestAsk == some (routePrice o)
    (match updateType with
     | .UpdateAdd => [MarketEvent.onAddLevel ob.symbol.id lv.level top]
     | .UpdateUpdate => [MarketEvent.onUpdateLevel ob.symbol.id lv.level top]
     | .UpdateDelete => [MarketEvent.onDeleteLevel ob.symbol.id lv.level top]
     | .UpdateNone => []) ++
    [MarketEvent.onUpdateOrderBook ob.symbol.id top]

/-- `MarketManager.executeOrder` (the private helper): apply the fill to
the order, reduce its level's volumes, dispatch `OnExecuteOrder`, and
either remove the completed order (level `Delete` event, registry erase,
`OnDeleteOrder`) or dispatch `OnUpdateOrder` plus a level `Update`.
(No-op when the order's book is missing — Go would panic; unreachable from
consistent states.) -/
def MarketManager.executeOrderStep (m : MarketManager) (o : Order)
    (price quantity : Nat) : OpResult :=
  match alookup m.orderBooks o.symbolID with
  | none => ⟨m, [], ErrorOK⟩
  | some ob =>
    let oldHidden := o.HiddenQuantity
    let oldVisible := o.VisibleQuantity
    let o' := { o with
      executedQuantity := o.executedQuantity + quantity
      leavesQuantity := o.leavesQuantity - quantity }
    let m1 := { m with orders := updEntry m.orders o.id o' }
    let ob1 := ob.ReduceOrder o' quantity (oldHidden - o'.HiddenQuantity)
      (oldVisible - o'.VisibleQuantity)
    if o'.leavesQuantity = 0 then
      let ev2 := MarketManager.updateLevel ob1 o' .UpdateDelete
      let ob2 := ob1.DeleteOrder o'
      ⟨{ m1 with
          orderBooks := updEntry m1.orderBooks o.symbolID ob2
          orders := eraseEntry m1.orders o'.id },
        MarketEvent.onExecuteOrder o' price quantity :: ev2 ++
          [MarketEvent.onDeleteOrder o'],
        ErrorOK⟩
    else
      ⟨{ m1 with orderBooks := updEntry m1.orderBooks o.symbolID ob1 },
        MarketEvent.onExecuteOrder o' price quantity ::
          MarketEvent.onUpdateOrder o' ::
          MarketManager.updateLevel ob1 o' .UpdateUpdate,
        ErrorOK⟩

/-- One pass of the matching loop of `MarketManager.match`, with explicit
fuel.  Each successful iteration matches the FIFO front orders of the best
bid and best ask levels while the book is crossed
(`bestBid.Price ≥ bestAsk.Price`), executing both sides at
`askOrder.Price` for `min` of the leaves quantities.  The fuel never runs
out on consistent states (each iteration removes at least one order from
the book, see `matchLoop_done`). -/
def matchLoop : Nat → MarketManager → Nat → MarketManager × List MarketEvent
  | 0, m, _ => (m, [])
  | fuel + 1, m, symbolID =>
    match alookup m.orderBooks symbolID with
    | none => (m, [])
    | some ob =>
      match ob.bestBid, ob.bestAsk with
      | some bidPrice, some askPrice =>
        if bidPrice < askPrice then (m, [])
        else
          match findLevel ob.bids bidPrice, findLevel ob.asks askPrice with
          | some bidLevel, some askLevel =>
            match bidLevel.orderList.head?, askLevel.orderList.head? with
            | some bidID, some askID =>
              match alookup m.orders bidID, alookup m.orders askID with
              | some bidOrder, some askOrder =>
                let quantity :=
                  min bidOrder.leavesQuantity askOrder.leavesQuantity
                let price := askOrder.price
                let r1 := m.executeOrderStep bidOrder price quantity
                let r2 :=
                  match alookup r1.mm.orders askID with
                  | some a1 => r1.mm.executeOrderStep a1 price quantity
                  | none => ⟨r1.mm, [], ErrorOK⟩
                let r3 := matchLoop fuel r2.mm symbolID
                (r3.1, r1.events ++ r2.events ++ r3.2)
              | _, _ => (m, [])
            | _, _ => (m, [])
          | _, _ => (m, [])
      | _, _ => (m, [])

/-- The number of orders resting on the bid and ask sides of book
`symbolID` — an upper bound on the matching loop's iteration count. -/
def matchMeasure (m : MarketManager) (symbolID : Nat) : Nat :=
  match alookup m.orderBooks symbolID with
  | none => 0
  | some ob =>
    (ob.bids.map (fun lv => lv.orderList.length)).sum +
      (ob.asks.map (fun lv => lv.orderList.length)).sum

/-- `MarketManager.match` (the private helper; `match` is reserved in
Lean).  The Go loop runs until one of its exit guards fires; on every
consistent state that happens within `matchMeasure` iterations. -/
def MarketManager.matchOrders (m : MarketManager) (symbolID : Nat) :
    MarketManager × List MarketEvent :=
  matchLoop (matchMeasure m symbolID + 1) m symbolID

/-- `MarketManager.AddSymbol`. -/
def MarketManager.AddSymbol (m : MarketManager) (symbol : Symbol) : OpResult :=
  if (alookup m.symbols symbol.id).isSome then ⟨m, [], ErrorSymbolDuplicate⟩
  else
    ⟨{ m with symbols := m.symbols ++ [(symbol.id, symbol)] },
      [MarketEvent.onAddSymbol symbol], ErrorOK⟩

/-- `MarketManager.AddOrderBook`. -/
def MarketManager.AddOrderBook (m : MarketManager) (symbol : Symbol) :
    OpResult :=
  if (alookup m.orderBooks symbol.id).isSome then
    ⟨m, [], ErrorOrderBookDuplicate⟩
  else
    ⟨{ m with orderBooks := m.orderBooks ++ [(symbol.id, NewOrderBook symbol)] },
      [MarketEvent.onAddOrderBook symbol.id], ErrorOK⟩

/-- `MarketManager.DeleteOrder`. -/
def MarketManager.DeleteOrder (m : MarketManager) (id : Nat) : OpResult :=
  match alookup m.orders id with
  | none => ⟨m, [], ErrorOrderNotFound⟩
  | some o =>
    match alookup m.orderBooks o.symbolID with
    | none => ⟨m, [], ErrorOK⟩
    | some ob =>
      let ev1 := MarketManager.updateLevel ob o .UpdateDelete
      let ob1 := ob.DeleteOrder o
      ⟨{ m with
          orderBooks := updEntry m.orderBooks o.symbolID ob1
          orders := eraseEntry m.orders id },
        ev1 ++ [MarketEvent.onDeleteOrder o], ErrorOK⟩

/-- `MarketManager.AddOrder`. -/
def MarketManager.AddOrder (m : MarketManager) (order : Order) : OpResult :=
  let v := MarketManager.validateOrder order
  if v ≠ ErrorOK then ⟨m, [], v⟩
  else if (alookup m.orders order.id).isSome then ⟨m, [], ErrorOrderDuplicate⟩
  else
    match alookup m.orderBooks order.symbolID with
    | none => ⟨m, [], ErrorOrderBookNotFound⟩
    | some ob =>
      let m1 := { m with orders := m.orders ++ [(order.id, order)] }
      let ob1 := ob.AddOrder order
      let m2 := { m1 with orderBooks := updEntry m1.orderBooks order.symbolID ob1 }
      let ev := MarketEvent.onAddOrder order ::
        MarketManager.updateLevel ob1 order .UpdateAdd
      if m.matching then
        let r := m2.matchOrders order.symbolID
        ⟨r.1, ev ++ r.2, ErrorOK⟩
      else ⟨m2, ev, ErrorOK⟩

/-- `MarketManager.ReduceOrder`. -/
def MarketManager.ReduceOrder (m : MarketManager) (id quantity : Nat) :
    OpResult :=
  match alookup m.orders id with
  | none => ⟨m, [], ErrorOrderNotFound⟩
  | some o =>
    if quantity = 0 then ⟨m, [], ErrorOrderQuantityInvalid⟩
    else if o.leavesQuantity ≤ quantity then m.DeleteOrder id
    else
      match alookup m.orderBooks o.symbolID with
      | none => ⟨m, [], ErrorOK⟩
      | some ob =>
        let oldHidden := o.HiddenQuantity
        let oldVisible := o.VisibleQuantity
        let o' := { o with leavesQuantity := o.leavesQuantity - quantity }
        let ob1 := ob.ReduceOrder o' quantity (oldHidden - o'.HiddenQuantity)
          (oldVisible - o'.VisibleQuantity)
        ⟨{ m with
            orders := updEntry m.orders id o'
            orderBooks := updEntry m.orderBooks o.symbolID ob1 },
          MarketEvent.onUpdateOrder o' ::
            MarketManager.updateLevel ob1 o' .UpdateUpdate,
          ErrorOK⟩

/-- `MarketManager.ModifyOrder`. -/
def MarketManager.ModifyOrder (m : MarketManager)
    (id newPrice newQuantity : Nat) : OpResult :=
  match alookup m.orders id with
  | none => ⟨m, [], ErrorOrderNotFound⟩
  | some o =>
    if newQuantity = 0 then ⟨m, [], ErrorOrderQuantityInvalid⟩
    else
      match alookup m.orderBooks o.symbolID with
      | none => ⟨m, [], ErrorOK⟩
      | some ob =>
        let ev1 := MarketManager.updateLevel ob o .UpdateDelete
        let ob1 := ob.DeleteOrder o
        let o' := { o with
          price := newPrice
          quantity := newQuantity
          leavesQuantity := newQuantity
          executedQuantity := 0 }
        let ob2 := ob1.AddOrder o'
        let m1 := { m with
          orders := updEntry m.orders id o'
          orderBooks := updEntry m.orderBooks o.symbolID ob2 }
        let ev := ev1 ++ MarketEvent.onUpdateOrder o' ::
          MarketManager.updateLevel ob2 o' .UpdateAdd
        if m.matching then
          let r := m1.matchOrders o.symbolID
          ⟨r.1, ev ++ r.2, ErrorOK⟩
        else ⟨m1, ev, ErrorOK⟩

/-- `MarketManager.MitigateOrder`. -/
def MarketManager.MitigateOrder (m : MarketManager)
    (id newPrice newQuantity : Nat) : OpResult :=
  match alookup m.orders id with
  | none => ⟨m, [], ErrorOrderNotFound⟩
  | some o =>
    if newQuantity ≤ o.executedQuantity then m.DeleteOrder id
    else
      match alookup m.orderBooks o.symbolID with
      | none => ⟨m, [], ErrorOK⟩
      | some ob =>
        let ev1 := MarketManager.updateLevel ob o .UpdateDelete
        let ob1 := ob.DeleteOrder o
        let o' := { o with
          price := newPrice
          quantity := newQuantity
          leavesQuantity := newQuantity - o.executedQuantity }
        let ob2 := ob1.AddOrder o'
        let m1 := { m with
          orders := updEntry m.orders id o'
          orderBooks := updEntry m.orderBooks o.symbolID ob2 }
        let ev := ev1 ++ MarketEvent.onUpdateOrder o' ::
          MarketManager.updateLevel ob2 o' .UpdateAdd
        if m.matching then
          let r := m1.matchOrders o.symbolID
          ⟨r.1, ev ++ r.2, ErrorOK⟩
        else ⟨m1, ev, ErrorOK⟩

/-- `MarketManager.ReplaceOrder`. -/
def MarketManager.ReplaceOrder (m : MarketManager)
    (id newID newPrice newQuantity : Nat) : OpResult :=
  match alookup m.orders id with
  | none => ⟨m, [], ErrorOrderNotFound⟩
  | some o =>
    if newQuantity = 0 then ⟨m, [], ErrorOrderQuantityInvalid⟩
    else if (alookup m.orders newID).isSome then ⟨m, [], ErrorOrderDuplicate⟩
    else
      match alookup m.orderBooks o.symbolID with
      | none => ⟨m, [], ErrorOK⟩
      | some ob =>
        let ev1 := MarketManager.updateLevel ob o .UpdateDelete
        let ob1 := ob.DeleteOrder o
        let m1 := { m with
          orders := eraseEntry m.orders id
          orderBooks := updEntry m.orderBooks o.symbolID ob1 }
        let newOrder : Order :=
          { id := newID
            symbolID := o.symbolID
            otype := o.otype
            side := o.side
            price := newPrice
            stopPrice := o.stopPrice
            quantity := newQuantity
            executedQuantity := 0
            leavesQuantity := newQuantity
            timeInForce := o.timeInForce
            maxVisibleQuantity := o.maxVisibleQuantity
            slippage := o.slippage
            trailingDistance := o.trailingDistance
            trailingStep := o.trailingStep }
        let ob2 := ob1.AddOrder newOrder
        let m2 := { m1 with
          orders := m1.orders ++ [(newID, newOrder)]
          orderBooks := updEntry m1.orderBooks o.symbolID ob2 }
        let ev := ev1 ++ MarketEvent.onDeleteOrder o ::
          MarketEvent.onAddOrder newOrder ::
          MarketManager.updateLevel ob2 newOrder .UpdateAdd
        if m.matching then
          let r := m2.matchOrders o.symbolID
          ⟨r.1, ev ++ r.2, ErrorOK⟩
        else ⟨m2, ev, ErrorOK⟩

/-- `MarketManager.ExecuteOrder`. -/
def MarketManager.ExecuteOrder (m : MarketManager) (id quantity : Nat) :
    OpResult :=
  match alookup m.orders id with
  | none => ⟨m, [], ErrorOrderNotFound⟩
  | some o =>
    if quantity = 0 ∨ o.leavesQuantity < quantity then
      ⟨m, [], ErrorOrderQuantityInvalid⟩
    else m.executeOrderStep o o.price quantity

/-- `MarketManager.ExecuteOrderWithPrice`. -/
def MarketManager.ExecuteOrderWithPrice (m : MarketManager)
    (id price quantity : Nat) : OpResult :=
  match alookup m.orders id with
  | none => ⟨m, [], ErrorOrderNotFound⟩
  | some o =>
    if quantity = 0 ∨ o.leavesQuantity < quantity then
      ⟨m, [], ErrorOrderQuantityInvalid⟩
    else m.executeOrderStep o price quantity

/-- `MarketManager.Match` (the public entry point). -/
def MarketManager.Match (m : MarketManager) (symbolID : Nat) : OpResult :=
  if (alookup m.orderBooks symbolID).isSome then
    let r := m.matchOrders symbolID
    ⟨r.1, r.2, ErrorOK⟩
  else ⟨m, [], ErrorOrderBookNotFound⟩

/-- Delete the orders with the listed ids in sequence
(`MarketManager.DeleteOrderBook`'s cancellation loop). -/
def deleteOrdersRun (m : MarketManager) :
    List Nat → MarketManager × List MarketEvent
  | [] => (m, [])
  | id :: rest =>
    let r := m.DeleteOrder id
    let r2 := deleteOrdersRun r.mm rest
    (r2.1, r.events ++ r2.2)

/-- `MarketManager.DeleteOrderBook`: cancel every order of the symbol
(iterating a pre-collected id list), then remove the book.  Go iterates the
`orders` map in unspecified order; the model fixes registry order. -/
def MarketManager.DeleteOrderBook (m : MarketManager) (id : Nat) : OpResult :=
  match alookup m.orderBooks id with
  | none => ⟨m, [], ErrorOrderBookNotFound⟩
  | some _ =>
    let ids := (m.orders.filter (fun p => p.2.symbolID == id)).map (·.1)
    let r := deleteOrdersRun m ids
    ⟨{ r.1 with orderBooks := eraseEntry r.1.orderBooks id },
      r.2 ++ [MarketEvent.onDeleteOrderBook id], ErrorOK⟩

/-- `MarketManager.DeleteSymbol`. -/
def MarketManager.DeleteSymbol (m : MarketManager) (id : Nat) : OpResult :=
  match alookup m.symbols id with
  | none => ⟨m, [], ErrorSymbolNotFound⟩
  | some symbol =>
    let r :=
      if (alookup m.orderBooks id).isSome then m.DeleteOrderBook id
      else ⟨m, [], ErrorOK⟩
    ⟨{ r.mm with symbols := eraseEntry r.mm.symbols id },
      r.events ++ [MarketEvent.onDeleteSymbol symbol], ErrorOK⟩

/-! ## Persistence layer (`persistence` package) -/

/-- `persistence.EventType` constants. -/
def EventNewOrder : Nat := 1

def EventCancelOrder : Nat := 2

/-- `persistence.MatchingEvent`.  Unused fields carry Go zero values. -/
structure MatchingEvent where
  etype : Nat
  timestamp : Int
  order : Order
  orderID : Nat
deriving DecidableEq, Repr

/-- `orderWireSize`: fixed byte size of a serialised `matching.Order`. -/
def orderWireSize : Nat := 87

/-- `persistence.marshalOrder`: the 87-byte big-endian order layout.
Offsets match the Go writes (id at 0, symbol id at 8, …, trailing step at
79); the signed trailing fields go through `uint64(int64)`. -/
def marshalOrder (o : Order) : List Nat :=
  beBytes 8 o.id ++
  beBytes 4 o.symbolID ++
  beBytes 1 o.otype ++
  beBytes 1 o.side ++
  beBytes 8 o.price ++
  beBytes 8 o.stopPrice ++
  beBytes 8 o.quantity ++
  beBytes 8 o.executedQuantity ++
  beBytes 8 o.leavesQuantity ++
  beBytes 1 o.timeInForce ++
  beBytes 8 o.maxVisibleQuantity ++
  beBytes 8 o.slippage ++
  beBytes 8 (toUInt64Bits o.trailingDistance) ++
  beBytes 8 (toUInt64Bits o.trailingStep)

/-- `persistence.unmarshalOrder`: read the 87-byte layout back.  The Go
code reads absolute offsets `buf[0:8]`, `buf[8:12]`, …; the model splits
the buffer sequentially, which consumes the identical byte ranges. -/
def unmarshalOrder (buf : List Nat) : Order :=
  let r0 := buf
  let r1 := r0.drop 8
  let r2 := r1.drop 4
  let r3 := r2.drop 1
  let r4 := r3.drop 1
  let r5 := r4.drop 8
  let r6 := r5.drop 8
  let r7 := r6.drop 8
  let r8 := r7.drop 8
  let r9 := r8.drop 8
  let r10 := r9.drop 1
  let r11 := r10.drop 8
  let r12 := r11.drop 8
  let r13 := r12.drop 8
  { id := beVal (r0.take 8)
    symbolID := beVal (r1.take 4)
    otype := beVal (r2.take 1)
    side := beVal (r3.take 1)
    price := beVal (r4.take 8)
    stopPrice := beVal (r5.take 8)
    quantity := beVal (r6.take 8)
    executedQuantity := beVal (r7.take 8)
    leavesQuantity := beVal (r8.take 8)
    timeInForce := beVal (r9.take 1)
    maxVisibleQuantity := beVal (r10.take 8)
    slippage := beVal (r11.take 8)
    trailingDistance := ofUInt64Bits (beVal (r12.take 8))
    trailingStep := ofUInt64Bits (beVal (r13.take 8)) }

/-- `persistence.encodeEvent`: the length-prefixed journal record.
Returns `none` for an unknown event type (Go returns an error). -/
def encodeEvent (e : MatchingEvent) : Option (List Nat) :=
  if e.etype = EventNewOrder then
    let payloadSize := 1 + 8 + orderWireSize
    some (beBytes 4 payloadSize ++ beBytes 1 e.etype ++
      beBytes 8 (toUInt64Bits e.timestamp) ++ marshalOrder e.order)
  else if e.etype = EventCancelOrder then
    let payloadSize := 1 + 8 + 8
    some (beBytes 4 payloadSize ++ beBytes 1 e.etype ++
      beBytes 8 (toUInt64Bits e.timestamp) ++ beBytes 8 e.orderID)
  else none

/-- The distinguishable failures of `persistence.decodeEvent`, as seen by
`ReadAll`: a short read of the 4-byte length prefix surfaces as untouched
`io.EOF`/`io.ErrUnexpectedEOF` (tolerated), every other failure is a
distinct wrapped error (hard). -/
inductive DecodeResult where
  /-- A full record was decoded; `rest` is the unread remainder. -/
  | ok (e : MatchingEvent) (rest : List Nat)
  /-- `io.ReadFull` of the length prefix hit end of stream
  (`io.EOF` when nothing was read, `io.ErrUnexpectedEOF` on 1–3 bytes). -/
  | truncated
  /-- `persistence: invalid record length %d` (length field < 9). -/
  | errInvalidLength (n : Nat)
  /-- `persistence: reading record payload: %w` (short read after a
  complete length prefix — a wrapped error, hence hard). -/
  | errShortPayloadRead
  /-- `persistence: short NewOrder payload (%d bytes)`. -/
  | errShortNewOrder (n : Nat)
  /-- `persistence: short CancelOrder payload (%d bytes)`. -/
  | errShortCancelOrder (n : Nat)
  /-- `persistence: unknown EventType %d`. -/
  | errUnknownType (t : Nat)
deriving DecidableEq, Repr

/-- The payload half of `persistence.decodeEvent`: parse the event tag,
timestamp and event-specific payload out of a complete, length-delimited
payload (`rest` is the unread remainder of the stream). -/
def decodePayload (payload rest : List Nat) : DecodeResult :=
  let etype := beVal (payload.take 1)
  let ts := ofUInt64Bits (beVal ((payload.drop 1).take 8))
  if etype = EventNewOrder then
    if payload.length < 9 + orderWireSize then
      .errShortNewOrder payload.length
    else
      .ok ⟨etype, ts, unmarshalOrder (payload.drop 9), 0⟩ rest
  else if etype = EventCancelOrder then
    if payload.length < 17 then .errShortCancelOrder payload.length
    else
      .ok ⟨etype, ts, Order.zero, beVal ((payload.drop 9).take 8)⟩ rest
  else .errUnknownType etype

/-- `persistence.decodeEvent` over a byte stream: read the 4-byte length
prefix (`io.ReadFull`), validate it, read the payload, and parse it. -/
def decodeEvent (input : List Nat) : DecodeResult :=
  if input.length < 4 then .truncated
  else
    let payloadLen := beVal (input.take 4)
    let r1 := input.drop 4
    if payloadLen < 9 then .errInvalidLength payloadLen
    else if r1.length < payloadLen then .errShortPayloadRead
    else decodePayload (r1.take payloadLen) (r1.drop payloadLen)

theorem decodePayload_ok_rest {payload rest : List Nat} {e : MatchingEvent}
    {r' : List Nat} (h : decodePayload payload rest = .ok e r') :
    r' = rest := by
  simp only [decodePayload] at h
  repeat' split at h
  all_goals first
    | exact absurd h (by intro hc; exact DecodeResult.noConfusion hc)
    | exact (DecodeResult.ok.inj h).2.symm

theorem decodeEvent_ok_rest_length {input : List Nat} {e : MatchingEvent}
    {rest : List Nat} (h : decodeEvent input = .ok e rest) :
    rest.length < input.length := by
  simp only [decodeEvent] at h
  by_cases h4 : input.length < 4
  · rw [if_pos h4] at h
    exact absurd h (by intro hc; exact DecodeResult.noConfusion hc)
  · rw [if_neg h4] at h
    by_cases h9 : beVal (input.take 4) < 9
    · rw [if_pos h9] at h
      exact absurd h (by intro hc; exact DecodeResult.noConfusion hc)
    · rw [if_neg h9] at h
      by_cases hsh : (input.drop 4).length < beVal (input.take 4)
      · rw [if_pos hsh] at h
        exact absurd h (by intro hc; exact DecodeResult.noConfusion hc)
      · rw [if_neg hsh] at h
        have := decodePayload_ok_rest h
        subst this
        simp only [List.length_drop]
        omega

/-- `persistence.ReadAll`: decode records until the stream ends.  A
truncated length prefix ends the scan without error; any hard decode error
is returned together with the events decoded so far. -/
def ReadAll (input : List Nat) : List MatchingEvent × Option DecodeResult :=
  match h : decodeEvent input with
  | .ok e rest =>
    let r := ReadAll rest
    (e :: r.1, r.2)
  | .truncated => ([], none)
  | r => ([], some r)
termination_by input.length
decreasing_by exact decodeEvent_ok_rest_length h

/-- `persistence.Snapshot`. -/
structure Snapshot where
  timestamp : Int
  symbols : List Symbol
  orders : List Order
deriving DecidableEq, Repr

/-- `persistence.captureSnapshot`: clone the symbol and order values out
of the engine registries (`ts` stands for `time.Now().UnixNano()`). -/
def captureSnapshot (m : MarketManager) (ts : Int) : Snapshot :=
  ⟨ts, m.symbols.map (·.2), m.orders.map (·.2)⟩

/-- Modelled from the spec: `MarketManager.RestoreOrder` is called by the
recovery path (`applySnapshot` in src/persistence) but its implementation
is not among the source files.  Per §4.9 of the spec it re-inserts the
order without running the matching loop and without clearing the executed
quantity, reporting `OrderDuplicate` for an already-registered id (which
the caller tolerates). -/
def MarketManager.RestoreOrder (m : MarketManager) (order : Order) :
    OpResult :=
  if (alookup m.orders order.id).isSome then ⟨m, [], ErrorOrderDuplicate⟩
  else
    match alookup m.orderBooks order.symbolID with
    | none => ⟨m, [], ErrorOrderBookNotFound⟩
    | some ob =>
      let m1 := { m with orders := m.orders ++ [(order.id, order)] }
      let ob1 := ob.AddOrder order
      ⟨{ m1 with orderBooks := updEntry m1.orderBooks order.symbolID ob1 },
        [MarketEvent.onAddOrder order], ErrorOK⟩

/-- The symbol half of `persistence.applySnapshot`: `AddSymbol` then
`AddOrderBook` for each snapshot symbol, tolerating duplicates. -/
def applySymbols (m : MarketManager) :
    List Symbol → Except ErrorCode MarketManager
  | [] => .ok m
  | s :: rest =>
    let r := m.AddSymbol s
    if r.code ≠ ErrorOK ∧ r.code ≠ ErrorSymbolDuplicate then .error r.code
    else
      let r2 := r.mm.AddOrderBook s
      if r2.code ≠ ErrorOK ∧ r2.code ≠ ErrorOrderBookDuplicate then
        .error r2.code
      else applySymbols r2.mm rest

/-- The order half of `persistence.applySnapshot`: `RestoreOrder` for each
snapshot order, tolerating duplicates. -/
def applyOrders (m : MarketManager) :
    List Order → Except ErrorCode MarketManager
  | [] => .ok m
  | o :: rest =>
    let r := m.RestoreOrder o
    if r.code ≠ ErrorOK ∧ r.code ≠ ErrorOrderDuplicate then .error r.code
    else applyOrders r.mm rest

/-- `persistence.applySnapshot`. -/
def applySnapshot (m : MarketManager) (snap : Snapshot) :
    Except ErrorCode MarketManager :=
  (applySymbols m snap.symbols).bind (fun m1 => applyOrders m1 snap.orders)

/-- `persistence.applyEvent`: replay one journal record, tolerating
`OrderDuplicate` on new-order events and `OrderNotFound` on cancels. -/
def applyEvent (m : MarketManager) (e : MatchingEvent) :
    Except ErrorCode MarketManager :=
  if e.etype = EventNewOrder then
    let r := m.AddOrder e.order
    if r.code ≠ ErrorOK ∧ r.code ≠ ErrorOrderDuplicate then .error r.code
    else .ok r.mm
  else if e.etype = EventCancelOrder then
    let r := m.DeleteOrder e.orderID
    if r.code ≠ ErrorOK ∧ r.code ≠ ErrorOrderNotFound then .error r.code
    else .ok r.mm
  else .error ErrorOrderTypeInvalid

/-- The journal-replay loop of `persistence.Recover`: apply every event
with a timestamp strictly greater than the snapshot timestamp. -/
def replayEvents (snapshotTS : Int) (m : MarketManager) :
    List MatchingEvent → Except ErrorCode MarketManager
  | [] => .ok m
  | e :: rest =>
    if e.timestamp ≤ snapshotTS then replayEvents snapshotTS m rest
    else (applyEvent m e).bind (fun m1 => replayEvents snapshotTS m1 rest)

/-- `persistence.Recover`, over an already-loaded latest snapshot (`none`
when the directory holds none, making `snapshotTS` zero) and an
already-read journal. -/
def Recover (m : MarketManager) (snap : Option Snapshot)
    (journal : List MatchingEvent) : Except ErrorCode MarketManager :=
  match snap with
  | none => replayEvents 0 m journal
  | some s => (applySnapshot m s).bind (fun m1 => replayEvents s.timestamp m1 journal)

/-! ### Persistence manager (`persistence.Manager`) -/

/-- `persistence.Manager`: the journal (as the list of appended events)
plus the wrapped engine. -/
structure PManager where
  journal : List MatchingEvent
  mm : MarketManager
deriving DecidableEq, Repr

/-- The outcome of a `persistence.Manager` command. -/
inductive PResult where
  /-- `nil` error. -/
  | ok
  /-- `persistence: journalling …: %w` — the journal append's IO error. -/
  | journalIOError
  /-- `persistence: AddOrder/CancelOrder: %w` — the engine's error code. -/
  | engineError (code : ErrorCode)
deriving DecidableEq, Repr

/-- `Manager.AddOrder`: journal the event, then submit to the engine.
`appendFails` models the journal write returning an IO error; `now` stands
for `time.Now().UnixNano()`. -/
def PManager.AddOrder (st : PManager) (appendFails : Bool) (now : Int)
    (order : Order) : PManager × PResult :=
  let event : MatchingEvent := ⟨EventNewOrder, now, order, 0⟩
  if appendFails then (st, .journalIOError)
  else
    let st1 := { st with journal := st.journal ++ [event] }
    let r := st1.mm.AddOrder order
    if r.code ≠ ErrorOK then ({ st1 with mm := r.mm }, .engineError r.code)
    else ({ st1 with mm := r.mm }, .ok)

/-- `Manager.CancelOrder`. -/
def PManager.CancelOrder (st : PManager) (appendFails : Bool) (now : Int)
    (orderID : Nat) : PManager × PResult :=
  let event : MatchingEvent := ⟨EventCancelOrder, now, Order.zero, orderID⟩
  if appendFails then (st, .journalIOError)
  else
    let st1 := { st with journal := st.journal ++ [event] }
    let r := st1.mm.DeleteOrder orderID
    if r.code ≠ ErrorOK then ({ st1 with mm := r.mm }, .engineError r.code)
    else ({ st1 with mm := r.mm }, .ok)


/-! ## General lemmas about the map and tree models -/

theorem alookup_append {α : Type} (l₁ l₂ : List (Nat × α)) (k : Nat) :
    alookup (l₁ ++ l₂) k = (alookup l₁ k).or (alookup l₂ k) := by
  induction l₁ with
  | nil => simp [alookup]
  | cons p l ih =>
    by_cases h : p.1 = k <;> simp [alookup, h, ih]

theorem updEntry_cons {α : Type} (p : Nat × α) (l : List (Nat × α))
    (k : Nat) (v : α) :
    updEntry (p :: l) k v =
      (if p.1 = k then (k, v) else p) :: updEntry l k v := rfl

theorem alookup_updEntry_ne {α : Type} (l : List (Nat × α)) (k k' : Nat)
    (v : α) (h : k' ≠ k) : alookup (updEntry l k v) k' = alookup l k' := by
  induction l with
  | nil => rfl
  | cons p l ih =>
    rw [updEntry_cons]
    by_cases hp : p.1 = k
    · rw [if_pos hp, alookup, alookup, if_neg (by omega), if_neg (by omega)]
      exact ih
    · rw [if_neg hp, alookup, alookup]
      by_cases hk : p.1 = k'
      · rw [if_pos hk, if_pos hk]
      · rw [if_neg hk, if_neg hk]
        exact ih

theorem alookup_updEntry_eq {α : Type} (l : List (Nat × α)) (k : Nat)
    (v : α) (h : (alookup l k).isSome) :
    alookup (updEntry l k v) k = some v := by
  induction l with
  | nil => simp [alookup] at h
  | cons p l ih =>
    rw [updEntry_cons]
    by_cases hp : p.1 = k
    · rw [if_pos hp, alookup]
      simp
    · rw [if_neg hp, alookup, if_neg hp]
      rw [alookup, if_neg hp] at h
      exact ih h

theorem alookup_eraseEntry_eq {α : Type} (l : List (Nat × α)) (k : Nat) :
    alookup (eraseEntry l k) k = none := by
  induction l with
  | nil => rfl
  | cons p l ih =>
    by_cases hp : p.1 = k
    · simpa [eraseEntry, hp] using ih
    · simpa [eraseEntry, hp, alookup] using ih

theorem alookup_eraseEntry_ne {α : Type} (l : List (Nat × α)) (k k' : Nat)
    (h : k' ≠ k) : alookup (eraseEntry l k) k' = alookup l k' := by
  induction l with
  | nil => rfl
  | cons p l ih =>
    by_cases hp : p.1 = k
    · rw [eraseEntry, if_pos hp, ih, alookup, if_neg (by omega)]
    · rw [eraseEntry, if_neg hp, alookup, alookup]
      by_cases hk : p.1 = k' <;> simp [hk, ih]

theorem updEntry_keys {α : Type} (l : List (Nat × α)) (k : Nat) (v : α) :
    (updEntry l k v).map Prod.fst = l.map Prod.fst := by
  induction l with
  | nil => rfl
  | cons p l ih =>
    rw [updEntry_cons]
    by_cases hp : p.1 = k
    · rw [if_pos hp, List.map_cons, List.map_cons, ih, hp]
    · rw [if_neg hp, List.map_cons, List.map_cons, ih]

theorem eraseEntry_keys_sublist {α : Type} (l : List (Nat × α)) (k : Nat) :
    ((eraseEntry l k).map Prod.fst).Sublist (l.map Prod.fst) := by
  induction l with
  | nil => simp [eraseEntry]
  | cons p l ih =>
    by_cases hp : p.1 = k
    · rw [eraseEntry, if_pos hp]
      exact ih.trans (List.sublist_cons_self _ _)
    · rw [eraseEntry, if_neg hp, List.map_cons, List.map_cons]
      exact List.Sublist.cons₂ p.1 ih

theorem mem_updEntry {α : Type} {l : List (Nat × α)} {k : Nat} {v : α}
    {p : Nat × α} (h : p ∈ updEntry l k v) :
    p = (k, v) ∨ (p ∈ l ∧ p.1 ≠ k) := by
  simp only [updEntry, List.mem_map] at h
  obtain ⟨q, hq, hqe⟩ := h
  by_cases hk : q.1 = k
  · rw [if_pos hk] at hqe
    exact Or.inl hqe.symm
  · rw [if_neg hk] at hqe
    subst hqe
    exact Or.inr ⟨hq, hk⟩

theorem mem_eraseEntry {α : Type} {l : List (Nat × α)} {k : Nat}
    {p : Nat × α} (h : p ∈ eraseEntry l k) : p ∈ l ∧ p.1 ≠ k := by
  induction l with
  | nil => simp [eraseEntry] at h
  | cons q l ih =>
    by_cases hq : q.1 = k
    · rw [eraseEntry, if_pos hq] at h
      obtain ⟨h1, h2⟩ := ih h
      exact ⟨List.mem_cons_of_mem _ h1, h2⟩
    · rw [eraseEntry, if_neg hq] at h
      rcases List.mem_cons.mp h with h1 | h1
      · subst h1
        exact ⟨List.mem_cons_self _ _, hq⟩
      · obtain ⟨h2, h3⟩ := ih h1
        exact ⟨List.mem_cons_of_mem _ h2, h3⟩

theorem alookup_isSome_of_mem {α : Type} {l : List (Nat × α)} {k : Nat}
    {v : α} (h : (k, v) ∈ l) : (alookup l k).isSome := by
  induction l with
  | nil => simp at h
  | cons p l ih =>
    rcases List.mem_cons.mp h with h1 | h1
    · have hp : p.1 = k := by rw [← h1]
      simp [alookup, hp]
    · by_cases hk : p.1 = k <;> simp [alookup, hk, ih h1]

theorem alookup_mem {α : Type} {l : List (Nat × α)} {k : Nat} {v : α}
    (h : alookup l k = some v) : (k, v) ∈ l := by
  induction l with
  | nil => simp [alookup] at h
  | cons p l ih =>
    rw [alookup] at h
    by_cases hk : p.1 = k
    · rw [if_pos hk] at h
      injection h with h2
      rcases p with ⟨a, b⟩
      simp only at hk h2
      subst hk
      subst h2
      exact List.mem_cons_self _ _
    · rw [if_neg hk] at h
      exact List.mem_cons_of_mem _ (ih h)

theorem alookup_none_of_not_mem_keys {α : Type} {l : List (Nat × α)} {k : Nat}
    (h : k ∉ l.map Prod.fst) : alookup l k = none := by
  induction l with
  | nil => rfl
  | cons p l ih =>
    simp only [List.map_cons, List.mem_cons] at h
    push_neg at h
    rw [alookup, if_neg (by have := h.1; omega)]
    exact ih h.2

theorem alookup_fst_mem_keys {α : Type} {l : List (Nat × α)} {k : Nat}
    (h : (alookup l k).isSome) : k ∈ l.map Prod.fst := by
  by_contra hc
  rw [alookup_none_of_not_mem_keys hc] at h
  simp at h

/-! ### Tree-model lemmas -/

theorem findLevel_append (l₁ l₂ : List LevelNode) (p : Nat) :
    findLevel (l₁ ++ l₂) p = (findLevel l₁ p).or (findLevel l₂ p) := by
  induction l₁ with
  | nil => simp [findLevel]
  | cons lv ls ih =>
    by_cases h : lv.level.price = p <;> simp [findLevel, h, ih]

theorem findLevel_some_price {ls : List LevelNode} {p : Nat} {lv : LevelNode}
    (h : findLevel ls p = some lv) : lv.level.price = p := by
  induction ls with
  | nil => simp [findLevel] at h
  | cons lv₀ ls ih =>
    rw [findLevel] at h
    by_cases hp : lv₀.level.price = p
    · rw [if_pos hp] at h
      cases h
      exact hp
    · rw [if_neg hp] at h
      exact ih h

theorem findLevel_some_mem {ls : List LevelNode} {p : Nat} {lv : LevelNode}
    (h : findLevel ls p = some lv) : lv ∈ ls := by
  induction ls with
  | nil => simp [findLevel] at h
  | cons lv₀ ls ih =>
    rw [findLevel] at h
    by_cases hp : lv₀.level.price = p
    · rw [if_pos hp] at h
      cases h
      exact List.mem_cons_self _ _
    · rw [if_neg hp] at h
      exact List.mem_cons_of_mem _ (ih h)

theorem findLevel_isSome_of_mem {ls : List LevelNode} {lv : LevelNode}
    (h : lv ∈ ls) : (findLevel ls lv.level.price).isSome := by
  induction ls with
  | nil => simp at h
  | cons lv₀ ls ih =>
    rw [findLevel]
    rcases List.mem_cons.mp h with h1 | h1
    · subst h1
      simp
    · by_cases hp : lv₀.level.price = lv.level.price <;> simp [hp, ih h1]

theorem findLevel_eq_none_iff {ls : List LevelNode} {p : Nat} :
    findLevel ls p = none ↔ ∀ lv ∈ ls, lv.level.price ≠ p := by
  induction ls with
  | nil => simp [findLevel]
  | cons lv₀ ls ih =>
    rw [findLevel]
    by_cases hp : lv₀.level.price = p
    · simp [hp]
    · simp [hp, ih]

theorem mapLevel_cons (lv : LevelNode) (ls : List LevelNode) (p : Nat)
    (f : LevelNode → LevelNode) :
    mapLevel (lv :: ls) p f =
      (if lv.level.price = p then f lv else lv) :: mapLevel ls p f := rfl

theorem findLevel_mapLevel_eq (ls : List LevelNode) (p : Nat)
    (f : LevelNode → LevelNode)
    (hf : ∀ lv, lv.level.price = p → (f lv).level.price = p) :
    findLevel (mapLevel ls p f) p = (findLevel ls p).map f := by
  induction ls with
  | nil => rfl
  | cons lv ls ih =>
    by_cases hp : lv.level.price = p
    · simp only [mapLevel, List.map_cons, if_pos hp, findLevel,
        if_pos (hf lv hp), if_pos hp]
      rfl
    · simp only [mapLevel, List.map_cons, if_neg hp, findLevel, if_neg hp]
      exact ih

theorem findLevel_mapLevel_ne (ls : List LevelNode) (p q : Nat)
    (f : LevelNode → LevelNode)
    (hf : ∀ lv, lv.level.price = p → (f lv).level.price = p)
    (h : q ≠ p) :
    findLevel (mapLevel ls p f) q = findLevel ls q := by
  induction ls with
  | nil => rfl
  | cons lv ls ih =>
    by_cases hp : lv.level.price = p
    · have hfp : (f lv).level.price = p := hf lv hp
      rw [mapLevel_cons, if_pos hp, findLevel, if_neg (by omega), findLevel,
        if_neg (by omega)]
      exact ih
    · rw [mapLevel_cons, if_neg hp, findLevel, findLevel]
      by_cases hq : lv.level.price = q
      · rw [if_pos hq, if_pos hq]
      · rw [if_neg hq, if_neg hq]
        exact ih

theorem findLevel_removeLevel_eq (ls : List LevelNode) (p : Nat) :
    findLevel (removeLevel ls p) p = none := by
  induction ls with
  | nil => rfl
  | cons lv ls ih =>
    by_cases hp : lv.level.price = p
    · rw [removeLevel, if_pos hp]
      exact ih
    · rw [removeLevel, if_neg hp, findLevel, if_neg hp]
      exact ih

theorem findLevel_removeLevel_ne (ls : List LevelNode) (p q : Nat)
    (h : q ≠ p) : findLevel (removeLevel ls p) q = findLevel ls q := by
  induction ls with
  | nil => rfl
  | cons lv ls ih =>
    by_cases hp : lv.level.price = p
    · rw [removeLevel, if_pos hp, findLevel, if_neg (by omega)]
      exact ih
    · rw [removeLevel, if_neg hp, findLevel, findLevel]
      by_cases hq : lv.level.price = q <;> simp [hq, ih]

theorem mapLevel_prices (ls : List LevelNode) (p : Nat)
    (f : LevelNode → LevelNode)
    (hf : ∀ lv ∈ ls, lv.level.price = p → (f lv).level.price = lv.level.price) :
    (mapLevel ls p f).map (fun lv => lv.level.price) =
      ls.map (fun lv => lv.level.price) := by
  induction ls with
  | nil => rfl
  | cons lv ls ih =>
    rw [mapLevel_cons, List.map_cons, List.map_cons]
    have h2 := ih fun lv' h' hp' => hf lv' (List.mem_cons_of_mem _ h') hp'
    by_cases hp : lv.level.price = p
    · rw [if_pos hp, hf lv (List.mem_cons_self _ _) hp, h2]
    · rw [if_neg hp, h2]

theorem mem_mapLevel {ls : List LevelNode} {p : Nat}
    {f : LevelNode → LevelNode} {lv : LevelNode} (h : lv ∈ mapLevel ls p f) :
    (∃ lv₀ ∈ ls, lv₀.level.price = p ∧ lv = f lv₀) ∨
      (lv ∈ ls ∧ lv.level.price ≠ p) := by
  simp only [mapLevel, List.mem_map] at h
  obtain ⟨lv₀, h₀, he⟩ := h
  by_cases hp : lv₀.level.price = p
  · rw [if_pos hp] at he
    exact Or.inl ⟨lv₀, h₀, hp, he.symm⟩
  · rw [if_neg hp] at he
    subst he
    exact Or.inr ⟨h₀, hp⟩

theorem mem_removeLevel {ls : List LevelNode} {p : Nat} {lv : LevelNode}
    (h : lv ∈ removeLevel ls p) : lv ∈ ls ∧ lv.level.price ≠ p := by
  induction ls with
  | nil => simp [removeLevel] at h
  | cons lv₀ ls ih =>
    by_cases hp : lv₀.level.price = p
    · rw [removeLevel, if_pos hp] at h
      obtain ⟨h1, h2⟩ := ih h
      exact ⟨List.mem_cons_of_mem _ h1, h2⟩
    · rw [removeLevel, if_neg hp] at h
      rcases List.mem_cons.mp h with h1 | h1
      · subst h1
        exact ⟨List.mem_cons_self _ _, hp⟩
      · obtain ⟨h2, h3⟩ := ih h1
        exact ⟨List.mem_cons_of_mem _ h2, h3⟩

theorem mem_removeLevel_of {ls : List LevelNode} {p : Nat} {lv : LevelNode}
    (h : lv ∈ ls) (hp : lv.level.price ≠ p) : lv ∈ removeLevel ls p := by
  induction ls with
  | nil => simp at h
  | cons lv₀ ls ih =>
    rcases List.mem_cons.mp h with h1 | h1
    · subst h1
      rw [removeLevel, if_neg hp]
      exact List.mem_cons_self _ _
    · by_cases hq : lv₀.level.price = p
      · rw [removeLevel, if_pos hq]
        exact ih h1
      · rw [removeLevel, if_neg hq]
        exact List.mem_cons_of_mem _ (ih h1)

theorem removeLevel_prices_sublist (ls : List LevelNode) (p : Nat) :
    ((removeLevel ls p).map (fun lv => lv.level.price)).Sublist
      (ls.map (fun lv => lv.level.price)) := by
  induction ls with
  | nil => simp [removeLevel]
  | cons lv ls ih =>
    by_cases hp : lv.level.price = p
    · rw [removeLevel, if_pos hp]
      exact ih.trans (List.sublist_cons_self _ _)
    · rw [removeLevel, if_neg hp, List.map_cons, List.map_cons]
      exact List.Sublist.cons₂ lv.level.price ih

/-! ### `treeFirstPrice` lemmas -/

theorem treeFirstPrice_go (k : TreeKey) (ls : List LevelNode) (b : Nat) :
    ls.foldl
      (fun acc lv =>
        match acc with
        | none => some lv.level.price
        | some c => if better k lv.level.price c then some lv.level.price else some c)
      (some b) =
    some (ls.foldl (fun c lv => if better k lv.level.price c then lv.level.price else c) b) := by
  induction ls generalizing b with
  | nil => rfl
  | cons lv ls ih =>
    simp only [List.foldl_cons]
    by_cases h : better k lv.level.price b <;> simp [h, ih]

theorem treeFirstPrice_eq_none_iff (k : TreeKey) (ls : List LevelNode) :
    treeFirstPrice k ls = none ↔ ls = [] := by
  cases ls with
  | nil => simp [treeFirstPrice]
  | cons lv ls =>
    simp only [treeFirstPrice, List.foldl_cons]
    rw [treeFirstPrice_go]
    simp

theorem treeFirstPrice_cons (k : TreeKey) (lv : LevelNode)
    (ls : List LevelNode) :
    treeFirstPrice k (lv :: ls) =
      some (ls.foldl (fun c l => if better k l.level.price c then l.level.price else c)
        lv.level.price) := by
  simp only [treeFirstPrice, List.foldl_cons]
  exact treeFirstPrice_go k ls lv.level.price

theorem treeFirstPrice_append_singleton (k : TreeKey) (ls : List LevelNode)
    (lv : LevelNode) :
    treeFirstPrice k (ls ++ [lv]) =
      match treeFirstPrice k ls with
      | none => some lv.level.price
      | some b => if better k lv.level.price b then some lv.level.price else some b := by
  cases ls with
  | nil => simp [treeFirstPrice]
  | cons l₀ ls =>
    rw [List.cons_append, treeFirstPrice_cons, treeFirstPrice_cons]
    rw [List.foldl_append]
    simp only [List.foldl_cons, List.foldl_nil]
    by_cases h : better k lv.level.price
      (ls.foldl (fun c l => if better k l.level.price c then l.level.price else c)
        l₀.level.price) <;> simp [h]

theorem foldl_better_mem (k : TreeKey) (ls : List LevelNode) (b : Nat) :
    ls.foldl (fun c l => if better k l.level.price c then l.level.price else c) b = b ∨
    (ls.foldl (fun c l => if better k l.level.price c then l.level.price else c) b) ∈
      ls.map (fun lv => lv.level.price) := by
  induction ls generalizing b with
  | nil => simp
  | cons lv ls ih =>
    simp only [List.foldl_cons, List.map_cons, List.mem_cons]
    by_cases h : better k lv.level.price b
    · rw [if_pos h]
      rcases ih lv.level.price with h1 | h1
      · exact Or.inr (Or.inl h1)
      · exact Or.inr (Or.inr h1)
    · rw [if_neg h]
      rcases ih b with h1 | h1
      · exact Or.inl h1
      · exact Or.inr (Or.inr h1)

theorem treeFirstPrice_mem {k : TreeKey} {ls : List LevelNode} {p : Nat}
    (h : treeFirstPrice k ls = some p) :
    p ∈ ls.map (fun lv => lv.level.price) := by
  cases ls with
  | nil => simp [treeFirstPrice] at h
  | cons lv ls =>
    rw [treeFirstPrice_cons] at h
    cases h
    rcases foldl_better_mem k ls lv.level.price with h1 | h1
    · simp [h1]
    · simp [h1]

theorem better_trichotomy (k : TreeKey) {p q : Nat} (h : p ≠ q) :
    better k p q ∨ better k q p := by
  unfold better
  cases k.descending <;> simp <;> omega

theorem better_asymm {k : TreeKey} {p q : Nat} (h : better k p q) :
    ¬ better k q p := by
  unfold better at *
  cases hd : k.descending <;> simp_all <;> omega

theorem better_trans {k : TreeKey} {p q r : Nat} (h1 : better k p q)
    (h2 : better k q r) : better k p r := by
  unfold better at *
  cases hd : k.descending <;> simp_all <;> omega

theorem better_irrefl (k : TreeKey) (p : Nat) : ¬ better k p p := by
  unfold better
  cases k.descending <;> simp

theorem foldl_better_optimal (k : TreeKey) (ls : List LevelNode) (b : Nat) :
    (¬ better k b
      (ls.foldl (fun c l => if better k l.level.price c then l.level.price else c) b)) ∧
    ∀ q ∈ ls.map (fun lv => lv.level.price),
      ¬ better k q
        (ls.foldl (fun c l => if better k l.level.price c then l.level.price else c) b) := by
  induction ls generalizing b with
  | nil =>
    exact ⟨better_irrefl k b, by simp⟩
  | cons lv ls ih =>
    simp only [List.foldl_cons, List.map_cons, List.mem_cons]
    by_cases h : better k lv.level.price b
    · rw [if_pos h]
      obtain ⟨ih1, ih2⟩ := ih lv.level.price
      refine ⟨fun hc => ih1 (better_trans h hc), fun q hq => ?_⟩
      rcases hq with hq | hq
      · subst hq
        exact ih1
      · exact ih2 q hq
    · rw [if_neg h]
      obtain ⟨ih1, ih2⟩ := ih b
      refine ⟨ih1, fun q hq => ?_⟩
      rcases hq with hq | hq
      · intro hc
        by_cases hb : q = b
        · exact ih1 (hb ▸ hc)
        · rcases better_trichotomy k hb with h1 | h1
          · rw [hq] at h1
            exact h h1
          · exact ih1 (better_trans h1 hc)
      · exact ih2 q hq

theorem treeFirstPrice_optimal {k : TreeKey} {ls : List LevelNode} {p : Nat}
    (h : treeFirstPrice k ls = some p) :
    ∀ q ∈ ls.map (fun lv => lv.level.price), ¬ better k q p := by
  cases ls with
  | nil => simp [treeFirstPrice] at h
  | cons lv ls =>
    rw [treeFirstPrice_cons] at h
    cases h
    intro q hq
    simp only [List.map_cons, List.mem_cons] at hq
    obtain ⟨h1, h2⟩ := foldl_better_optimal k ls lv.level.price
    rcases hq with hq | hq
    · subst hq
      exact h1
    · exact h2 q hq

theorem treeFirstPrice_eq_of_optimal {k : TreeKey} {ls : List LevelNode}
    {p : Nat} (hne : ls ≠ [])
    (hmem : p ∈ ls.map (fun lv => lv.level.price))
    (hopt : ∀ q ∈ ls.map (fun lv => lv.level.price), q ≠ p → better k p q) :
    treeFirstPrice k ls = some p := by
  obtain ⟨r, hr⟩ : ∃ r, treeFirstPrice k ls = some r := by
    cases hre : treeFirstPrice k ls with
    | none => exact absurd ((treeFirstPrice_eq_none_iff k ls).mp hre) hne
    | some r => exact ⟨r, rfl⟩
  have hrmem : r ∈ ls.map (fun lv => lv.level.price) := treeFirstPrice_mem hr
  by_cases hrp : r = p
  · rw [hr, hrp]
  · have h1 : better k p r := hopt r hrmem hrp
    have h2 : ¬ better k p r := treeFirstPrice_optimal hr p hmem
    exact absurd h1 h2

theorem treeFirstPrice_removeLevel_ne {k : TreeKey} {ls : List LevelNode}
    {b q : Nat} (h : treeFirstPrice k ls = some b) (hne : q ≠ b) :
    treeFirstPrice k (removeLevel ls q) = some b := by
  obtain ⟨lvb, hlvb, hlvbp⟩ :
      ∃ lv, lv ∈ ls ∧ lv.level.price = b := by
    have := treeFirstPrice_mem h
    simp only [List.mem_map] at this
    obtain ⟨lv, h1, h2⟩ := this
    exact ⟨lv, h1, h2⟩
  have hmemr : lvb ∈ removeLevel ls q :=
    mem_removeLevel_of hlvb (by omega)
  have hmem : b ∈ (removeLevel ls q).map (fun lv => lv.level.price) := by
    simp only [List.mem_map]
    exact ⟨lvb, hmemr, hlvbp⟩
  apply treeFirstPrice_eq_of_optimal
  · intro hc
    rw [hc] at hmem
    simp at hmem
  · exact hmem
  · intro q' hq' hq'b
    have hq'mem : q' ∈ ls.map (fun lv => lv.level.price) := by
      simp only [List.mem_map] at hq' ⊢
      obtain ⟨lv, h1, h2⟩ := hq'
      exact ⟨lv, (mem_removeLevel h1).1, h2⟩
    have := treeFirstPrice_optimal h q' hq'mem
    rcases better_trichotomy k hq'b with h1 | h1
    · exact absurd h1 this
    · exact h1

/-- `treeFirstPrice` only depends on the price list. -/
theorem treeFirstPrice_eq_of_prices_eq {k : TreeKey}
    {ls₁ ls₂ : List LevelNode}
    (h : ls₁.map (fun lv => lv.level.price) = ls₂.map (fun lv => lv.level.price)) :
    treeFirstPrice k ls₁ = treeFirstPrice k ls₂ := by
  have key : ∀ (ls : List LevelNode) (acc : Option Nat),
      ls.foldl
        (fun acc lv =>
          match acc with
          | none => some lv.level.price
          | some b => if better k lv.level.price b then some lv.level.price else some b)
        acc =
      (ls.map (fun lv => lv.level.price)).foldl
        (fun acc p =>
          match acc with
          | none => some p
          | some b => if better k p b then some p else some b)
        acc := by
    intro ls
    induction ls with
    | nil => intro acc; rfl
    | cons lv ls ih => intro acc; simp only [List.foldl_cons, List.map_cons, ih]
  unfold treeFirstPrice
  rw [key, key, h]

/-! ### Order-book structural lemmas -/

theorem tree_setTree_self (ob : OrderBook) (k : TreeKey) (ls : List LevelNode) :
    (ob.setTree k ls).tree k = ls := by
  cases k <;> rfl

theorem tree_setTree_ne (ob : OrderBook) (k k' : TreeKey) (ls : List LevelNode)
    (h : k' ≠ k) : (ob.setTree k ls).tree k' = ob.tree k' := by
  cases k <;> cases k' <;> first | rfl | exact absurd rfl h

theorem best_setTree (ob : OrderBook) (k k' : TreeKey) (ls : List LevelNode) :
    (ob.setTree k ls).best k' = ob.best k' := by
  cases k <;> cases k' <;> rfl

theorem tree_setBest (ob : OrderBook) (k k' : TreeKey) (b : Option Nat) :
    (ob.setBest k b).tree k' = ob.tree k' := by
  cases k <;> cases k' <;> rfl

theorem best_setBest_self (ob : OrderBook) (k : TreeKey) (b : Option Nat) :
    (ob.setBest k b).best k = b := by
  cases k <;> rfl

theorem best_setBest_ne (ob : OrderBook) (k k' : TreeKey) (b : Option Nat)
    (h : k' ≠ k) : (ob.setBest k b).best k' = ob.best k' := by
  cases k <;> cases k' <;> first | rfl | exact absurd rfl h

theorem symbol_setTree (ob : OrderBook) (k : TreeKey) (ls : List LevelNode) :
    (ob.setTree k ls).symbol = ob.symbol := by
  cases k <;> rfl

theorem symbol_setBest (ob : OrderBook) (k : TreeKey) (b : Option Nat) :
    (ob.setBest k b).symbol = ob.symbol := by
  cases k <;> rfl

theorem obAddLevel_tree_self (ob : OrderBook) (o : Order) :
    (ob.AddLevel o).tree (routeKey o) =
      ob.tree (routeKey o) ++
        [NewLevelNode (routeKey o).levelType (routePrice o)] := by
  unfold OrderBook.AddLevel
  cases hb : ob.best (routeKey o) with
  | none => simp only [hb]; simp [tree_setBest, tree_setTree_self]
  | some b =>
    simp only [hb]
    by_cases h : better (routeKey o) (routePrice o) b <;>
      simp [h, tree_setBest, tree_setTree_self]

theorem obAddLevel_tree_ne (ob : OrderBook) (o : Order) (k' : TreeKey)
    (h : k' ≠ routeKey o) : (ob.AddLevel o).tree k' = ob.tree k' := by
  unfold OrderBook.AddLevel
  cases hb : ob.best (routeKey o) with
  | none => simp only [hb]; simp [tree_setBest, tree_setTree_ne _ _ _ _ h]
  | some b =>
    simp only [hb]
    by_cases hbet : better (routeKey o) (routePrice o) b <;>
      simp [hbet, tree_setBest, tree_setTree_ne _ _ _ _ h]

theorem obAddLevel_best_self (ob : OrderBook) (o : Order) :
    (ob.AddLevel o).best (routeKey o) =
      match ob.best (routeKey o) with
      | none => some (routePrice o)
      | some b =>
        if better (routeKey o) (routePrice o) b then some (routePrice o)
        else some b := by
  unfold OrderBook.AddLevel
  cases hb : ob.best (routeKey o) with
  | none => simp only [hb]; simp [best_setBest_self]
  | some b =>
    simp only [hb]
    by_cases h : better (routeKey o) (routePrice o) b <;>
      simp [h, hb, best_setBest_self, best_setTree]

theorem obAddLevel_best_ne (ob : OrderBook) (o : Order) (k' : TreeKey)
    (h : k' ≠ routeKey o) : (ob.AddLevel o).best k' = ob.best k' := by
  unfold OrderBook.AddLevel
  cases hb : ob.best (routeKey o) with
  | none => simp only [hb]; simp [best_setBest_ne _ _ _ _ h, best_setTree]
  | some b =>
    simp only [hb]
    by_cases hbet : better (routeKey o) (routePrice o) b <;>
      simp [hbet, best_setBest_ne _ _ _ _ h, best_setTree]

theorem obAddLevel_symbol (ob : OrderBook) (o : Order) :
    (ob.AddLevel o).symbol = ob.symbol := by
  unfold OrderBook.AddLevel
  cases hb : ob.best (routeKey o) with
  | none => simp only [hb]; simp [symbol_setBest, symbol_setTree]
  | some b =>
    simp only [hb]
    by_cases h : better (routeKey o) (routePrice o) b <;>
      simp [h, symbol_setBest, symbol_setTree]

theorem levelPushOrder_price (lv : LevelNode) (o : Order) :
    (levelPushOrder lv o).level.price = lv.level.price := rfl

theorem levelRemoveOrder_price (lv : LevelNode) (o : Order) :
    (levelRemoveOrder lv o).level.price = lv.level.price := rfl

/-- After `OrderBook.AddOrder`, the routing level exists and contains the
order's id (as the Go code pushes the node onto the found-or-created
level). -/
theorem obAddOrder_mem (ob : OrderBook) (o : Order) :
    ∃ lv, findLevel ((ob.AddOrder o).tree (routeKey o)) (routePrice o) = some lv ∧
      o.id ∈ lv.orderList := by
  unfold OrderBook.AddOrder
  cases hf : findLevel (ob.tree (routeKey o)) (routePrice o) with
  | some lv₀ =>
    simp only [hf]
    rw [tree_setTree_self, findLevel_mapLevel_eq _ _ _
      (fun lv h => by rw [levelPushOrder_price]; exact h), hf]
    exact ⟨levelPushOrder lv₀ o, rfl, by simp [levelPushOrder]⟩
  | none =>
    simp only [hf]
    rw [tree_setTree_self, findLevel_mapLevel_eq _ _ _
      (fun lv h => by rw [levelPushOrder_price]; exact h),
      obAddLevel_tree_self, findLevel_append, hf]
    refine ⟨levelPushOrder (NewLevelNode (routeKey o).levelType (routePrice o)) o,
      ?_, by simp [levelPushOrder, NewLevelNode, NewLevel]⟩
    simp [findLevel, NewLevelNode, NewLevel, Option.or]

theorem obAddOrder_tree_ne (ob : OrderBook) (o : Order) (k' : TreeKey)
    (h : k' ≠ routeKey o) : (ob.AddOrder o).tree k' = ob.tree k' := by
  unfold OrderBook.AddOrder
  cases hf : findLevel (ob.tree (routeKey o)) (routePrice o) with
  | some lv₀ => simp only [hf]; rw [tree_setTree_ne _ _ _ _ h]
  | none =>
    simp only [hf]
    rw [tree_setTree_ne _ _ _ _ h, obAddLevel_tree_ne _ _ _ h]

theorem obAddOrder_symbol (ob : OrderBook) (o : Order) :
    (ob.AddOrder o).symbol = ob.symbol := by
  unfold OrderBook.AddOrder
  cases hf : findLevel (ob.tree (routeKey o)) (routePrice o) with
  | some lv₀ => simp only [hf]; rw [symbol_setTree]
  | none => simp only [hf]; rw [symbol_setTree, obAddLevel_symbol]

/-! ## Shared concrete fixtures for counterexamples and witnesses -/

/-- `MaxVisibleQuantity`/`MaxSlippage` (`math.MaxUint64`). -/
def MaxUint64 : Nat := 18446744073709551615

def exSymbol : Symbol := ⟨1, "AAPL"⟩

/-- A fresh manager with symbol 1 and its order book, matching disabled. -/
def exBase : MarketManager :=
  ((NewMarketManager.AddSymbol exSymbol).mm.AddOrderBook exSymbol).mm

/-- The same with automatic matching enabled. -/
def exBaseM : MarketManager :=
  ((NewMarketManager.EnableMatching.AddSymbol exSymbol).mm.AddOrderBook
    exSymbol).mm

/-- A well-formed limit order on symbol 1 (leaves = quantity, executed = 0,
no visibility cap). -/
def exLimit (id side price qty : Nat) : Order :=
  ⟨id, 1, OrderTypeLimit, side, price, 0, qty, 0, qty, 0, MaxUint64,
    MaxUint64, 0, 0⟩

/-- The prices carried by the `OnExecuteOrder` events of an event list, in
dispatch order. -/
def execPrices (evs : List MarketEvent) : List Nat :=
  evs.filterMap fun e =>
    match e with
    | .onExecuteOrder _ p _ => some p
    | _ => none

/-! ## Claim C7 — reduce_order(id, Δ) with Δ ≥ leaves degenerates to
delete_order(id) -/

/-- The engine state holding a resting order (id 1) whose caller-supplied
leaves quantity is 0 — accepted because `AddOrder` validates only
`Quantity`, never `LeavesQuantity`. -/
def c7ZeroLeavesOrder : Order :=
  ⟨1, 1, OrderTypeLimit, OrderSideBuy, 100, 0, 5, 0, 0, 0, MaxUint64,
    MaxUint64, 0, 0⟩

def c7State : MarketManager := (exBase.AddOrder c7ZeroLeavesOrder).mm

/-- C7 (counterexample): the claim quantifies over *every* `Δ ≥ leaves`,
but for a resting order with leaves = 0 (reachable, since `AddOrder` copies
the caller's `LeavesQuantity` verbatim) and `Δ = 0 ≥ leaves`,
`ReduceOrder(id, 0)` returns `OrderQuantityInvalid` and leaves the order in
place while `DeleteOrder(id)` returns `Ok` and removes it — not
observationally equivalent. -/
theorem c7_counterexample :
    alookup c7State.orders 1 = some c7ZeroLeavesOrder ∧
    c7ZeroLeavesOrder.leavesQuantity ≤ 0 ∧
    (c7State.ReduceOrder 1 0).code = ErrorOrderQuantityInvalid ∧
    (c7State.DeleteOrder 1).code = ErrorOK ∧
    c7State.ReduceOrder 1 0 ≠ c7State.DeleteOrder 1 := by
  decide

/-- C7 (amended): for every engine state and every resting order `id` with
leaves quantity `L`, `ReduceOrder(id, Δ)` with `Δ ≥ L` **and `Δ ≥ 1`** is
observationally equivalent to `DeleteOrder(id)` — identical return code,
final state and handler event sequence (the Go code literally tail-calls
`DeleteOrder`); and `ReduceOrder(id, 0)` on an existing order returns
`OrderQuantityInvalid` with the state unchanged and no events.  The `Δ ≥ 1`
proviso is forced by the counterexample: the `Δ == 0` check precedes the
`Δ ≥ leaves` check. -/
theorem c7_reduce_ge_leaves_is_delete (m : MarketManager) (id Δ : Nat)
    (o : Order) (hlk : alookup m.orders id = some o) :
    (o.leavesQuantity ≤ Δ → 1 ≤ Δ → m.ReduceOrder id Δ = m.DeleteOrder id) ∧
    m.ReduceOrder id 0 = ⟨m, [], ErrorOrderQuantityInvalid⟩ := by
  constructor
  · intro hle h1
    unfold MarketManager.ReduceOrder
    rw [hlk]
    simp only [if_neg (by omega : ¬ Δ = 0), if_pos hle]
  · unfold MarketManager.ReduceOrder
    rw [hlk]
    simp

/-- Witness for `c7_reduce_ge_leaves_is_delete` at a concrete state: the
resting limit buy (id 1, leaves 5) of `exBase`, reduced by Δ = 7 ≥ 5. -/
theorem c7_witness :
    (exBase.AddOrder (exLimit 1 OrderSideBuy 100 5)).mm.ReduceOrder 1 7 =
      (exBase.AddOrder (exLimit 1 OrderSideBuy 100 5)).mm.DeleteOrder 1 ∧
    (exBase.AddOrder (exLimit 1 OrderSideBuy 100 5)).mm.ReduceOrder 1 0 =
      ⟨(exBase.AddOrder (exLimit 1 OrderSideBuy 100 5)).mm, [],
        ErrorOrderQuantityInvalid⟩ := by
  have h := c7_reduce_ge_leaves_is_delete
    (exBase.AddOrder (exLimit 1 OrderSideBuy 100 5)).mm 1 7
    (exLimit 1 OrderSideBuy 100 5) (by decide)
  exact ⟨h.1 (by decide) (by decide), h.2⟩

/-! ## Claim C5 — AddOrder and the leaves/executed initialisation -/

/-- An order whose caller-supplied execution state is inconsistent with its
quantity: quantity 10, but leaves 3 and executed 99. -/
def c5Order : Order :=
  ⟨1, 1, OrderTypeLimit, OrderSideBuy, 100, 0, 10, 99, 3, 0, MaxUint64,
    MaxUint64, 0, 0⟩

/-- C5 (counterexample): `AddOrder` accepts `c5Order` with `Ok` and stores
it with leaves = 3 ≠ 10 = quantity and executed = 99 ≠ 0 — the registry
keeps the caller-supplied values (`NewOrderNode` copies the `Order`
verbatim), contradicting the claimed re-initialisation. -/
theorem c5_counterexample :
    (exBase.AddOrder c5Order).code = ErrorOK ∧
    alookup (exBase.AddOrder c5Order).mm.orders 1 = some c5Order ∧
    c5Order.leavesQuantity ≠ c5Order.quantity ∧
    c5Order.executedQuantity ≠ 0 := by
  decide

/-- C5 (amended): for every order accepted by `MarketManager.AddOrder`
(return code `Ok`) on a manager with matching disabled, the order stored in
the registry is the caller's `Order` value verbatim — in particular its
leaves and executed quantities are exactly the caller-supplied ones, and
are *not* re-initialised to `quantity` and `0`.  (With matching enabled the
stored order may additionally be filled or removed by the matching loop
before `AddOrder` returns.) -/
theorem c5_addOrder_stores_caller_values (m : MarketManager) (o : Order)
    (hm : m.matching = false) (hok : (m.AddOrder o).code = ErrorOK) :
    alookup (m.AddOrder o).mm.orders o.id = some o := by
  unfold MarketManager.AddOrder at hok ⊢
  by_cases hv : MarketManager.validateOrder o ≠ ErrorOK
  · rw [if_pos hv] at hok
    exact absurd hok hv
  · rw [if_neg hv] at hok ⊢
    by_cases hd : (alookup m.orders o.id).isSome
    · rw [if_pos hd] at hok
      exact absurd hok (by simp)
    · rw [if_neg hd] at hok ⊢
      cases hob : alookup m.orderBooks o.symbolID with
      | none =>
        rw [hob] at hok
        exact absurd hok (by simp)
      | some ob =>
        rw [hob] at hok
        simp only [hm, Bool.false_eq_true, if_neg, not_false_iff]
        rw [alookup_append]
        rw [Option.not_isSome_iff_eq_none] at hd
        rw [hd]
        simp [alookup]

/-- Witness for `c5_addOrder_stores_caller_values`: the well-formed limit
buy of `exBase` is stored verbatim. -/
theorem c5_witness :
    alookup (exBase.AddOrder (exLimit 1 OrderSideBuy 100 5)).mm.orders 1 =
      some (exLimit 1 OrderSideBuy 100 5) :=
  c5_addOrder_stores_caller_values exBase (exLimit 1 OrderSideBuy 100 5)
    (by decide) (by decide)

/-! ## Claim C6 — level event dispatched by delete_order -/

/-- Two resting buy orders at the same price 100 (ids 1 and 2). -/
def c6State : MarketManager :=
  ((exBase.AddOrder (exLimit 1 OrderSideBuy 100 5)).mm.AddOrder
    (exLimit 2 OrderSideBuy 100 7)).mm

/-- C6 (counterexample): cancelling order 1 — one of two orders resting at
price 100 — dispatches a level **Delete** event (`OnDeleteLevel`), not an
`Update`, even though order 2 still rests at the level afterwards.
`MarketManager.DeleteOrder` calls `updateLevel(..., UpdateDelete)`
unconditionally, before the order is removed from the book. -/
theorem c6_counterexample :
    (c6State.DeleteOrder 1).events =
      [MarketEvent.onDeleteLevel 1 ⟨LevelTypeBid, 100, 12, 0, 12, 2⟩ true,
        MarketEvent.onUpdateOrderBook 1 true,
        MarketEvent.onDeleteOrder (exLimit 1 OrderSideBuy 100 5)] ∧
    (alookup (c6State.DeleteOrder 1).mm.orders 2).isSome ∧
    (alookup (c6State.DeleteOrder 1).mm.orderBooks 1).map
      (fun ob => (findLevel ob.bids 100).isSome) = some true := by
  decide

/-- C6 (amended): for every resting order, `delete_order` dispatches a
level `Delete` event **unconditionally** — whether or not the order's
removal leaves its price level empty — followed by `OnUpdateOrderBook` and
then `OnDeleteOrder`.  (The claimed `Update`-when-level-remains case does
not exist in the code: `updateLevel` is invoked with `UpdateDelete` before
`OrderBook.DeleteOrder` runs.) -/
theorem c6_deleteOrder_always_level_delete (m : MarketManager) (id : Nat)
    (o : Order) (ob : OrderBook) (lv : LevelNode)
    (hlk : alookup m.orders id = some o)
    (hob : alookup m.orderBooks o.symbolID = some ob)
    (hlv : findLevel (ob.tree (routeKey o)) (routePrice o) = some lv) :
    ∃ top, (m.DeleteOrder id).events =
      [MarketEvent.onDeleteLevel ob.symbol.id lv.level top,
        MarketEvent.onUpdateOrderBook ob.symbol.id top,
        MarketEvent.onDeleteOrder o] := by
  unfold MarketManager.DeleteOrder
  rw [hlk]
  dsimp only
  rw [hob]
  dsimp only
  unfold MarketManager.updateLevel
  rw [hlv]
  exact ⟨_, rfl⟩

/-- Witness for `c6_deleteOrder_always_level_delete` at the two-orders
fixture. -/
theorem c6_witness :
    ∃ top, (c6State.DeleteOrder 1).events =
      [MarketEvent.onDeleteLevel 1 ⟨LevelTypeBid, 100, 12, 0, 12, 2⟩ top,
        MarketEvent.onUpdateOrderBook 1 top,
        MarketEvent.onDeleteOrder (exLimit 1 OrderSideBuy 100 5)] := by
  obtain ⟨top, h⟩ := c6_deleteOrder_always_level_delete c6State 1
    (exLimit 1 OrderSideBuy 100 5)
    ⟨exSymbol, [⟨⟨LevelTypeBid, 100, 12, 0, 12, 2⟩, [1, 2]⟩], [], [], [], [],
      [], some 100, none, none, none, none, none, 0, 0, 0⟩
    ⟨⟨LevelTypeBid, 100, 12, 0, 12, 2⟩, [1, 2]⟩
    (by decide) (by decide) (by decide)
  exact ⟨top, h⟩

/-! ## Claim C2 — journal-before-engine in the persistence Manager -/

/-- A persistence manager whose engine already holds order 1 and whose
journal is empty. -/
def c2State : PManager :=
  ⟨[], (exBase.AddOrder (exLimit 1 OrderSideBuy 100 5)).mm⟩

/-- C2 (counterexample): submitting a duplicate of order 1 journals the
event *before* the engine rejects it with `OrderDuplicate`; the command
fails with the engine error, yet the journal retains a record for the
rejected command — refuting the claimed converse ("no journal entry exists
for a command the engine rejected"). -/
theorem c2_counterexample :
    (c2State.AddOrder false 7 (exLimit 1 OrderSideBuy 100 5)).2 =
      .engineError ErrorOrderDuplicate ∧
    (c2State.AddOrder false 7 (exLimit 1 OrderSideBuy 100 5)).1.journal =
      [⟨EventNewOrder, 7, exLimit 1 OrderSideBuy 100 5, 0⟩] := by
  decide

/-- C2 (amended): for every command submitted through the persistence
Manager (`AddOrder` or `CancelOrder`): if the journal append fails, the
matching engine is never invoked (state and journal unchanged) and the
command returns the IO error.  The converse direction does **not** hold as
claimed: the record is appended *before* the engine runs, so the journal
gains the event on every append-successful command — including commands the
engine subsequently rejects (see the counterexample). -/
theorem c2_journal_write_ahead (st : PManager) (now : Int) (order : Order)
    (orderID : Nat) :
    st.AddOrder true now order = (st, .journalIOError) ∧
    st.CancelOrder true now orderID = (st, .journalIOError) ∧
    (st.AddOrder false now order).1.journal =
      st.journal ++ [⟨EventNewOrder, now, order, 0⟩] ∧
    (st.CancelOrder false now orderID).1.journal =
      st.journal ++ [⟨EventCancelOrder, now, Order.zero, orderID⟩] := by
  refine ⟨rfl, rfl, ?_, ?_⟩
  · unfold PManager.AddOrder
    simp only [Bool.false_eq_true, if_neg, not_false_iff]
    split <;> rfl
  · unfold PManager.CancelOrder
    simp only [Bool.false_eq_true, if_neg, not_false_iff]
    split <;> rfl

/-! ## Claim C10 — modify_order re-runs no price or type validation -/

/-- C10: for every existing order id, `ModifyOrder(id, new_price,
new_quantity)` returns `OrderQuantityInvalid` iff `new_quantity = 0` and
`Ok` otherwise for *every* `new_price`, including 0; with matching
disabled, a resting Limit order modified to price 0 is stored at price 0
and rests on a (bid or ask) level at price 0 in its book; whereas
`AddOrder` rejects any Limit order with price 0 as `OrderParameterInvalid`
without touching the state. -/
theorem c10_modifyOrder_skips_validation (m : MarketManager)
    (id newPrice newQuantity : Nat) (o : Order) (ob : OrderBook)
    (hlk : alookup m.orders id = some o) :
    ((m.ModifyOrder id newPrice newQuantity).code =
      if newQuantity = 0 then ErrorOrderQuantityInvalid else ErrorOK) ∧
    (o.id = id → o.otype = OrderTypeLimit → m.matching = false →
      newQuantity ≠ 0 → alookup m.orderBooks o.symbolID = some ob →
      alookup (m.ModifyOrder id 0 newQuantity).mm.orders id =
        some { o with
                price := 0
                quantity := newQuantity
                leavesQuantity := newQuantity
                executedQuantity := 0 } ∧
      ∃ ob' lv, alookup (m.ModifyOrder id 0 newQuantity).mm.orderBooks
          o.symbolID = some ob' ∧
        findLevel (ob'.tree (routeKey o)) 0 = some lv ∧ id ∈ lv.orderList) ∧
    (∀ (m' : MarketManager) (o' : Order), o'.otype = OrderTypeLimit →
      o'.price = 0 → o'.id ≠ 0 → o'.quantity ≠ 0 →
      m'.AddOrder o' = ⟨m', [], ErrorOrderParameterInvalid⟩) := by
  refine ⟨?_, ?_, ?_⟩
  · unfold MarketManager.ModifyOrder
    rw [hlk]
    dsimp only
    by_cases hq : newQuantity = 0
    · rw [if_pos hq, if_pos hq]
    · rw [if_neg hq, if_neg hq]
      cases hob : alookup m.orderBooks o.symbolID with
      | none => rfl
      | some ob₀ =>
        dsimp only
        by_cases hm : m.matching = true <;> simp [hm]
  · intro hid hlim hm hq hob
    unfold MarketManager.ModifyOrder
    rw [hlk]
    dsimp only
    rw [if_neg hq, hob]
    dsimp only
    simp only [hm, Bool.false_eq_true, if_neg, not_false_iff]
    set o' : Order := { o with
                          price := 0
                          quantity := newQuantity
                          leavesQuantity := newQuantity
                          executedQuantity := 0 } with ho'
    have hroute : routeKey o' = routeKey o := by
      simp [routeKey, Order.IsBuy, ho']
    have hrp : routePrice o' = 0 := by
      simp [routePrice, ho', hlim, OrderTypeLimit, OrderTypeStop,
        OrderTypeStopLimit, OrderTypeTrailingStop, OrderTypeTrailingStopLimit]
    constructor
    · rw [alookup_updEntry_eq _ _ _ (by rw [hlk]; rfl)]
    · obtain ⟨lv, hfl, hmem⟩ := obAddOrder_mem (ob.DeleteOrder o) o'
      refine ⟨(ob.DeleteOrder o).AddOrder o', lv, ?_, ?_, ?_⟩
      · rw [alookup_updEntry_eq _ _ _ (by rw [hob]; rfl)]
      · rw [← hroute, ← hrp]
        exact hfl
      · rw [← hid]
        exact hmem
  · intro m' o' hlim hp hid hq
    unfold MarketManager.AddOrder
    have hv : MarketManager.validateOrder o' = ErrorOrderParameterInvalid := by
      unfold MarketManager.validateOrder
      rw [if_neg hid, if_neg hq, if_pos hlim, if_pos hp]
    rw [hv]
    simp

/-- Witness for `c10_modifyOrder_skips_validation`: modify the resting
limit buy (id 1) of `exBase` to price 0, quantity 4. -/
theorem c10_witness :
    ((exBase.AddOrder (exLimit 1 OrderSideBuy 100 5)).mm.ModifyOrder 1 0
      4).code = (if (4 : Nat) = 0 then ErrorOrderQuantityInvalid else ErrorOK) ∧
    alookup ((exBase.AddOrder (exLimit 1 OrderSideBuy 100 5)).mm.ModifyOrder
        1 0 4).mm.orders 1 =
      some { exLimit 1 OrderSideBuy 100 5 with
              price := 0
              quantity := 4
              leavesQuantity := 4
              executedQuantity := 0 } ∧
    exBase.AddOrder (exLimit 2 OrderSideBuy 0 5) =
      ⟨exBase, [], ErrorOrderParameterInvalid⟩ := by
  have h := c10_modifyOrder_skips_validation
    (exBase.AddOrder (exLimit 1 OrderSideBuy 100 5)).mm 1 0 4
    (exLimit 1 OrderSideBuy 100 5)
    ((NewOrderBook exSymbol).AddOrder (exLimit 1 OrderSideBuy 100 5))
    (by decide)
  refine ⟨h.1, ?_, ?_⟩
  · exact (h.2.1 (by decide) (by decide) (by decide) (by decide)
      (by decide)).1
  · exact h.2.2 exBase (exLimit 2 OrderSideBuy 0 5) (by decide) (by decide)
      (by decide) (by decide)

/-! ## Claim C1 — the execution price of the matching loop -/

theorem alookup_updEntry_isSome {α : Type} (l : List (Nat × α)) (k k' : Nat)
    (v : α) :
    (alookup (updEntry l k v) k').isSome = (alookup l k').isSome := by
  by_cases h : k' = k
  · subst h
    cases hl : alookup l k' with
    | some w => rw [alookup_updEntry_eq _ _ _ (by rw [hl]; rfl)]; rfl
    | none =>
      have : k' ∉ l.map Prod.fst := by
        intro hc
        obtain ⟨p, hp, hpe⟩ := List.mem_map.mp hc
        have := alookup_isSome_of_mem (l := l) (k := p.1) (v := p.2)
          (by simpa using hp)
        rw [hpe, hl] at this
        simp at this
      rw [alookup_none_of_not_mem_keys (by rwa [updEntry_keys])]
  · rw [alookup_updEntry_ne _ _ _ _ h]

/-- `updateLevel` dispatches only level and order-book events — never an
`OnExecuteOrder`. -/
theorem execPrices_updateLevel (ob : OrderBook) (o : Order)
    (ut : UpdateType) :
    execPrices (MarketManager.updateLevel ob o ut) = [] := by
  unfold MarketManager.updateLevel
  cases findLevel (ob.tree (routeKey o)) (routePrice o) with
  | none => rfl
  | some lv => cases ut <;> rfl

theorem execPrices_append (xs ys : List MarketEvent) :
    execPrices (xs ++ ys) = execPrices xs ++ execPrices ys := by
  simp [execPrices, List.filterMap_append]

theorem execPrices_cons_exec (o : Order) (p q : Nat)
    (evs : List MarketEvent) :
    execPrices (MarketEvent.onExecuteOrder o p q :: evs) =
      p :: execPrices evs := rfl

theorem execPrices_cons_updateOrder (o : Order) (evs : List MarketEvent) :
    execPrices (MarketEvent.onUpdateOrder o :: evs) = execPrices evs := rfl

theorem execPrices_singleton_deleteOrder (o : Order) :
    execPrices [MarketEvent.onDeleteOrder o] = [] := rfl

/-- Every `executeOrderStep` dispatches exactly one `OnExecuteOrder`, and
its price argument is the `price` passed in. -/
theorem execPrices_executeOrderStep (m : MarketManager) (o : Order)
    (price quantity : Nat) :
    execPrices (m.executeOrderStep o price quantity).events =
      if (alookup m.orderBooks o.symbolID).isSome then [price] else [] := by
  unfold MarketManager.executeOrderStep
  cases hob : alookup m.orderBooks o.symbolID with
  | none => rfl
  | some ob =>
    dsimp only
    by_cases hz : o.leavesQuantity - quantity = 0
    · rw [if_pos (by simpa using hz)]
      simp only [execPrices_cons_exec, execPrices_append,
        execPrices_updateLevel, execPrices_singleton_deleteOrder]
      simp
    · rw [if_neg (by simpa using hz)]
      simp only [execPrices_cons_exec, execPrices_cons_updateOrder,
        execPrices_updateLevel]
      simp

/-- `executeOrderStep` touches only `o.id`'s registry entry. -/
theorem executeOrderStep_orders_other (m : MarketManager) (o : Order)
    (price quantity : Nat) (k : Nat) (hk : k ≠ o.id) :
    alookup (m.executeOrderStep o price quantity).mm.orders k =
      alookup m.orders k := by
  unfold MarketManager.executeOrderStep
  cases hob : alookup m.orderBooks o.symbolID with
  | none => rfl
  | some ob =>
    dsimp only
    by_cases hz : o.leavesQuantity - quantity = 0
    · rw [if_pos (by simpa using hz)]
      dsimp only
      rw [alookup_eraseEntry_ne _ _ _ hk, alookup_updEntry_ne _ _ _ _ hk]
    · rw [if_neg (by simpa using hz)]
      dsimp only
      rw [alookup_updEntry_ne _ _ _ _ hk]

/-- `executeOrderStep` never removes an order book. -/
theorem executeOrderStep_books_isSome (m : MarketManager) (o : Order)
    (price quantity : Nat) (sid : Nat)
    (h : (alookup m.orderBooks sid).isSome) :
    (alookup (m.executeOrderStep o price quantity).mm.orderBooks sid).isSome := by
  unfold MarketManager.executeOrderStep
  cases hob : alookup m.orderBooks o.symbolID with
  | none => exact h
  | some ob =>
    dsimp only
    by_cases hz : o.leavesQuantity - quantity = 0
    · rw [if_pos (by simpa using hz)]
      dsimp only
      rw [alookup_updEntry_isSome]
      exact h
    · rw [if_neg (by simpa using hz)]
      dsimp only
      rw [alookup_updEntry_isSome]
      exact h

/-- The state after the resting bid at 100 and the incoming crossing sell
at 99 are admitted with matching enabled. -/
def c1Result : OpResult :=
  (exBaseM.AddOrder (exLimit 1 OrderSideBuy 100 10)).mm.AddOrder
    (exLimit 2 OrderSideSell 99 10)

/-- C1 (counterexample): a sell at 99 hitting a resting bid at 100 executes
at **99**, not at the resting order's price 100 — the matching loop always
prices the trade at `askOrder.Price`, which here is the *incoming* order's
price.  Both `OnExecuteOrder` dispatches carry price 99. -/
theorem c1_counterexample :
    alookup (exBaseM.AddOrder (exLimit 1 OrderSideBuy 100 10)).mm.orders 1 =
      some (exLimit 1 OrderSideBuy 100 10) ∧
    execPrices c1Result.events = [99, 99] ∧
    c1Result.code = ErrorOK ∧
    (99 : Nat) ≠ 100 := by
  decide

/-- C1 (amended): every trade generated by the matching loop executes at
the price of the **best-ask front order** (`price := askOrder.Price`) —
for both sides of the trade.  When the incoming order is a buy crossing a
resting ask this equals the resting order's price, but when an incoming
sell crosses a resting bid the trade executes at the incoming sell's
price, not the resting bid's.  Formally: whenever the loop guards pass
with bid front `b` and ask front `a`, the next two `OnExecuteOrder`
dispatches both carry `a.price`; and in general every `executeOrderStep`
dispatches exactly one `OnExecuteOrder` carrying exactly the price it was
invoked with. -/
theorem c1_match_executes_at_ask_price
    (fuel : Nat) (m : MarketManager) (symbolID : Nat) (ob : OrderBook)
    (bp ap : Nat) (bl al : LevelNode) (bid aid : Nat) (b a : Order)
    (hob : alookup m.orderBooks symbolID = some ob)
    (hbb : ob.bestBid = some bp) (hba : ob.bestAsk = some ap)
    (hcross : ¬ bp < ap)
    (hfb : findLevel ob.bids bp = some bl)
    (hfa : findLevel ob.asks ap = some al)
    (hhb : bl.orderList.head? = some bid)
    (hha : al.orderList.head? = some aid)
    (hlb : alookup m.orders bid = some b)
    (hla : alookup m.orders aid = some a)
    (hbid : b.id = bid) (hne : bid ≠ aid)
    (hbsym : b.symbolID = symbolID) (hasym : a.symbolID = symbolID) :
    (execPrices (matchLoop (fuel + 1) m symbolID).2).take 2 =
      [a.price, a.price] ∧
    ∀ (m' : MarketManager) (o : Order) (p q : Nat),
      execPrices (m'.executeOrderStep o p q).events =
        if (alookup m'.orderBooks o.symbolID).isSome then [p] else [] := by
  refine ⟨?_, execPrices_executeOrderStep⟩
  rw [matchLoop]
  rw [hob]
  dsimp only
  rw [hbb, hba]
  dsimp only
  rw [if_neg hcross, hfb, hfa]
  dsimp only
  rw [hhb, hha]
  dsimp only
  rw [hlb, hla]
  dsimp only
  have ha1 : alookup (m.executeOrderStep b a.price
      (min b.leavesQuantity a.leavesQuantity)).mm.orders aid = some a := by
    rw [executeOrderStep_orders_other _ _ _ _ _ (by omega)]
    exact hla
  rw [ha1]
  dsimp only
  rw [execPrices_append, execPrices_append]
  have hb1 : execPrices (m.executeOrderStep b a.price
      (min b.leavesQuantity a.leavesQuantity)).events = [a.price] := by
    rw [execPrices_executeOrderStep]
    rw [hbsym, hob]
    rfl
  have hb2 : execPrices ((m.executeOrderStep b a.price
      (min b.leavesQuantity a.leavesQuantity)).mm.executeOrderStep a a.price
      (min b.leavesQuantity a.leavesQuantity)).events = [a.price] := by
    rw [execPrices_executeOrderStep]
    have : (alookup (m.executeOrderStep b a.price
        (min b.leavesQuantity a.leavesQuantity)).mm.orderBooks
        a.symbolID).isSome := by
      apply executeOrderStep_books_isSome
      rw [hasym, hob]
      rfl
    rw [this]
    rfl
  rw [hb1, hb2]
  simp

/-- A crossed book built with matching disabled: resting bid at 100 and
resting ask at 99, used to exercise one matching iteration. -/
def c1CrossedState : MarketManager :=
  ((exBase.AddOrder (exLimit 1 OrderSideBuy 100 10)).mm.AddOrder
    (exLimit 2 OrderSideSell 99 10)).mm

/-- Witness for `c1_match_executes_at_ask_price` on the concrete crossed
book: the first two execution prices of the matching pass are 99 (the ask
front's price). -/
theorem c1_witness :
    (execPrices (matchLoop (0 + 1) c1CrossedState 1).2).take 2 = [99, 99] ∧
    ∀ (m' : MarketManager) (o : Order) (p q : Nat),
      execPrices (m'.executeOrderStep o p q).events =
        if (alookup m'.orderBooks o.symbolID).isSome then [p] else [] := by
  have h := c1_match_executes_at_ask_price 0 c1CrossedState 1
    ((((NewOrderBook exSymbol).AddOrder
      (exLimit 1 OrderSideBuy 100 10))).AddOrder (exLimit 2 OrderSideSell 99 10))
    100 99
    ⟨⟨LevelTypeBid, 100, 10, 0, 10, 1⟩, [1]⟩
    ⟨⟨LevelTypeAsk, 99, 10, 0, 10, 1⟩, [2]⟩
    1 2
    (exLimit 1 OrderSideBuy 100 10) (exLimit 2 OrderSideSell 99 10)
    (by decide) (by decide) (by decide) (by decide) (by decide) (by decide)
    (by decide) (by decide) (by decide) (by decide) (by decide) (by decide)
    (by decide) (by decide)
  exact h

/-! ## Claim C8 — the 87-byte order wire codec is a bijection -/

theorem take_bb (w n : Nat) (rest : List Nat) :
    (beBytes w n ++ rest).take w = beBytes w n := by
  rw [List.take_append_of_le_length (by rw [beBytes_length]),
    List.take_of_length_le (by rw [beBytes_length])]

theorem drop_bb (w n : Nat) (rest : List Nat) :
    (beBytes w n ++ rest).drop w = rest := by
  rw [List.drop_append_of_le_length (by rw [beBytes_length]),
    List.drop_of_length_le (by rw [beBytes_length])]
  rfl

theorem take_bb_self (w n : Nat) : (beBytes w n).take w = beBytes w n :=
  List.take_of_length_le (by rw [beBytes_length])

/-- An `Order` whose fields fit their Go machine-integer widths. -/
def validOrder (o : Order) : Prop :=
  o.id < 2 ^ 64 ∧ o.symbolID < 2 ^ 32 ∧ o.otype < 2 ^ 8 ∧ o.side < 2 ^ 8 ∧
  o.price < 2 ^ 64 ∧ o.stopPrice < 2 ^ 64 ∧ o.quantity < 2 ^ 64 ∧
  o.executedQuantity < 2 ^ 64 ∧ o.leavesQuantity < 2 ^ 64 ∧
  o.timeInForce < 2 ^ 8 ∧ o.maxVisibleQuantity < 2 ^ 64 ∧
  o.slippage < 2 ^ 64 ∧
  -(2 ^ 63) ≤ o.trailingDistance ∧ o.trailingDistance < 2 ^ 63 ∧
  -(2 ^ 63) ≤ o.trailingStep ∧ o.trailingStep < 2 ^ 63

theorem marshalOrder_length (o : Order) : (marshalOrder o).length = 87 := by
  simp [marshalOrder, beBytes_length]

/-- Re-encoding a decoded field slice reproduces the slice. -/
theorem beBytes_take (l : List Nat) (w : Nat) (hw : w ≤ l.length)
    (hb : ∀ b ∈ l, b < 256) :
    beBytes w (beVal (l.take w)) = l.take w := by
  have hlen : (l.take w).length = w := by
    rw [List.length_take]
    omega
  have := beBytes_beVal (l.take w) (fun b hbmem => hb b (List.mem_of_mem_take hbmem))
  rwa [hlen] at this

theorem unmarshal_marshal (o : Order) (hv : validOrder o) :
    unmarshalOrder (marshalOrder o) = o := by
  obtain ⟨h1, h2, h3, h4, h5, h6, h7, h8, h9, h10, h11, h12, h13a, h13b,
    h14a, h14b⟩ := hv
  have e64 : (2 : Nat) ^ 64 = 256 ^ 8 := by norm_num
  have e32 : (2 : Nat) ^ 32 = 256 ^ 4 := by norm_num
  have e8 : (2 : Nat) ^ 8 = 256 ^ 1 := by norm_num
  unfold unmarshalOrder marshalOrder
  simp only [List.append_assoc]
  simp only [take_bb, drop_bb, take_bb_self]
  rcases o with ⟨oid, osym, oty, osd, opr, osp, oq, oe, ol, otif, omv, osl,
    otd, ots⟩
  simp only at h1 h2 h3 h4 h5 h6 h7 h8 h9 h10 h11 h12 h13a h13b h14a h14b
  simp only [Order.mk.injEq]
  refine ⟨?_, ?_, ?_, ?_, ?_, ?_, ?_, ?_, ?_, ?_, ?_, ?_, ?_, ?_⟩
  · exact beVal_beBytes_of_lt (by omega)
  · exact beVal_beBytes_of_lt (by omega)
  · exact beVal_beBytes_of_lt (by omega)
  · exact beVal_beBytes_of_lt (by omega)
  · exact beVal_beBytes_of_lt (by omega)
  · exact beVal_beBytes_of_lt (by omega)
  · exact beVal_beBytes_of_lt (by omega)
  · exact beVal_beBytes_of_lt (by omega)
  · exact beVal_beBytes_of_lt (by omega)
  · exact beVal_beBytes_of_lt (by omega)
  · exact beVal_beBytes_of_lt (by omega)
  · exact beVal_beBytes_of_lt (by omega)
  · rw [beVal_beBytes_of_lt (by have := toUInt64Bits_lt otd; omega)]
    exact ofUInt64Bits_toUInt64Bits h13a h13b
  · rw [beVal_beBytes_of_lt (by have := toUInt64Bits_lt ots; omega)]
    exact ofUInt64Bits_toUInt64Bits h14a h14b

theorem beVal_take8_lt (l : List Nat) (h8 : 8 ≤ l.length)
    (hb : ∀ b ∈ l, b < 256) : beVal (l.take 8) < 2 ^ 64 := by
  have h := beVal_lt (l.take 8) (fun b hbm => hb b (List.mem_of_mem_take hbm))
  have hlen : (l.take 8).length = 8 := by
    rw [List.length_take]
    omega
  rw [hlen] at h
  exact lt_of_lt_of_eq h (by norm_num)

theorem marshal_unmarshal (buf : List Nat) (hlen : buf.length = 87)
    (hb : ∀ b ∈ buf, b < 256) :
    marshalOrder (unmarshalOrder buf) = buf := by
  have hbd : ∀ (k : Nat), ∀ b ∈ buf.drop k, b < 256 :=
    fun k b h => hb b (List.mem_of_mem_drop h)
  have hbdd : ∀ (k j : Nat), ∀ b ∈ (buf.drop k).drop j, b < 256 :=
    fun k j b h => hbd k b (List.mem_of_mem_drop h)
  unfold marshalOrder unmarshalOrder
  dsimp only
  simp only [List.drop_drop]
  have hlen' : ∀ k : Nat, (buf.drop k).length = 87 - k := by
    intro k
    rw [List.length_drop, hlen]
  rw [toUInt64Bits_ofUInt64Bits (beVal_take8_lt _ (by simp only [hlen']; omega) (hbd 71))]
  rw [toUInt64Bits_ofUInt64Bits (beVal_take8_lt _ (by simp only [hlen']; omega) (hbd 79))]
  rw [beBytes_take buf 8 (by omega) hb]
  rw [beBytes_take (buf.drop 8) 4 (by simp only [hlen']; omega) (hbd 8)]
  rw [beBytes_take (buf.drop 12) 1 (by simp only [hlen']; omega) (hbd 12)]
  rw [beBytes_take (buf.drop 13) 1 (by simp only [hlen']; omega) (hbd 13)]
  rw [beBytes_take (buf.drop 14) 8 (by simp only [hlen']; omega) (hbd 14)]
  rw [beBytes_take (buf.drop 22) 8 (by simp only [hlen']; omega) (hbd 22)]
  rw [beBytes_take (buf.drop 30) 8 (by simp only [hlen']; omega) (hbd 30)]
  rw [beBytes_take (buf.drop 38) 8 (by simp only [hlen']; omega) (hbd 38)]
  rw [beBytes_take (buf.drop 46) 8 (by simp only [hlen']; omega) (hbd 46)]
  rw [beBytes_take (buf.drop 54) 1 (by simp only [hlen']; omega) (hbd 54)]
  rw [beBytes_take (buf.drop 55) 8 (by simp only [hlen']; omega) (hbd 55)]
  rw [beBytes_take (buf.drop 63) 8 (by simp only [hlen']; omega) (hbd 63)]
  rw [beBytes_take (buf.drop 71) 8 (by simp only [hlen']; omega) (hbd 71)]
  rw [beBytes_take (buf.drop 79) 8 (by simp only [hlen']; omega) (hbd 79)]
  have hfin : (buf.drop 79).take 8 = buf.drop 79 :=
    List.take_of_length_le (by simp only [hlen']; omega)
  rw [hfin]
  have hstep : ∀ (k j : Nat), (buf.drop k).take j ++ buf.drop (k + j) = buf.drop k := by
    intro k j
    rw [← List.drop_drop]
    exact List.take_append_drop j (buf.drop k)
  have h79 : (buf.drop 71).take 8 ++ buf.drop 79 = buf.drop 71 := hstep 71 8
  have h71 : (buf.drop 63).take 8 ++ buf.drop 71 = buf.drop 63 := hstep 63 8
  have h63 : (buf.drop 55).take 8 ++ buf.drop 63 = buf.drop 55 := hstep 55 8
  have h55 : (buf.drop 54).take 1 ++ buf.drop 55 = buf.drop 54 := hstep 54 1
  have h54 : (buf.drop 46).take 8 ++ buf.drop 54 = buf.drop 46 := hstep 46 8
  have h46 : (buf.drop 38).take 8 ++ buf.drop 46 = buf.drop 38 := hstep 38 8
  have h38 : (buf.drop 30).take 8 ++ buf.drop 38 = buf.drop 30 := hstep 30 8
  have h30 : (buf.drop 22).take 8 ++ buf.drop 30 = buf.drop 22 := hstep 22 8
  have h22 : (buf.drop 14).take 8 ++ buf.drop 22 = buf.drop 14 := hstep 14 8
  have h14 : (buf.drop 13).take 1 ++ buf.drop 14 = buf.drop 13 := hstep 13 1
  have h13 : (buf.drop 12).take 1 ++ buf.drop 13 = buf.drop 12 := hstep 12 1
  have h12 : (buf.drop 8).take 4 ++ buf.drop 12 = buf.drop 8 := hstep 8 4
  have h8 : buf.take 8 ++ buf.drop 8 = buf := List.take_append_drop 8 buf
  simp only [List.append_assoc] at *
  rw [h79, h71, h63, h55, h54, h46, h38, h30, h22, h14, h13, h12, h8]

/-- C8: the 87-byte big-endian order wire codec is a bijection on its
domain — decoding any 87-byte payload and re-encoding it yields the
identical bytes, and encoding any (machine-width-valid) `Order` and
decoding the result yields the identical `Order`, all thirteen §6.1 fields
(including the signed trailing distance and step, through their
two's-complement conversions) included; every encoding is 87 bytes. -/
theorem c8_order_codec_bijection :
    (∀ buf : List Nat, buf.length = 87 → (∀ b ∈ buf, b < 256) →
      marshalOrder (unmarshalOrder buf) = buf) ∧
    (∀ o : Order, validOrder o → unmarshalOrder (marshalOrder o) = o) ∧
    (∀ o : Order, (marshalOrder o).length = 87) :=
  ⟨marshal_unmarshal, unmarshal_marshal, marshalOrder_length⟩

/-- Witness for `c8_order_codec_bijection` on a concrete 87-byte buffer
(bytes 0,1,…,86) and the concrete limit order of the fixtures (which has a
negative trailing distance to exercise the signed fields). -/
theorem c8_witness :
    marshalOrder (unmarshalOrder ((List.range 87).map (· % 256))) =
      (List.range 87).map (· % 256) ∧
    unmarshalOrder (marshalOrder { exLimit 1 OrderSideBuy 100 5 with
                                    trailingDistance := -10000
                                    trailingStep := 7 }) =
      { exLimit 1 OrderSideBuy 100 5 with
          trailingDistance := -10000
          trailingStep := 7 } := by
  constructor
  · exact c8_order_codec_bijection.1 ((List.range 87).map (· % 256))
      (by decide) (by decide)
  · exact c8_order_codec_bijection.2.1 _
      (by unfold validOrder exLimit OrderTypeLimit OrderSideBuy MaxUint64
          norm_num)

/-! ## Claim C9 — ReadAll: tolerated truncation vs hard errors -/

theorem take_len_append {α : Type} {l : List α} {n : Nat} (rest : List α)
    (h : l.length = n) : (l ++ rest).take n = l := by
  rw [List.take_append_of_le_length (by omega), List.take_of_length_le (by omega)]

theorem drop_len_append {α : Type} {l : List α} {n : Nat} (rest : List α)
    (h : l.length = n) : (l ++ rest).drop n = rest := by
  rw [List.drop_append_of_le_length (by omega), List.drop_of_length_le (by omega)]
  rfl

/-- A journal event whose fields fit the wire format (and whose unused
fields hold Go zero values, as the decoder reproduces them). -/
def validEvent (e : MatchingEvent) : Prop :=
  -(2 ^ 63) ≤ e.timestamp ∧ e.timestamp < 2 ^ 63 ∧
  ((e.etype = EventNewOrder ∧ validOrder e.order ∧ e.orderID = 0) ∨
   (e.etype = EventCancelOrder ∧ e.order = Order.zero ∧ e.orderID < 2 ^ 64))

/-- The byte stream of a sequence of appended journal records. -/
def encodeAll : List MatchingEvent → List Nat
  | [] => []
  | e :: es => (encodeEvent e).getD [] ++ encodeAll es

/-- `decodeEvent` on a well-formed length-prefixed record: the length
prefix is read and validated, and the parse proceeds on the payload. -/
theorem decodeEvent_record (n : Nat) (body rest : List Nat)
    (hlen : body.length = n) (h9 : 9 ≤ n) (h32 : n < 2 ^ 32) :
    decodeEvent (beBytes 4 n ++ body ++ rest) = decodePayload body rest := by
  unfold decodeEvent
  rw [List.append_assoc]
  rw [if_neg (by simp only [List.length_append, beBytes_length]; omega)]
  rw [take_len_append _ (beBytes_length 4 n),
    beVal_beBytes_of_lt (by
      have : (2 : Nat) ^ 32 = 256 ^ 4 := by norm_num
      omega)]
  rw [if_neg (by omega)]
  rw [drop_len_append _ (beBytes_length 4 n)]
  rw [if_neg (by simp only [List.length_append]; omega)]
  rw [take_len_append _ hlen, drop_len_append _ hlen]

/-- `decodePayload` on a payload of the shape tag ++ timestamp ++ tail. -/
theorem decodePayload_parts (t u : Nat) (tail rest : List Nat)
    (ht : t < 256) (hu : u < 2 ^ 64) :
    decodePayload (beBytes 1 t ++ beBytes 8 u ++ tail) rest =
      (if t = EventNewOrder then
        if 9 + tail.length < 9 + orderWireSize then
          .errShortNewOrder (9 + tail.length)
        else .ok ⟨t, ofUInt64Bits u, unmarshalOrder tail, 0⟩ rest
      else if t = EventCancelOrder then
        if 9 + tail.length < 17 then .errShortCancelOrder (9 + tail.length)
        else .ok ⟨t, ofUInt64Bits u, Order.zero, beVal (tail.take 8)⟩ rest
      else .errUnknownType t) := by
  unfold decodePayload
  rw [List.append_assoc]
  rw [take_len_append _ (beBytes_length 1 t),
    beVal_beBytes_of_lt (by norm_num; omega)]
  rw [drop_len_append _ (beBytes_length 1 t)]
  rw [take_len_append _ (beBytes_length 8 u),
    beVal_beBytes_of_lt (by
      have : (2 : Nat) ^ 64 = 256 ^ 8 := by norm_num
      omega)]
  have hplen : (beBytes 1 t ++ (beBytes 8 u ++ tail)).length = 9 + tail.length := by
    simp only [List.length_append, beBytes_length]
    omega
  rw [hplen]
  have hdrop9 : (beBytes 1 t ++ (beBytes 8 u ++ tail)).drop 9 = tail := by
    rw [← List.append_assoc]
    exact drop_len_append _ (by simp only [List.length_append, beBytes_length])
  rw [hdrop9]

theorem decodeEvent_encodeEvent {e : MatchingEvent} {rec : List Nat}
    (rest : List Nat) (hv : validEvent e) (henc : encodeEvent e = some rec) :
    decodeEvent (rec ++ rest) = .ok e rest := by
  obtain ⟨hts1, hts2, hcase⟩ := hv
  rcases hcase with ⟨hty, hord, hoid⟩ | ⟨hty, hord, hoid⟩
  · rw [encodeEvent, if_pos hty] at henc
    injection henc with henc
    subst henc
    have hshape :
        (beBytes 4 (1 + 8 + orderWireSize) ++ beBytes 1 e.etype ++
            beBytes 8 (toUInt64Bits e.timestamp) ++ marshalOrder e.order) ++
          rest =
        beBytes 4 (1 + 8 + orderWireSize) ++
          (beBytes 1 e.etype ++ beBytes 8 (toUInt64Bits e.timestamp) ++
            marshalOrder e.order) ++ rest := by
      simp [List.append_assoc]
    rw [hshape]
    rw [decodeEvent_record _ _ _
      (by simp only [List.length_append, beBytes_length, marshalOrder_length,
        orderWireSize])
      (by norm_num [orderWireSize]) (by norm_num [orderWireSize])]
    rw [decodePayload_parts _ _ _ _ (by rw [hty]; norm_num [EventNewOrder])
      (toUInt64Bits_lt _)]
    rw [if_pos hty, if_neg (by rw [marshalOrder_length, orderWireSize]; omega)]
    rw [unmarshal_marshal e.order hord,
      ofUInt64Bits_toUInt64Bits hts1 hts2, ← hoid]
  · rw [encodeEvent, if_neg (by rw [hty]; decide), if_pos hty] at henc
    injection henc with henc
    subst henc
    have hshape :
        (beBytes 4 (1 + 8 + 8) ++ beBytes 1 e.etype ++
            beBytes 8 (toUInt64Bits e.timestamp) ++ beBytes 8 e.orderID) ++
          rest =
        beBytes 4 (1 + 8 + 8) ++
          (beBytes 1 e.etype ++ beBytes 8 (toUInt64Bits e.timestamp) ++
            beBytes 8 e.orderID) ++ rest := by
      simp [List.append_assoc]
    rw [hshape]
    rw [decodeEvent_record _ _ _
      (by simp only [List.length_append, beBytes_length]) (by norm_num)
      (by norm_num)]
    rw [decodePayload_parts _ _ _ _ (by rw [hty]; norm_num [EventCancelOrder])
      (toUInt64Bits_lt _)]
    rw [if_neg (by rw [hty]; decide), if_pos hty,
      if_neg (by rw [beBytes_length]; omega)]
    rw [take_bb_self, beVal_beBytes_of_lt (by
      have : (2 : Nat) ^ 64 = 256 ^ 8 := by norm_num
      omega)]
    rw [ofUInt64Bits_toUInt64Bits hts1 hts2, ← hord]

theorem encodeEvent_isSome {e : MatchingEvent} (hv : validEvent e) :
    ∃ rec, encodeEvent e = some rec := by
  obtain ⟨-, -, hcase⟩ := hv
  rcases hcase with ⟨hty, -, -⟩ | ⟨hty, -, -⟩
  · rw [encodeEvent, if_pos hty]
    exact ⟨_, rfl⟩
  · rw [encodeEvent, if_neg (by rw [hty]; decide), if_pos hty]
    exact ⟨_, rfl⟩

/-- Reading back the concatenation of valid encoded events followed by any
suffix yields those events followed by whatever the suffix decodes to. -/
theorem ReadAll_encodeAll_append (es : List MatchingEvent) (rest : List Nat)
    (hv : ∀ e ∈ es, validEvent e) :
    ReadAll (encodeAll es ++ rest) =
      (es ++ (ReadAll rest).1, (ReadAll rest).2) := by
  induction es with
  | nil => simp [encodeAll]
  | cons e es ih =>
    have hve : validEvent e := hv e (List.mem_cons_self _ _)
    obtain ⟨rec, hrec⟩ := encodeEvent_isSome hve
    have hdec : decodeEvent (rec ++ (encodeAll es ++ rest)) =
        .ok e (encodeAll es ++ rest) := decodeEvent_encodeEvent _ hve hrec
    rw [encodeAll, hrec]
    simp only [Option.getD_some]
    rw [List.append_assoc]
    rw [ReadAll.eq_def]
    split
    next e2 rest2 heq =>
      rw [hdec] at heq
      cases heq
      have hih := ih (fun e2 h2 => hv e2 (List.mem_cons_of_mem _ h2))
      simp only [hih, List.cons_append]
    next heq =>
      rw [hdec] at heq
      exact absurd heq (by simp)
    next hok htr =>
      exact absurd hdec (hok e _)

/-- A short read of the 4-byte length prefix is reported as `truncated`. -/
theorem decodeEvent_short_head {input : List Nat} (h : input.length < 4) :
    decodeEvent input = .truncated := by
  unfold decodeEvent
  rw [if_pos h]

/-- A length field below 9 is the hard error `invalid record length`. -/
theorem decodeEvent_invalid_length (n : Nat) (junk : List Nat) (hn : n < 9) :
    decodeEvent (beBytes 4 n ++ junk) = .errInvalidLength n := by
  unfold decodeEvent
  rw [if_neg (by simp only [List.length_append, beBytes_length]; omega)]
  rw [take_len_append _ (beBytes_length 4 n), beVal_beBytes_of_lt (by
    have h4 : (256 : Nat) ^ 4 = 4294967296 := by norm_num
    omega)]
  rw [if_pos hn]

/-- A short read of the payload after a complete, valid length prefix is
the hard error `reading record payload`. -/
theorem decodeEvent_short_payload (p : Nat) (short : List Nat)
    (hp : 9 ≤ p) (hp32 : p < 2 ^ 32) (hshort : short.length < p) :
    decodeEvent (beBytes 4 p ++ short) = .errShortPayloadRead := by
  unfold decodeEvent
  rw [if_neg (by simp only [List.length_append, beBytes_length]; omega)]
  rw [take_len_append _ (beBytes_length 4 p), beVal_beBytes_of_lt (by
    have h4 : (2 : Nat) ^ 32 = 256 ^ 4 := by norm_num
    omega)]
  rw [if_neg (by omega)]
  rw [drop_len_append _ (beBytes_length 4 p)]
  rw [if_pos hshort]

/-- An unknown event tag in a complete record is the hard error
`unknown EventType`. -/
theorem decodeEvent_unknown_tag (t u : Nat) (body rest2 : List Nat)
    (ht : t < 256) (ht1 : t ≠ EventNewOrder) (ht2 : t ≠ EventCancelOrder)
    (hu : u < 2 ^ 64) (hm32 : 9 + body.length < 2 ^ 32) :
    decodeEvent (beBytes 4 (9 + body.length) ++
        (beBytes 1 t ++ beBytes 8 u ++ body) ++ rest2) = .errUnknownType t := by
  rw [decodeEvent_record _ _ _
    (by simp only [List.length_append, beBytes_length])
    (by omega) hm32]
  rw [decodePayload_parts _ _ _ _ ht hu]
  rw [if_neg ht1, if_neg ht2]

/-- `ReadAll` stops cleanly when the next record is truncated. -/
theorem ReadAll_of_trunc {input : List Nat}
    (h : decodeEvent input = .truncated) : ReadAll input = ([], none) := by
  rw [ReadAll.eq_def]
  split
  next e2 rest2 heq =>
    rw [h] at heq
    exact absurd heq (by simp)
  next heq => rfl
  next hok htr => exact absurd h htr

/-- `ReadAll` surfaces any hard decode error alongside the prefix. -/
theorem ReadAll_of_error {input : List Nat} {r : DecodeResult}
    (h : decodeEvent input = r)
    (hok : ∀ e rest, r ≠ .ok e rest) (htr : r ≠ .truncated) :
    ReadAll input = ([], some r) := by
  rw [ReadAll.eq_def]
  split
  next e2 rest2 heq =>
    rw [h] at heq
    exact absurd heq (hok e2 rest2)
  next heq =>
    rw [h] at heq
    exact absurd heq htr
  next hok2 htr2 =>
    rw [h]

/-- C9: `ReadAll` returns every fully-readable journal record in order, and
it distinguishes tolerated truncation from hard errors exactly as claimed:
after a stream of well-formed records, (1) a trailing fragment shorter than
the 4-byte length prefix ends the scan without error, returning the decoded
prefix; whereas (2) a record whose length field is below 9, (3) a complete
record carrying an unknown event tag, and (4) a short read inside the
payload after a complete length prefix are each hard errors, returned to
the caller alongside the records decoded so far. -/
theorem c9_readAll_truncation_vs_hard_errors
    (es : List MatchingEvent) (hv : ∀ e ∈ es, validEvent e)
    (tail : List Nat) (htail : tail.length < 4)
    (n : Nat) (hn : n < 9) (junk : List Nat)
    (t u : Nat) (ht : t < 256) (ht1 : t ≠ EventNewOrder)
    (ht2 : t ≠ EventCancelOrder) (hu : u < 2 ^ 64) (body rest2 : List Nat)
    (hm32 : 9 + body.length < 2 ^ 32)
    (p : Nat) (hp : 9 ≤ p) (hp32 : p < 2 ^ 32)
    (short : List Nat) (hshort : short.length < p) :
    ReadAll (encodeAll es ++ tail) = (es, none) ∧
    ReadAll (encodeAll es ++ (beBytes 4 n ++ junk)) =
      (es, some (.errInvalidLength n)) ∧
    ReadAll (encodeAll es ++ (beBytes 4 (9 + body.length) ++
        (beBytes 1 t ++ beBytes 8 u ++ body) ++ rest2)) =
      (es, some (.errUnknownType t)) ∧
    ReadAll (encodeAll es ++ (beBytes 4 p ++ short)) =
      (es, some .errShortPayloadRead) := by
  refine ⟨?_, ?_, ?_, ?_⟩
  · rw [ReadAll_encodeAll_append es _ hv,
      ReadAll_of_trunc (decodeEvent_short_head htail)]
    simp
  · rw [ReadAll_encodeAll_append es _ hv,
      ReadAll_of_error (decodeEvent_invalid_length n junk hn)
        (by intro e r hc; exact DecodeResult.noConfusion hc)
        (by intro hc; exact DecodeResult.noConfusion hc)]
    simp
  · rw [ReadAll_encodeAll_append es _ hv,
      ReadAll_of_error (decodeEvent_unknown_tag t u body rest2 ht ht1 ht2 hu hm32)
        (by intro e r hc; exact DecodeResult.noConfusion hc)
        (by intro hc; exact DecodeResult.noConfusion hc)]
    simp
  · rw [ReadAll_encodeAll_append es _ hv,
      ReadAll_of_error (decodeEvent_short_payload p short hp hp32 hshort)
        (by intro e r hc; exact DecodeResult.noConfusion hc)
        (by intro hc; exact DecodeResult.noConfusion hc)]
    simp

/-- Witness for C9 at concrete inputs: one valid CancelOrder record
followed by, respectively, a 2-byte fragment, a record with length field 5,
a complete record tagged 7, and a 9-length prefix with a 3-byte payload. -/
theorem c9_witness :
    ReadAll (encodeAll [⟨EventCancelOrder, 5, Order.zero, 7⟩] ++ [0, 0]) =
      ([⟨EventCancelOrder, 5, Order.zero, 7⟩], none) ∧
    ReadAll (encodeAll [⟨EventCancelOrder, 5, Order.zero, 7⟩] ++
        (beBytes 4 5 ++ [1, 2, 3])) =
      ([⟨EventCancelOrder, 5, Order.zero, 7⟩], some (.errInvalidLength 5)) ∧
    ReadAll (encodeAll [⟨EventCancelOrder, 5, Order.zero, 7⟩] ++
        (beBytes 4 (9 + List.length ([] : List Nat)) ++
          (beBytes 1 7 ++ beBytes 8 3 ++ []) ++ [4])) =
      ([⟨EventCancelOrder, 5, Order.zero, 7⟩], some (.errUnknownType 7)) ∧
    ReadAll (encodeAll [⟨EventCancelOrder, 5, Order.zero, 7⟩] ++
        (beBytes 4 9 ++ [1, 2, 3])) =
      ([⟨EventCancelOrder, 5, Order.zero, 7⟩], some .errShortPayloadRead) :=
  c9_readAll_truncation_vs_hard_errors
    [⟨EventCancelOrder, 5, Order.zero, 7⟩]
    (by intro e he
        simp only [List.mem_singleton] at he
        subst he
        refine ⟨by decide, by decide, Or.inr ⟨rfl, rfl, by decide⟩⟩)
    [0, 0] (by decide)
    5 (by decide) [1, 2, 3]
    7 3 (by decide) (by decide) (by decide) (by decide) [] [4]
    (by decide)
    9 (by decide) (by decide) [1, 2, 3] (by decide)

/-! ## Claim C4 — snapshot round trip through Recover -/

theorem alookup_isSome_of_mem_keys {α : Type} {l : List (Nat × α)} {k : Nat}
    (h : k ∈ l.map Prod.fst) : (alookup l k).isSome := by
  obtain ⟨p, hp, hk⟩ := List.mem_map.mp h
  subst hk
  exact alookup_isSome_of_mem (v := p.2) (by rw [Prod.mk.eta]; exact hp)

/-- `applySymbols` on pairwise-distinct, fresh symbols appends every
symbol and a new empty order book for it, in order. -/
theorem applySymbols_fresh (ss : List Symbol) :
    ∀ m0 : MarketManager,
    (∀ s ∈ ss, alookup m0.symbols s.id = none) →
    (∀ s ∈ ss, alookup m0.orderBooks s.id = none) →
    ss.Pairwise (fun a b => a.id ≠ b.id) →
    applySymbols m0 ss = .ok
      { m0 with
        symbols := m0.symbols ++ ss.map (fun s => (s.id, s))
        orderBooks :=
          m0.orderBooks ++ ss.map (fun s => (s.id, NewOrderBook s)) } := by
  induction ss with
  | nil =>
    intro m0 _ _ _
    simp [applySymbols]
  | cons s ss ih =>
    intro m0 h1 h2 hpw
    have hs1 : alookup m0.symbols s.id = none := h1 s (List.mem_cons_self _ _)
    have hs2 : alookup m0.orderBooks s.id = none :=
      h2 s (List.mem_cons_self _ _)
    have hne : ∀ s' ∈ ss, s.id ≠ s'.id := (List.pairwise_cons.mp hpw).1
    have hpw' : ss.Pairwise (fun a b => a.id ≠ b.id) :=
      (List.pairwise_cons.mp hpw).2
    have hstep1 : m0.AddSymbol s =
        ⟨{ m0 with symbols := m0.symbols ++ [(s.id, s)] },
          [MarketEvent.onAddSymbol s], ErrorOK⟩ := by
      simp only [MarketManager.AddSymbol, hs1]
      rfl
    have hstep2 :
        ({ m0 with symbols := m0.symbols ++ [(s.id, s)] } :
            MarketManager).AddOrderBook s =
        ⟨{ m0 with
            symbols := m0.symbols ++ [(s.id, s)]
            orderBooks := m0.orderBooks ++ [(s.id, NewOrderBook s)] },
          [MarketEvent.onAddOrderBook s.id], ErrorOK⟩ := by
      simp only [MarketManager.AddOrderBook, hs2]
      rfl
    have h1' : ∀ s' ∈ ss,
        alookup (m0.symbols ++ [(s.id, s)]) s'.id = none := by
      intro s' hs'
      rw [alookup_append, h1 s' (List.mem_cons_of_mem _ hs')]
      simp [alookup, hne s' hs']
    have h2' : ∀ s' ∈ ss,
        alookup (m0.orderBooks ++ [(s.id, NewOrderBook s)]) s'.id = none := by
      intro s' hs'
      rw [alookup_append, h2 s' (List.mem_cons_of_mem _ hs')]
      simp [alookup, hne s' hs']
    rw [applySymbols, hstep1]
    simp only [ne_eq, not_true_eq_false, false_and, if_false]
    rw [hstep2]
    simp only [ne_eq, not_true_eq_false, false_and, if_false]
    rw [ih _ h1' h2' hpw']
    simp [List.append_assoc]

/-- `applyOrders` on pairwise-distinct, fresh orders whose books exist
appends every order to the registry verbatim (executed and leaves
quantities included), leaving symbols and book keys unchanged. -/
theorem applyOrders_fresh (os : List Order) :
    ∀ m0 : MarketManager,
    (∀ o ∈ os, alookup m0.orders o.id = none) →
    (∀ o ∈ os, (alookup m0.orderBooks o.symbolID).isSome) →
    os.Pairwise (fun a b => a.id ≠ b.id) →
    ∃ mm' : MarketManager,
      applyOrders m0 os = .ok mm' ∧
      mm'.symbols = m0.symbols ∧
      mm'.orders = m0.orders ++ os.map (fun o => (o.id, o)) ∧
      mm'.orderBooks.map Prod.fst = m0.orderBooks.map Prod.fst := by
  induction os with
  | nil =>
    intro m0 _ _ _
    exact ⟨m0, rfl, rfl, by simp, rfl⟩
  | cons o os ih =>
    intro m0 h1 h2 hpw
    have ho1 : alookup m0.orders o.id = none := h1 o (List.mem_cons_self _ _)
    obtain ⟨ob, hob⟩ :=
      Option.isSome_iff_exists.mp (h2 o (List.mem_cons_self _ _))
    have hne : ∀ o' ∈ os, o.id ≠ o'.id := (List.pairwise_cons.mp hpw).1
    have hpw' : os.Pairwise (fun a b => a.id ≠ b.id) :=
      (List.pairwise_cons.mp hpw).2
    have hstep : m0.RestoreOrder o =
        ⟨{ m0 with
            orders := m0.orders ++ [(o.id, o)]
            orderBooks := updEntry m0.orderBooks o.symbolID (ob.AddOrder o) },
          [MarketEvent.onAddOrder o], ErrorOK⟩ := by
      simp only [MarketManager.RestoreOrder, ho1, hob]
      rfl
    have h1' : ∀ o' ∈ os,
        alookup (m0.orders ++ [(o.id, o)]) o'.id = none := by
      intro o' ho'
      rw [alookup_append, h1 o' (List.mem_cons_of_mem _ ho')]
      simp [alookup, hne o' ho']
    have h2' : ∀ o' ∈ os,
        (alookup (updEntry m0.orderBooks o.symbolID (ob.AddOrder o))
          o'.symbolID).isSome := by
      intro o' ho'
      apply alookup_isSome_of_mem_keys
      rw [updEntry_keys]
      exact alookup_fst_mem_keys (h2 o' (List.mem_cons_of_mem _ ho'))
    obtain ⟨mm', hap, hsy, horv, hbk⟩ := ih
      { m0 with
        orders := m0.orders ++ [(o.id, o)]
        orderBooks := updEntry m0.orderBooks o.symbolID (ob.AddOrder o) }
      h1' h2' hpw'
    refine ⟨mm', ?_, hsy, ?_, ?_⟩
    · rw [applyOrders, hstep]
      simp only [ne_eq, not_true_eq_false, false_and, if_false]
      exact hap
    · rw [horv]
      simp [List.append_assoc]
    · rw [hbk, updEntry_keys]

/-- Replaying a journal with no record newer than the snapshot timestamp
is a no-op. -/
theorem replayEvents_stale (ts : Int) (m : MarketManager)
    (es : List MatchingEvent) (h : ∀ e ∈ es, e.timestamp ≤ ts) :
    replayEvents ts m es = .ok m := by
  induction es with
  | nil => rfl
  | cons e es ih =>
    rw [replayEvents, if_pos (h e (List.mem_cons_self _ _))]
    exact ih (fun e' h' => h e' (List.mem_cons_of_mem _ h'))

/-- C4: `Recover` on a fresh engine, fed a snapshot captured from state
`m` and a journal with no record newer than the snapshot timestamp,
rebuilds exactly `m`'s symbols and orders (in registry order, hence as
multisets), each order keeping its executed and leaves quantities; the
orders are re-inserted by `RestoreOrder`, which never runs the matching
loop. -/
theorem c4_recover_snapshot_roundtrip
    (m : MarketManager) (ts : Int) (journal : List MatchingEvent)
    (hsym : ∀ p ∈ m.symbols, p.2.id = p.1)
    (hsymnd : (m.symbols.map Prod.fst).Nodup)
    (hord : ∀ p ∈ m.orders, p.2.id = p.1)
    (hordnd : (m.orders.map Prod.fst).Nodup)
    (hsid : ∀ p ∈ m.orders, p.2.symbolID ∈ m.symbols.map Prod.fst)
    (hj : ∀ e ∈ journal, e.timestamp ≤ ts) :
    ∃ mm' : MarketManager,
      Recover NewMarketManager (some (captureSnapshot m ts)) journal =
        .ok mm' ∧
      mm'.symbols.map (fun p => p.2) = m.symbols.map (fun p => p.2) ∧
      mm'.orders.map (fun p => p.2) = m.orders.map (fun p => p.2) := by
  have hkeyss : (m.symbols.map (fun p => p.2)).map (fun s => s.id) =
      m.symbols.map Prod.fst := by
    rw [List.map_map]
    exact List.map_congr_left hsym
  have hkeyso : (m.orders.map (fun p => p.2)).map (fun o => o.id) =
      m.orders.map Prod.fst := by
    rw [List.map_map]
    exact List.map_congr_left hord
  have hpws : (m.symbols.map (fun p => p.2)).Pairwise
      (fun a b => a.id ≠ b.id) := by
    have hnd := hkeyss ▸ hsymnd
    exact List.pairwise_map.mp hnd
  have hpwo : (m.orders.map (fun p => p.2)).Pairwise
      (fun a b => a.id ≠ b.id) := by
    have hnd := hkeyso ▸ hordnd
    exact List.pairwise_map.mp hnd
  have hs1 := applySymbols_fresh (m.symbols.map (fun p => p.2))
    NewMarketManager (fun s _ => rfl) (fun s _ => rfl) hpws
  obtain ⟨mm', hap, hsy, horv, hbk⟩ := applyOrders_fresh
    (m.orders.map (fun p => p.2))
    (⟨NewMarketManager.symbols ++
        (m.symbols.map (fun p => p.2)).map (fun s => (s.id, s)),
      NewMarketManager.orderBooks ++ (m.symbols.map (fun p => p.2)).map
        (fun s => (s.id, NewOrderBook s)),
      NewMarketManager.orders, NewMarketManager.matching⟩ : MarketManager)
    (fun o _ => rfl)
    (by
      intro o hoo
      obtain ⟨p, hp, hpe⟩ := List.mem_map.mp hoo
      subst hpe
      apply alookup_isSome_of_mem_keys
      have hk : List.map (fun q : Nat × Symbol => q.2.id) m.symbols =
          List.map Prod.fst m.symbols := List.map_congr_left hsym
      simp only [NewMarketManager, List.nil_append, List.map_map,
        Function.comp_def]
      rw [hk]
      exact hsid p hp)
    hpwo
  refine ⟨mm', ?_, ?_, ?_⟩
  · rw [Recover, applySnapshot]
    simp only [captureSnapshot]
    rw [hs1]
    simp only [Except.bind]
    rw [hap]
    exact replayEvents_stale ts mm' journal hj
  · rw [hsy]
    simp [NewMarketManager, Function.comp_def]
  · rw [horv]
    simp [NewMarketManager, Function.comp_def]

/-- A small engine state for exercising the snapshot round trip: one
symbol and one partially executed resting order (executed 4 of 10). -/
def c4ExState : MarketManager :=
  ⟨[(1, exSymbol)],
   [(1, NewOrderBook exSymbol)],
   [(10, ⟨10, 1, OrderTypeLimit, OrderSideBuy, 100, 0, 10, 4, 6, 0,
      MaxUint64, MaxUint64, 0, 0⟩)],
   false⟩

/-- Witness for C4: the state above, snapshotted at time 100, recovers
bit-for-bit against a journal whose only record is older than the
snapshot. -/
theorem c4_witness :
    ∃ mm' : MarketManager,
      Recover NewMarketManager (some (captureSnapshot c4ExState 100))
          [⟨EventCancelOrder, 50, Order.zero, 10⟩] = .ok mm' ∧
      mm'.symbols.map (fun p => p.2) = c4ExState.symbols.map (fun p => p.2) ∧
      mm'.orders.map (fun p => p.2) = c4ExState.orders.map (fun p => p.2) :=
  c4_recover_snapshot_roundtrip c4ExState 100
    [⟨EventCancelOrder, 50, Order.zero, 10⟩]
    (by decide) (by decide) (by decide) (by decide) (by decide)
    (by decide)

/-! ## Claim C3 — no crossed book between matching cycles

The development below establishes the reachability invariant: from a fresh
manager with matching enabled, every public mutating operation preserves
well-formedness of the per-book level trees and the absence of a resting
cross. -/

/-- Order id `oid` rests somewhere in book `ob`. -/
def bookMem (ob : OrderBook) (oid : Nat) : Prop :=
  ∃ k lv, lv ∈ ob.tree k ∧ oid ∈ lv.orderList

/-- Well-formedness of one order book against the order registry `reg`:
distinct level prices per tree, nonempty duplicate-free FIFO lists, every
resting id backed by a registry order routed exactly to its level, and the
cached best pointers equal to each tree's `First`. -/
structure BookWF (reg : List (Nat × Order)) (sid : Nat) (ob : OrderBook) :
    Prop where
  nodupPrices : ∀ k, ((ob.tree k).map (fun lv => lv.level.price)).Nodup
  listsNonempty : ∀ k, ∀ lv ∈ ob.tree k, lv.orderList ≠ []
  listsNodup : ∀ k, ∀ lv ∈ ob.tree k, lv.orderList.Nodup
  member : ∀ k, ∀ lv ∈ ob.tree k, ∀ oid ∈ lv.orderList,
    ∃ o, alookup reg oid = some o ∧ o.id = oid ∧ o.symbolID = sid ∧
      routeKey o = k ∧ routePrice o = lv.level.price
  bestEq : ∀ k, ob.best k = treeFirstPrice k (ob.tree k)

/-- Well-formedness of a whole manager state. -/
structure MMWF (m : MarketManager) : Prop where
  bookKeys : (m.orderBooks.map Prod.fst).Nodup
  orderKeys : (m.orders.map Prod.fst).Nodup
  orderIds : ∀ p ∈ m.orders, p.2.id = p.1
  books : ∀ q ∈ m.orderBooks, BookWF m.orders q.1 q.2

/-- No resting cross: in every book whose two cached best prices are both
present, the best bid is strictly below the best ask. -/
def noCross (m : MarketManager) : Prop :=
  ∀ q ∈ m.orderBooks, ∀ bp ap,
    q.2.bestBid = some bp → q.2.bestAsk = some ap → bp < ap

/-- The C3 state invariant. -/
def GoodState (m : MarketManager) : Prop := MMWF m ∧ noCross m

theorem best_bids_eq (ob : OrderBook) : ob.best .bids = ob.bestBid := rfl

theorem best_asks_eq (ob : OrderBook) : ob.best .asks = ob.bestAsk := rfl

/-- Changing only the executed/leaves quantities keeps an order's route. -/
theorem routeKey_fill (o : Order) (e l : Nat) :
    routeKey { o with executedQuantity := e, leavesQuantity := l } =
      routeKey o := rfl

theorem routePrice_fill (o : Order) (e l : Nat) :
    routePrice { o with executedQuantity := e, leavesQuantity := l } =
      routePrice o := rfl

theorem mapLevel_id_of_not_found (ls : List LevelNode) (p : Nat)
    (f : LevelNode → LevelNode) (h : findLevel ls p = none) :
    mapLevel ls p f = ls := by
  induction ls with
  | nil => rfl
  | cons lv ls ih =>
    rw [findLevel] at h
    by_cases hp : lv.level.price = p
    · rw [if_pos hp] at h
      exact absurd h (by simp)
    · rw [if_neg hp] at h
      rw [mapLevel_cons, if_neg hp, ih h]

theorem removeLevel_id_of_not_found (ls : List LevelNode) (p : Nat)
    (h : findLevel ls p = none) : removeLevel ls p = ls := by
  induction ls with
  | nil => rfl
  | cons lv ls ih =>
    rw [findLevel] at h
    by_cases hp : lv.level.price = p
    · rw [if_pos hp] at h
      exact absurd h (by simp)
    · rw [if_neg hp] at h
      rw [removeLevel, if_neg hp, ih h]

/-- Removing price `p` ignores any in-place mutation at price `p`. -/
theorem removeLevel_mapLevel (ls : List LevelNode) (p : Nat)
    (f : LevelNode → LevelNode)
    (hf : ∀ lv, lv.level.price = p → (f lv).level.price = p) :
    removeLevel (mapLevel ls p f) p = removeLevel ls p := by
  induction ls with
  | nil => rfl
  | cons lv ls ih =>
    rw [mapLevel_cons]
    by_cases hp : lv.level.price = p
    · rw [if_pos hp, removeLevel, if_pos (hf lv hp), removeLevel, if_pos hp]
      exact ih
    · rw [if_neg hp, removeLevel, if_neg hp, removeLevel, if_neg hp, ih]

/-- Total resting order count of a level list. -/
def sumOrders (ls : List LevelNode) : Nat :=
  (ls.map (fun lv => lv.orderList.length)).sum

theorem sumOrders_mapLevel_list_eq (ls : List LevelNode) (p : Nat)
    (f : LevelNode → LevelNode)
    (hf : ∀ lv, (f lv).orderList = lv.orderList) :
    sumOrders (mapLevel ls p f) = sumOrders ls := by
  induction ls with
  | nil => rfl
  | cons lv ls ih =>
    rw [mapLevel_cons]
    by_cases hp : lv.level.price = p
    · rw [if_pos hp]
      simp only [sumOrders, List.map_cons, List.sum_cons, hf] at ih ⊢
      omega
    · rw [if_neg hp]
      simp only [sumOrders, List.map_cons, List.sum_cons] at ih ⊢
      omega

theorem sumOrders_mapLevel_found (ls : List LevelNode) (p : Nat)
    (lv lv' : LevelNode)
    (hnd : (ls.map (fun l => l.level.price)).Nodup)
    (hfind : findLevel ls p = some lv) :
    sumOrders (mapLevel ls p (fun _ => lv')) =
      sumOrders ls + lv'.orderList.length - lv.orderList.length ∧
    lv.orderList.length ≤ sumOrders ls := by
  induction ls with
  | nil => simp [findLevel] at hfind
  | cons lv₀ ls ih =>
    rw [findLevel] at hfind
    rw [mapLevel_cons]
    simp only [List.map_cons, List.nodup_cons] at hnd
    by_cases hp : lv₀.level.price = p
    · rw [if_pos hp] at hfind ⊢
      cases hfind
      have hnf : findLevel ls p = none := by
        rw [findLevel_eq_none_iff]
        intro l hl hc
        exact hnd.1 (by
          rw [hp, ← hc]
          exact List.mem_map.mpr ⟨l, hl, rfl⟩)
      rw [mapLevel_id_of_not_found ls p _ hnf]
      simp only [sumOrders, List.map_cons, List.sum_cons]
      omega
    · rw [if_neg hp] at hfind ⊢
      obtain ⟨ih1, ih2⟩ := ih hnd.2 hfind
      simp only [sumOrders, List.map_cons, List.sum_cons] at ih1 ih2 ⊢
      omega

theorem sumOrders_removeLevel_found (ls : List LevelNode) (p : Nat)
    (lv : LevelNode)
    (hnd : (ls.map (fun l => l.level.price)).Nodup)
    (hfind : findLevel ls p = some lv) :
    sumOrders (removeLevel ls p) = sumOrders ls - lv.orderList.length ∧
    lv.orderList.length ≤ sumOrders ls := by
  induction ls with
  | nil => simp [findLevel] at hfind
  | cons lv₀ ls ih =>
    rw [findLevel] at hfind
    simp only [List.map_cons, List.nodup_cons] at hnd
    by_cases hp : lv₀.level.price = p
    · rw [if_pos hp] at hfind
      cases hfind
      have hnf : findLevel ls p = none := by
        rw [findLevel_eq_none_iff]
        intro l hl hc
        exact hnd.1 (by
          rw [hp, ← hc]
          exact List.mem_map.mpr ⟨l, hl, rfl⟩)
      rw [removeLevel, if_pos hp, removeLevel_id_of_not_found ls p hnf]
      simp only [sumOrders, List.map_cons, List.sum_cons]
      omega
    · rw [if_neg hp] at hfind
      obtain ⟨ih1, ih2⟩ := ih hnd.2 hfind
      rw [removeLevel, if_neg hp]
      simp only [sumOrders, List.map_cons, List.sum_cons] at ih1 ih2 ⊢
      omega

/-- The optimum of a price-sublist is never better than the optimum of the
full list. -/
theorem treeFirstPrice_sublist_worse {k : TreeKey} {ls' ls : List LevelNode}
    (hsub : (ls'.map (fun lv => lv.level.price)).Sublist
      (ls.map (fun lv => lv.level.price)))
    {p' : Nat} (h' : treeFirstPrice k ls' = some p') :
    ∃ p, treeFirstPrice k ls = some p ∧ ¬ better k p' p := by
  have hmem' : p' ∈ ls.map (fun lv => lv.level.price) :=
    hsub.mem (treeFirstPrice_mem h')
  have hne : ls ≠ [] := by
    intro hc
    subst hc
    simp at hmem'
  obtain ⟨p, hp⟩ : ∃ p, treeFirstPrice k ls = some p := by
    cases hre : treeFirstPrice k ls with
    | none => exact absurd ((treeFirstPrice_eq_none_iff k ls).mp hre) hne
    | some p => exact ⟨p, rfl⟩
  exact ⟨p, hp, treeFirstPrice_optimal hp p' hmem'⟩

/-- `BookWF` reads the registry only at resting ids. -/
theorem BookWF_regext {reg reg' : List (Nat × Order)} {sid : Nat}
    {ob : OrderBook} (h : BookWF reg sid ob)
    (hagree : ∀ oid, bookMem ob oid → alookup reg' oid = alookup reg oid) :
    BookWF reg' sid ob := by
  refine ⟨h.nodupPrices, h.listsNonempty, h.listsNodup, ?_, h.bestEq⟩
  intro k lv hlv oid hoid
  obtain ⟨o, ho, h1, h2, h3, h4⟩ := h.member k lv hlv oid hoid
  exact ⟨o, (hagree oid ⟨k, lv, hlv, hoid⟩).trans ho, h1, h2, h3, h4⟩

/-- Every resting id of a well-formed book is registered. -/
theorem bookMem_isSome {reg : List (Nat × Order)} {sid : Nat}
    {ob : OrderBook} (h : BookWF reg sid ob) {oid : Nat}
    (hm : bookMem ob oid) : (alookup reg oid).isSome := by
  obtain ⟨k, lv, hlv, hoid⟩ := hm
  obtain ⟨o, ho, -⟩ := h.member k lv hlv oid hoid
  rw [ho]
  rfl

/-- A resting occurrence of a registered order determines its tree and its
level price: the order rests exactly where its route says. -/
theorem bookMem_route {reg : List (Nat × Order)} {sid : Nat}
    {ob : OrderBook} (h : BookWF reg sid ob) {o : Order}
    (ho : alookup reg o.id = some o) {k : TreeKey} {lv : LevelNode}
    (hlv : lv ∈ ob.tree k) (hm : o.id ∈ lv.orderList) :
    o.symbolID = sid ∧ routeKey o = k ∧ routePrice o = lv.level.price := by
  obtain ⟨o₀, ho₀, hid, hsid, hk, hp⟩ := h.member k lv hlv o.id hm
  rw [ho] at ho₀
  cases ho₀
  exact ⟨hsid, hk, hp⟩

/-- A registered order of a different symbol never rests in this book. -/
theorem bookMem_ne_of_symbol {reg : List (Nat × Order)} {sid : Nat}
    {ob : OrderBook} (h : BookWF reg sid ob) {o : Order}
    (ho : alookup reg o.id = some o) (hsid : o.symbolID ≠ sid)
    {oid : Nat} (hm : bookMem ob oid) : oid ≠ o.id := by
  intro he
  subst he
  obtain ⟨k, lv, hlv, hoid⟩ := hm
  exact hsid (bookMem_route h ho hlv hoid).1

/-- In a well-formed book a registered order rests in at most one place:
any occurrence is in the level found at its own route. -/
theorem bookMem_unique {reg : List (Nat × Order)} {sid : Nat}
    {ob : OrderBook} (h : BookWF reg sid ob) {o : Order}
    (ho : alookup reg o.id = some o) {k : TreeKey} {lv : LevelNode}
    (hlv : lv ∈ ob.tree k) (hm : o.id ∈ lv.orderList) :
    k = routeKey o ∧ findLevel (ob.tree (routeKey o)) (routePrice o) = some lv := by
  obtain ⟨-, hk, hp⟩ := bookMem_route h ho hlv hm
  subst hk
  refine ⟨rfl, ?_⟩
  rw [hp]
  have h1 := findLevel_isSome_of_mem hlv
  obtain ⟨lv', hlv'⟩ := Option.isSome_iff_exists.mp h1
  rw [hlv']
  have hmem' := findLevel_some_mem hlv'
  have hpr' := findLevel_some_price hlv'
  have hnd := h.nodupPrices (routeKey o)
  have hlv'lv : lv' = lv := by
    have hinj := List.inj_on_of_nodup_map hnd
    exact hinj hmem' hlv (by rw [hpr'])
  rw [hlv'lv]

/-- In-place level mutation that keeps the price and the FIFO list
preserves book well-formedness. -/
theorem BookWF_setTree_mapLevel_stats {reg : List (Nat × Order)} {sid : Nat}
    {ob : OrderBook} (h : BookWF reg sid ob) (k : TreeKey) (p : Nat)
    (f : LevelNode → LevelNode)
    (hfp : ∀ lv, (f lv).level.price = lv.level.price)
    (hfl : ∀ lv, (f lv).orderList = lv.orderList) :
    BookWF reg sid (ob.setTree k (mapLevel (ob.tree k) p f)) := by
  have htree : ∀ k', (ob.setTree k (mapLevel (ob.tree k) p f)).tree k' =
      if k' = k then mapLevel (ob.tree k) p f else ob.tree k' := by
    intro k'
    by_cases hk : k' = k
    · rw [if_pos hk, hk, tree_setTree_self]
    · rw [if_neg hk, tree_setTree_ne _ _ _ _ hk]
  have hprices : (mapLevel (ob.tree k) p f).map (fun lv => lv.level.price) =
      (ob.tree k).map (fun lv => lv.level.price) :=
    mapLevel_prices _ _ _ (fun lv _ _ => hfp lv)
  have hcase : ∀ lv ∈ mapLevel (ob.tree k) p f, ∃ lv₀ ∈ ob.tree k,
      lv.orderList = lv₀.orderList ∧ lv.level.price = lv₀.level.price := by
    intro lv hlv
    rcases mem_mapLevel hlv with ⟨lv₀, h₀, -, he⟩ | ⟨h₀, -⟩
    · exact ⟨lv₀, h₀, by rw [he, hfl], by rw [he, hfp]⟩
    · exact ⟨lv, h₀, rfl, rfl⟩
  refine ⟨?_, ?_, ?_, ?_, ?_⟩
  · intro k'
    rw [htree k']
    by_cases hk : k' = k
    · rw [if_pos hk, hprices]
      exact hk ▸ h.nodupPrices k
    · rw [if_neg hk]
      exact h.nodupPrices k'
  · intro k' lv hlv
    rw [htree k'] at hlv
    by_cases hk : k' = k
    · rw [if_pos hk] at hlv
      obtain ⟨lv₀, h₀, hl, -⟩ := hcase lv hlv
      rw [hl]
      exact h.listsNonempty k lv₀ h₀
    · rw [if_neg hk] at hlv
      exact h.listsNonempty k' lv hlv
  · intro k' lv hlv
    rw [htree k'] at hlv
    by_cases hk : k' = k
    · rw [if_pos hk] at hlv
      obtain ⟨lv₀, h₀, hl, -⟩ := hcase lv hlv
      rw [hl]
      exact h.listsNodup k lv₀ h₀
    · rw [if_neg hk] at hlv
      exact h.listsNodup k' lv hlv
  · intro k' lv hlv oid hoid
    rw [htree k'] at hlv
    by_cases hk : k' = k
    · subst hk
      rw [if_pos rfl] at hlv
      obtain ⟨lv₀, h₀, hl, hp⟩ := hcase lv hlv
      rw [hl] at hoid
      obtain ⟨o, ho, h1, h2, h3, h4⟩ := h.member k' lv₀ h₀ oid hoid
      exact ⟨o, ho, h1, h2, h3, by rw [hp, h4]⟩
    · rw [if_neg hk] at hlv
      exact h.member k' lv hlv oid hoid
  · intro k'
    rw [htree k', best_setTree]
    by_cases hk : k' = k
    · rw [if_pos hk, hk, h.bestEq k]
      exact treeFirstPrice_eq_of_prices_eq hprices.symm
    · rw [if_neg hk]
      exact h.bestEq k'

theorem obReduceOrder_tree_ne (ob : OrderBook) (o : Order) (q hq vq : Nat)
    (k' : TreeKey) (h : k' ≠ routeKey o) :
    (ob.ReduceOrder o q hq vq).tree k' = ob.tree k' := by
  unfold OrderBook.ReduceOrder
  exact tree_setTree_ne _ _ _ _ h

theorem obReduceOrder_best (ob : OrderBook) (o : Order) (q hq vq : Nat)
    (k' : TreeKey) : (ob.ReduceOrder o q hq vq).best k' = ob.best k' := by
  unfold OrderBook.ReduceOrder
  exact best_setTree _ _ _ _

theorem obReduceOrder_symbol (ob : OrderBook) (o : Order) (q hq vq : Nat) :
    (ob.ReduceOrder o q hq vq).symbol = ob.symbol := by
  unfold OrderBook.ReduceOrder
  exact symbol_setTree _ _ _

theorem obReduceOrder_prices (ob : OrderBook) (o : Order) (q hq vq : Nat)
    (k' : TreeKey) :
    ((ob.ReduceOrder o q hq vq).tree k').map (fun lv => lv.level.price) =
      (ob.tree k').map (fun lv => lv.level.price) := by
  by_cases hk : k' = routeKey o
  · subst hk
    unfold OrderBook.ReduceOrder
    rw [tree_setTree_self]
    exact mapLevel_prices _ _ _ (fun lv _ _ => rfl)
  · rw [obReduceOrder_tree_ne _ _ _ _ _ _ hk]

theorem obReduceOrder_sumOrders (ob : OrderBook) (o : Order) (q hq vq : Nat)
    (k' : TreeKey) :
    sumOrders ((ob.ReduceOrder o q hq vq).tree k') = sumOrders (ob.tree k') := by
  by_cases hk : k' = routeKey o
  · subst hk
    unfold OrderBook.ReduceOrder
    rw [tree_setTree_self]
    exact sumOrders_mapLevel_list_eq _ _ _ (fun lv => rfl)
  · rw [obReduceOrder_tree_ne _ _ _ _ _ _ hk]

theorem BookWF_ReduceOrder {reg : List (Nat × Order)} {sid : Nat}
    {ob : OrderBook} (h : BookWF reg sid ob) (o : Order) (q hq vq : Nat) :
    BookWF reg sid (ob.ReduceOrder o q hq vq) :=
  BookWF_setTree_mapLevel_stats h _ _ _ (fun lv => rfl) (fun lv => rfl)

theorem obDeleteLevel_tree_self (ob : OrderBook) (o : Order) :
    (ob.DeleteLevel o).tree (routeKey o) =
      removeLevel (ob.tree (routeKey o)) (routePrice o) := by
  unfold OrderBook.DeleteLevel
  by_cases hb : ob.best (routeKey o) = some (routePrice o)
  · rw [if_pos hb, tree_setBest, tree_setTree_self]
  · rw [if_neg hb, tree_setTree_self]

theorem obDeleteLevel_tree_ne (ob : OrderBook) (o : Order) (k' : TreeKey)
    (h : k' ≠ routeKey o) : (ob.DeleteLevel o).tree k' = ob.tree k' := by
  unfold OrderBook.DeleteLevel
  by_cases hb : ob.best (routeKey o) = some (routePrice o)
  · rw [if_pos hb, tree_setBest, tree_setTree_ne _ _ _ _ h]
  · rw [if_neg hb, tree_setTree_ne _ _ _ _ h]

theorem obDeleteLevel_best_self (ob : OrderBook) (o : Order) :
    (ob.DeleteLevel o).best (routeKey o) =
      if ob.best (routeKey o) = some (routePrice o) then
        treeFirstPrice (routeKey o)
          (removeLevel (ob.tree (routeKey o)) (routePrice o))
      else ob.best (routeKey o) := by
  unfold OrderBook.DeleteLevel
  by_cases hb : ob.best (routeKey o) = some (routePrice o)
  · rw [if_pos hb, if_pos hb, best_setBest_self, tree_setTree_self]
  · rw [if_neg hb, if_neg hb, best_setTree]

theorem obDeleteLevel_best_ne (ob : OrderBook) (o : Order) (k' : TreeKey)
    (h : k' ≠ routeKey o) : (ob.DeleteLevel o).best k' = ob.best k' := by
  unfold OrderBook.DeleteLevel
  by_cases hb : ob.best (routeKey o) = some (routePrice o)
  · rw [if_pos hb, best_setBest_ne _ _ _ _ h, best_setTree]
  · rw [if_neg hb, best_setTree]

theorem obDeleteLevel_symbol (ob : OrderBook) (o : Order) :
    (ob.DeleteLevel o).symbol = ob.symbol := by
  unfold OrderBook.DeleteLevel
  by_cases hb : ob.best (routeKey o) = some (routePrice o)
  · rw [if_pos hb, symbol_setBest, symbol_setTree]
  · rw [if_neg hb, symbol_setTree]

theorem obDeleteOrder_eq_of_none {ob : OrderBook} {o : Order}
    (h : findLevel (ob.tree (routeKey o)) (routePrice o) = none) :
    ob.DeleteOrder o = ob := by
  unfold OrderBook.DeleteOrder
  dsimp only
  rw [h]

theorem obDeleteOrder_eq_of_some_keep {ob : OrderBook} {o : Order}
    {lv : LevelNode}
    (hfind : findLevel (ob.tree (routeKey o)) (routePrice o) = some lv)
    (hne : (levelRemoveOrder lv o).orderList.isEmpty = false) :
    ob.DeleteOrder o = ob.setTree (routeKey o)
      (mapLevel (ob.tree (routeKey o)) (routePrice o)
        (fun _ => levelRemoveOrder lv o)) := by
  unfold OrderBook.DeleteOrder
  dsimp only
  rw [hfind]
  simp only [hne, Bool.false_eq_true, if_false]

theorem obDeleteOrder_eq_of_some_del {ob : OrderBook} {o : Order}
    {lv : LevelNode}
    (hfind : findLevel (ob.tree (routeKey o)) (routePrice o) = some lv)
    (hemp : (levelRemoveOrder lv o).orderList.isEmpty = true) :
    ob.DeleteOrder o = (ob.setTree (routeKey o)
      (mapLevel (ob.tree (routeKey o)) (routePrice o)
        (fun _ => levelRemoveOrder lv o))).DeleteLevel o := by
  unfold OrderBook.DeleteOrder
  dsimp only
  rw [hfind]
  simp only [hemp, if_true]

theorem obDeleteOrder_tree_ne (ob : OrderBook) (o : Order) (k' : TreeKey)
    (h : k' ≠ routeKey o) : (ob.DeleteOrder o).tree k' = ob.tree k' := by
  cases hf : findLevel (ob.tree (routeKey o)) (routePrice o) with
  | none => rw [obDeleteOrder_eq_of_none hf]
  | some lv =>
    cases he : (levelRemoveOrder lv o).orderList.isEmpty with
    | false =>
      rw [obDeleteOrder_eq_of_some_keep hf he, tree_setTree_ne _ _ _ _ h]
    | true =>
      rw [obDeleteOrder_eq_of_some_del hf he, obDeleteLevel_tree_ne _ _ _ h,
        tree_setTree_ne _ _ _ _ h]

theorem obDeleteOrder_best_ne (ob : OrderBook) (o : Order) (k' : TreeKey)
    (h : k' ≠ routeKey o) : (ob.DeleteOrder o).best k' = ob.best k' := by
  cases hf : findLevel (ob.tree (routeKey o)) (routePrice o) with
  | none => rw [obDeleteOrder_eq_of_none hf]
  | some lv =>
    cases he : (levelRemoveOrder lv o).orderList.isEmpty with
    | false =>
      rw [obDeleteOrder_eq_of_some_keep hf he, best_setTree]
    | true =>
      rw [obDeleteOrder_eq_of_some_del hf he, obDeleteLevel_best_ne _ _ _ h,
        best_setTree]

theorem obDeleteOrder_symbol (ob : OrderBook) (o : Order) :
    (ob.DeleteOrder o).symbol = ob.symbol := by
  cases hf : findLevel (ob.tree (routeKey o)) (routePrice o) with
  | none => rw [obDeleteOrder_eq_of_none hf]
  | some lv =>
    cases he : (levelRemoveOrder lv o).orderList.isEmpty with
    | false =>
      rw [obDeleteOrder_eq_of_some_keep hf he, symbol_setTree]
    | true =>
      rw [obDeleteOrder_eq_of_some_del hf he, obDeleteLevel_symbol,
        symbol_setTree]

/-- The route tree of `DeleteOrder`, in the level-kept case. -/
theorem obDeleteOrder_tree_self_keep {ob : OrderBook} {o : Order}
    {lv : LevelNode}
    (hfind : findLevel (ob.tree (routeKey o)) (routePrice o) = some lv)
    (hne : (levelRemoveOrder lv o).orderList.isEmpty = false) :
    (ob.DeleteOrder o).tree (routeKey o) =
      mapLevel (ob.tree (routeKey o)) (routePrice o)
        (fun _ => levelRemoveOrder lv o) := by
  rw [obDeleteOrder_eq_of_some_keep hfind hne, tree_setTree_self]

/-- The route tree of `DeleteOrder`, in the level-emptied case. -/
theorem obDeleteOrder_tree_self_del {ob : OrderBook} {o : Order}
    {lv : LevelNode}
    (hfind : findLevel (ob.tree (routeKey o)) (routePrice o) = some lv)
    (hemp : (levelRemoveOrder lv o).orderList.isEmpty = true) :
    (ob.DeleteOrder o).tree (routeKey o) =
      removeLevel (ob.tree (routeKey o)) (routePrice o) := by
  rw [obDeleteOrder_eq_of_some_del hfind hemp]
  rw [show (routeKey o) = routeKey o from rfl] at hfind
  have h1 := obDeleteLevel_tree_self
    (ob.setTree (routeKey o) (mapLevel (ob.tree (routeKey o)) (routePrice o)
      (fun _ => levelRemoveOrder lv o))) o
  rw [h1, tree_setTree_self]
  exact removeLevel_mapLevel _ _ _
    (fun lv₀ hp₀ => by
      rw [levelRemoveOrder_price, findLevel_some_price hfind])

theorem obDeleteOrder_prices_sublist (ob : OrderBook) (o : Order)
    (k' : TreeKey) :
    (((ob.DeleteOrder o).tree k').map (fun lv => lv.level.price)).Sublist
      ((ob.tree k').map (fun lv => lv.level.price)) := by
  by_cases hk : k' = routeKey o
  · subst hk
    cases hf : findLevel (ob.tree (routeKey o)) (routePrice o) with
    | none =>
      rw [obDeleteOrder_eq_of_none hf]
    | some lv =>
      cases he : (levelRemoveOrder lv o).orderList.isEmpty with
      | false =>
        rw [obDeleteOrder_tree_self_keep hf he]
        rw [mapLevel_prices _ _ _ (fun lv₀ h₀ hp₀ => by
          rw [levelRemoveOrder_price, findLevel_some_price hf, hp₀])]
      | true =>
        rw [obDeleteOrder_tree_self_del hf he]
        exact removeLevel_prices_sublist _ _
  · rw [obDeleteOrder_tree_ne _ _ _ hk]

theorem obDeleteOrder_sumOrders_le {ob : OrderBook} {o : Order}
    (hnd : ((ob.tree (routeKey o)).map (fun lv => lv.level.price)).Nodup) :
    sumOrders ((ob.DeleteOrder o).tree (routeKey o)) ≤
      sumOrders (ob.tree (routeKey o)) := by
  cases hf : findLevel (ob.tree (routeKey o)) (routePrice o) with
  | none =>
    rw [obDeleteOrder_eq_of_none hf]
  | some lv =>
    cases he : (levelRemoveOrder lv o).orderList.isEmpty with
    | false =>
      rw [obDeleteOrder_tree_self_keep hf he]
      obtain ⟨h1, h2⟩ := sumOrders_mapLevel_found _ _ lv
        (levelRemoveOrder lv o) hnd hf
      have h3 : (levelRemoveOrder lv o).orderList.length ≤
          lv.orderList.length := by
        simp only [levelRemoveOrder]
        exact (List.erase_sublist _ _).length_le
      omega
    | true =>
      rw [obDeleteOrder_tree_self_del hf he]
      obtain ⟨h1, h2⟩ := sumOrders_removeLevel_found _ _ lv hnd hf
      omega

theorem obDeleteOrder_sumOrders_lt {ob : OrderBook} {o : Order}
    {lv : LevelNode}
    (hnd : ((ob.tree (routeKey o)).map (fun lv => lv.level.price)).Nodup)
    (hfind : findLevel (ob.tree (routeKey o)) (routePrice o) = some lv)
    (hmem : o.id ∈ lv.orderList) :
    sumOrders ((ob.DeleteOrder o).tree (routeKey o)) <
      sumOrders (ob.tree (routeKey o)) := by
  have hlen : (levelRemoveOrder lv o).orderList.length =
      lv.orderList.length - 1 := by
    simp only [levelRemoveOrder]
    exact List.length_erase_of_mem hmem
  have hpos : 1 ≤ lv.orderList.length := by
    cases hl : lv.orderList with
    | nil => rw [hl] at hmem; simp at hmem
    | cons a l => simp [hl]
  cases he : (levelRemoveOrder lv o).orderList.isEmpty with
  | false =>
    rw [obDeleteOrder_tree_self_keep hfind he]
    obtain ⟨h1, h2⟩ := sumOrders_mapLevel_found _ _ lv
      (levelRemoveOrder lv o) hnd hfind
    omega
  | true =>
    rw [obDeleteOrder_tree_self_del hfind he]
    obtain ⟨h1, h2⟩ := sumOrders_removeLevel_found _ _ lv hnd hfind
    omega

/-- A well-formed transformation that only removes prices moves the cached
best to a worse (or equal) price. -/
theorem best_worse_of_sublist {reg reg' : List (Nat × Order)} {sid : Nat}
    {ob ob' : OrderBook} (h : BookWF reg sid ob) (h' : BookWF reg' sid ob')
    (k : TreeKey)
    (hsub : ((ob'.tree k).map (fun lv => lv.level.price)).Sublist
      ((ob.tree k).map (fun lv => lv.level.price)))
    {p' : Nat} (hk : ob'.best k = some p') :
    ∃ p, ob.best k = some p ∧ ¬ better k p' p := by
  rw [h'.bestEq] at hk
  obtain ⟨p, hp, hb⟩ := treeFirstPrice_sublist_worse hsub hk
  exact ⟨p, by rw [h.bestEq]; exact hp, hb⟩

/-- `OrderBook.DeleteOrder` of a registered order keeps the book well
formed — against any registry agreeing with `reg` on the other registered
ids — and removes every resting occurrence of `o.id`. -/
theorem BookWF_DeleteOrder {reg : List (Nat × Order)}
    (reg' : List (Nat × Order)) {sid : Nat}
    {ob : OrderBook} (h : BookWF reg sid ob) {o : Order}
    (ho : alookup reg o.id = some o)
    (hreg' : ∀ oid, oid ≠ o.id → (alookup reg oid).isSome →
      alookup reg' oid = alookup reg oid) :
    BookWF reg' sid (ob.DeleteOrder o) ∧
      ¬ bookMem (ob.DeleteOrder o) o.id := by
  have htrans : ∀ {k' : TreeKey} {lv₀ : LevelNode} {oid : Nat},
      lv₀ ∈ ob.tree k' → oid ∈ lv₀.orderList → oid ≠ o.id →
      ∃ o₀, alookup reg' oid = some o₀ ∧ o₀.id = oid ∧ o₀.symbolID = sid ∧
        routeKey o₀ = k' ∧ routePrice o₀ = lv₀.level.price := by
    intro k' lv₀ oid hlv hoid hne
    obtain ⟨o₀, h1, h2, h3, h4, h5⟩ := h.member k' lv₀ hlv oid hoid
    exact ⟨o₀, (hreg' oid hne (by rw [h1]; rfl)).trans h1, h2, h3, h4, h5⟩
  cases hf : findLevel (ob.tree (routeKey o)) (routePrice o) with
  | none =>
    rw [obDeleteOrder_eq_of_none hf]
    have hno : ∀ {k' : TreeKey} {lv₀ : LevelNode} {oid : Nat},
        lv₀ ∈ ob.tree k' → oid ∈ lv₀.orderList → oid ≠ o.id := by
      intro k' lv₀ oid hlv hoid he
      subst he
      obtain ⟨-, hfd⟩ := bookMem_unique h ho hlv hoid
      rw [hf] at hfd
      exact Option.noConfusion hfd
    refine ⟨⟨h.nodupPrices, h.listsNonempty, h.listsNodup, ?_, h.bestEq⟩, ?_⟩
    · intro k' lv₀ hlv oid hoid
      exact htrans hlv hoid (hno hlv hoid)
    · rintro ⟨k', lv₀, hlv, hoid⟩
      exact (hno hlv hoid) rfl
  | some lv =>
    have hlvmem : lv ∈ ob.tree (routeKey o) := findLevel_some_mem hf
    have hlvp : lv.level.price = routePrice o := findLevel_some_price hf
    have hnodup_lv : lv.orderList.Nodup := h.listsNodup _ lv hlvmem
    have hno' : ∀ {k' : TreeKey} {lv₀ : LevelNode},
        lv₀ ∈ ob.tree k' → o.id ∈ lv₀.orderList →
        lv₀ = lv ∧ k' = routeKey o := by
      intro k' lv₀ hlv hoid
      obtain ⟨hk, hfd⟩ := bookMem_unique h ho hlv hoid
      rw [hf] at hfd
      cases hfd
      exact ⟨rfl, hk⟩
    have herase : ∀ {oid : Nat}, oid ∈ (levelRemoveOrder lv o).orderList →
        oid ≠ o.id ∧ oid ∈ lv.orderList := by
      intro oid hoid
      simp only [levelRemoveOrder] at hoid
      exact ⟨(hnodup_lv.mem_erase_iff.mp hoid).1,
        (hnodup_lv.mem_erase_iff.mp hoid).2⟩
    cases he : (levelRemoveOrder lv o).orderList.isEmpty with
    | false =>
      have htree : ∀ k'', (ob.DeleteOrder o).tree k'' =
          if k'' = routeKey o then
            mapLevel (ob.tree (routeKey o)) (routePrice o)
              (fun _ => levelRemoveOrder lv o)
          else ob.tree k'' := by
        intro k''
        by_cases hk : k'' = routeKey o
        · rw [if_pos hk, hk, obDeleteOrder_tree_self_keep hf he]
        · rw [if_neg hk, obDeleteOrder_tree_ne _ _ _ hk]
      have hprices : ∀ k'',
          (((ob.DeleteOrder o).tree k'').map (fun l => l.level.price)) =
            ((ob.tree k'').map (fun l => l.level.price)) := by
        intro k''
        rw [htree]
        by_cases hk : k'' = routeKey o
        · rw [if_pos hk, hk]
          exact mapLevel_prices _ _ _ (fun lv₀ h₀ hp₀ => by
            rw [levelRemoveOrder_price, hlvp, hp₀])
        · rw [if_neg hk]
      refine ⟨⟨?_, ?_, ?_, ?_, ?_⟩, ?_⟩
      · intro k''
        rw [hprices]
        exact h.nodupPrices k''
      · intro k'' lv'' hlv''
        rw [htree] at hlv''
        by_cases hk : k'' = routeKey o
        · rw [if_pos hk] at hlv''
          rcases mem_mapLevel hlv'' with ⟨lv₀, h₀, hp₀, he₀⟩ | ⟨h₀, -⟩
          · subst he₀
            intro hc
            rw [hc] at he
            simp at he
          · exact h.listsNonempty _ lv'' h₀
        · rw [if_neg hk] at hlv''
          exact h.listsNonempty k'' lv'' hlv''
      · intro k'' lv'' hlv''
        rw [htree] at hlv''
        by_cases hk : k'' = routeKey o
        · rw [if_pos hk] at hlv''
          rcases mem_mapLevel hlv'' with ⟨lv₀, h₀, hp₀, he₀⟩ | ⟨h₀, -⟩
          · subst he₀
            simp only [levelRemoveOrder]
            exact hnodup_lv.erase _
          · exact h.listsNodup _ lv'' h₀
        · rw [if_neg hk] at hlv''
          exact h.listsNodup k'' lv'' hlv''
      · intro k'' lv'' hlv'' oid hoid
        rw [htree] at hlv''
        by_cases hk : k'' = routeKey o
        · rw [if_pos hk] at hlv''
          rcases mem_mapLevel hlv'' with ⟨lv₀, h₀, hp₀, he₀⟩ | ⟨h₀, hp₀⟩
          · subst he₀
            obtain ⟨hne, hmem₀⟩ := herase hoid
            obtain ⟨o₀, h1, h2, h3, h4, h5⟩ := htrans hlvmem hmem₀ hne
            exact ⟨o₀, h1, h2, h3, by rw [h4, hk], by
              rw [h5, levelRemoveOrder_price]⟩
          · have hne : oid ≠ o.id := by
              intro hc
              subst hc
              obtain ⟨hlv₀, -⟩ := hno' h₀ hoid
              subst hlv₀
              exact hp₀ hlvp
            obtain ⟨o₀, h1, h2, h3, h4, h5⟩ := htrans h₀ hoid hne
            exact ⟨o₀, h1, h2, h3, by rw [h4, hk], h5⟩
        · rw [if_neg hk] at hlv''
          have hne : oid ≠ o.id := by
            intro hc
            subst hc
            obtain ⟨-, hk₀⟩ := hno' hlv'' hoid
            exact hk hk₀
          exact htrans hlv'' hoid hne
      · intro k''
        rw [treeFirstPrice_eq_of_prices_eq (hprices k''),
          obDeleteOrder_eq_of_some_keep hf he, best_setTree]
        exact h.bestEq k''
      · rintro ⟨k'', lv'', hlv'', hoid⟩
        rw [htree] at hlv''
        by_cases hk : k'' = routeKey o
        · rw [if_pos hk] at hlv''
          rcases mem_mapLevel hlv'' with ⟨lv₀, h₀, hp₀, he₀⟩ | ⟨h₀, hp₀⟩
          · subst he₀
            exact (herase hoid).1 rfl
          · obtain ⟨hlv₀, -⟩ := hno' h₀ hoid
            subst hlv₀
            exact hp₀ hlvp
        · rw [if_neg hk] at hlv''
          obtain ⟨-, hk₀⟩ := hno' hlv'' hoid
          exact hk hk₀
    | true =>
      have htree : ∀ k'', (ob.DeleteOrder o).tree k'' =
          if k'' = routeKey o then
            removeLevel (ob.tree (routeKey o)) (routePrice o)
          else ob.tree k'' := by
        intro k''
        by_cases hk : k'' = routeKey o
        · rw [if_pos hk, hk, obDeleteOrder_tree_self_del hf he]
        · rw [if_neg hk, obDeleteOrder_tree_ne _ _ _ hk]
      refine ⟨⟨?_, ?_, ?_, ?_, ?_⟩, ?_⟩
      · intro k''
        rw [htree]
        by_cases hk : k'' = routeKey o
        · rw [if_pos hk]
          exact (h.nodupPrices (routeKey o)).sublist
            (removeLevel_prices_sublist _ _)
        · rw [if_neg hk]
          exact h.nodupPrices k''
      · intro k'' lv'' hlv''
        rw [htree] at hlv''
        by_cases hk : k'' = routeKey o
        · rw [if_pos hk] at hlv''
          exact h.listsNonempty _ lv'' (mem_removeLevel hlv'').1
        · rw [if_neg hk] at hlv''
          exact h.listsNonempty k'' lv'' hlv''
      · intro k'' lv'' hlv''
        rw [htree] at hlv''
        by_cases hk : k'' = routeKey o
        · rw [if_pos hk] at hlv''
          exact h.listsNodup _ lv'' (mem_removeLevel hlv'').1
        · rw [if_neg hk] at hlv''
          exact h.listsNodup k'' lv'' hlv''
      · intro k'' lv'' hlv'' oid hoid
        rw [htree] at hlv''
        by_cases hk : k'' = routeKey o
        · rw [if_pos hk] at hlv''
          obtain ⟨h₀, hp₀⟩ := mem_removeLevel hlv''
          have hne : oid ≠ o.id := by
            intro hc
            subst hc
            obtain ⟨hlv₀, -⟩ := hno' h₀ hoid
            subst hlv₀
            exact hp₀ hlvp
          obtain ⟨o₀, h1, h2, h3, h4, h5⟩ := htrans h₀ hoid hne
          exact ⟨o₀, h1, h2, h3, by rw [h4, hk], h5⟩
        · rw [if_neg hk] at hlv''
          have hne : oid ≠ o.id := by
            intro hc
            subst hc
            obtain ⟨-, hk₀⟩ := hno' hlv'' hoid
            exact hk hk₀
          exact htrans hlv'' hoid hne
      · intro k''
        by_cases hk : k'' = routeKey o
        · subst hk
          rw [htree, if_pos rfl]
          rw [obDeleteOrder_eq_of_some_del hf he, obDeleteLevel_best_self,
            best_setTree, tree_setTree_self,
            removeLevel_mapLevel _ _ _ (fun lv₀ hp₀ => by
              rw [levelRemoveOrder_price, hlvp])]
          by_cases hb : ob.best (routeKey o) = some (routePrice o)
          · rw [if_pos hb]
          · rw [if_neg hb]
            have hbeq := h.bestEq (routeKey o)
            obtain ⟨b, hbv⟩ : ∃ b,
                treeFirstPrice (routeKey o) (ob.tree (routeKey o)) = some b := by
              cases hre : treeFirstPrice (routeKey o) (ob.tree (routeKey o)) with
              | none =>
                have := (treeFirstPrice_eq_none_iff _ _).mp hre
                rw [this] at hlvmem
                simp at hlvmem
              | some b => exact ⟨b, rfl⟩
            have hbne : routePrice o ≠ b := by
              intro hc
              rw [hbeq, hbv, ← hc] at hb
              exact hb rfl
            rw [hbeq, hbv, treeFirstPrice_removeLevel_ne hbv hbne]
        · rw [htree, if_neg hk, obDeleteOrder_best_ne _ _ _ hk]
          exact h.bestEq k''
      · rintro ⟨k'', lv'', hlv'', hoid⟩
        rw [htree] at hlv''
        by_cases hk : k'' = routeKey o
        · rw [if_pos hk] at hlv''
          obtain ⟨h₀, hp₀⟩ := mem_removeLevel hlv''
          obtain ⟨hlv₀, -⟩ := hno' h₀ hoid
          subst hlv₀
          exact hp₀ hlvp
        · rw [if_neg hk] at hlv''
          obtain ⟨-, hk₀⟩ := hno' hlv'' hoid
          exact hk hk₀

theorem mapLevel_append (l₁ l₂ : List LevelNode) (p : Nat)
    (f : LevelNode → LevelNode) :
    mapLevel (l₁ ++ l₂) p f = mapLevel l₁ p f ++ mapLevel l₂ p f :=
  List.map_append _ _ _

theorem obAddOrder_tree_self_found {ob : OrderBook} {o : Order}
    {lv₀ : LevelNode}
    (hf : findLevel (ob.tree (routeKey o)) (routePrice o) = some lv₀) :
    (ob.AddOrder o).tree (routeKey o) =
      mapLevel (ob.tree (routeKey o)) (routePrice o)
        (fun lv => levelPushOrder lv o) := by
  unfold OrderBook.AddOrder
  dsimp only
  rw [hf, tree_setTree_self]

theorem obAddOrder_tree_self_new {ob : OrderBook} {o : Order}
    (hf : findLevel (ob.tree (routeKey o)) (routePrice o) = none) :
    (ob.AddOrder o).tree (routeKey o) =
      ob.tree (routeKey o) ++
        [levelPushOrder
          (NewLevelNode (routeKey o).levelType (routePrice o)) o] := by
  unfold OrderBook.AddOrder
  dsimp only
  rw [hf, tree_setTree_self, obAddLevel_tree_self, mapLevel_append,
    mapLevel_id_of_not_found _ _ _ hf]
  have hone : mapLevel [NewLevelNode (routeKey o).levelType (routePrice o)]
      (routePrice o) (fun lv => levelPushOrder lv o) =
      [levelPushOrder (NewLevelNode (routeKey o).levelType (routePrice o)) o] := by
    rw [mapLevel_cons]
    rw [if_pos (by rfl)]
    rfl
  rw [hone]

theorem obAddOrder_best_self_found {ob : OrderBook} {o : Order}
    {lv₀ : LevelNode}
    (hf : findLevel (ob.tree (routeKey o)) (routePrice o) = some lv₀) :
    (ob.AddOrder o).best (routeKey o) = ob.best (routeKey o) := by
  unfold OrderBook.AddOrder
  dsimp only
  rw [hf, best_setTree]

theorem obAddOrder_best_self_new {ob : OrderBook} {o : Order}
    (hf : findLevel (ob.tree (routeKey o)) (routePrice o) = none) :
    (ob.AddOrder o).best (routeKey o) =
      match ob.best (routeKey o) with
      | none => some (routePrice o)
      | some b =>
        if better (routeKey o) (routePrice o) b then some (routePrice o)
        else some b := by
  unfold OrderBook.AddOrder
  dsimp only
  rw [hf, best_setTree, obAddLevel_best_self]

theorem obAddOrder_best_ne (ob : OrderBook) (o : Order) (k' : TreeKey)
    (h : k' ≠ routeKey o) : (ob.AddOrder o).best k' = ob.best k' := by
  unfold OrderBook.AddOrder
  dsimp only
  cases hf : findLevel (ob.tree (routeKey o)) (routePrice o) with
  | some lv₀ => rw [best_setTree]
  | none => rw [best_setTree, obAddLevel_best_ne _ _ _ h]

/-- `OrderBook.AddOrder` of a fresh registered order keeps the book well
formed. -/
theorem BookWF_AddOrder {reg : List (Nat × Order)} {sid : Nat}
    {ob : OrderBook} (h : BookWF reg sid ob) {o : Order}
    (ho : alookup reg o.id = some o) (hnm : ¬ bookMem ob o.id)
    (hsid : o.symbolID = sid) :
    BookWF reg sid (ob.AddOrder o) := by
  cases hf : findLevel (ob.tree (routeKey o)) (routePrice o) with
  | some lv₀ =>
    have htree : ∀ k'', (ob.AddOrder o).tree k'' =
        if k'' = routeKey o then
          mapLevel (ob.tree (routeKey o)) (routePrice o)
            (fun lv => levelPushOrder lv o)
        else ob.tree k'' := by
      intro k''
      by_cases hk : k'' = routeKey o
      · rw [if_pos hk, hk, obAddOrder_tree_self_found hf]
      · rw [if_neg hk, obAddOrder_tree_ne _ _ _ hk]
    have hprices : ∀ k'',
        (((ob.AddOrder o).tree k'').map (fun l => l.level.price)) =
          ((ob.tree k'').map (fun l => l.level.price)) := by
      intro k''
      rw [htree]
      by_cases hk : k'' = routeKey o
      · rw [if_pos hk, hk]
        exact mapLevel_prices _ _ _ (fun lv₁ h₁ hp₁ => by
          rw [levelPushOrder_price])
      · rw [if_neg hk]
    refine ⟨?_, ?_, ?_, ?_, ?_⟩
    · intro k''
      rw [hprices]
      exact h.nodupPrices k''
    · intro k'' lv'' hlv''
      rw [htree] at hlv''
      by_cases hk : k'' = routeKey o
      · rw [if_pos hk] at hlv''
        rcases mem_mapLevel hlv'' with ⟨lv₁, h₁, hp₁, he₁⟩ | ⟨h₁, -⟩
        · subst he₁
          simp [levelPushOrder]
        · exact h.listsNonempty _ lv'' h₁
      · rw [if_neg hk] at hlv''
        exact h.listsNonempty k'' lv'' hlv''
    · intro k'' lv'' hlv''
      rw [htree] at hlv''
      by_cases hk : k'' = routeKey o
      · rw [if_pos hk] at hlv''
        rcases mem_mapLevel hlv'' with ⟨lv₁, h₁, hp₁, he₁⟩ | ⟨h₁, -⟩
        · subst he₁
          simp only [levelPushOrder]
          rw [List.nodup_append]
          refine ⟨h.listsNodup _ lv₁ h₁, List.nodup_singleton _, ?_⟩
          intro x hx hy
          simp only [List.mem_singleton] at hy
          subst hy
          exact hnm ⟨routeKey o, lv₁, h₁, hx⟩
        · exact h.listsNodup _ lv'' h₁
      · rw [if_neg hk] at hlv''
        exact h.listsNodup k'' lv'' hlv''
    · intro k'' lv'' hlv'' oid hoid
      rw [htree] at hlv''
      by_cases hk : k'' = routeKey o
      · rw [if_pos hk] at hlv''
        rcases mem_mapLevel hlv'' with ⟨lv₁, h₁, hp₁, he₁⟩ | ⟨h₁, -⟩
        · subst he₁
          simp only [levelPushOrder, List.mem_append,
            List.mem_singleton] at hoid
          rcases hoid with hoid | hoid
          · obtain ⟨o₀, h1, h2, h3, h4, h5⟩ := h.member _ lv₁ h₁ oid hoid
            exact ⟨o₀, h1, h2, h3, by rw [h4, hk], by
              rw [h5, levelPushOrder_price]⟩
          · subst hoid
            exact ⟨o, ho, rfl, hsid, by rw [hk], by
              rw [levelPushOrder_price, hp₁]⟩
        · obtain ⟨o₀, h1, h2, h3, h4, h5⟩ := h.member _ lv'' h₁ oid hoid
          exact ⟨o₀, h1, h2, h3, by rw [h4, hk], h5⟩
      · rw [if_neg hk] at hlv''
        exact h.member k'' lv'' hlv'' oid hoid
    · intro k''
      rw [treeFirstPrice_eq_of_prices_eq (hprices k'')]
      by_cases hk : k'' = routeKey o
      · rw [hk, obAddOrder_best_self_found hf]
        exact h.bestEq (routeKey o)
      · rw [obAddOrder_best_ne _ _ _ hk]
        exact h.bestEq k''
  | none =>
    have hfresh : ∀ lv₁ ∈ ob.tree (routeKey o),
        lv₁.level.price ≠ routePrice o := findLevel_eq_none_iff.mp hf
    have htree : ∀ k'', (ob.AddOrder o).tree k'' =
        if k'' = routeKey o then
          ob.tree (routeKey o) ++
            [levelPushOrder
              (NewLevelNode (routeKey o).levelType (routePrice o)) o]
        else ob.tree k'' := by
      intro k''
      by_cases hk : k'' = routeKey o
      · rw [if_pos hk, hk, obAddOrder_tree_self_new hf]
      · rw [if_neg hk, obAddOrder_tree_ne _ _ _ hk]
    have hpush_price : (levelPushOrder
        (NewLevelNode (routeKey o).levelType (routePrice o)) o).level.price =
        routePrice o := rfl
    have hpush_list : (levelPushOrder
        (NewLevelNode (routeKey o).levelType (routePrice o)) o).orderList =
        [o.id] := rfl
    refine ⟨?_, ?_, ?_, ?_, ?_⟩
    · intro k''
      rw [htree]
      by_cases hk : k'' = routeKey o
      · rw [if_pos hk, List.map_append]
        simp only [List.map_cons, List.map_nil, hpush_price]
        rw [List.nodup_append]
        refine ⟨h.nodupPrices (routeKey o), List.nodup_singleton _, ?_⟩
        intro x hx hy
        simp only [List.mem_singleton] at hy
        subst hy
        obtain ⟨lv₁, h₁, hp₁⟩ := List.mem_map.mp hx
        exact hfresh lv₁ h₁ hp₁
      · rw [if_neg hk]
        exact h.nodupPrices k''
    · intro k'' lv'' hlv''
      rw [htree] at hlv''
      by_cases hk : k'' = routeKey o
      · rw [if_pos hk] at hlv''
        rcases List.mem_append.mp hlv'' with h₁ | h₁
        · exact h.listsNonempty _ lv'' h₁
        · simp only [List.mem_singleton] at h₁
          subst h₁
          rw [hpush_list]
          simp
      · rw [if_neg hk] at hlv''
        exact h.listsNonempty k'' lv'' hlv''
    · intro k'' lv'' hlv''
      rw [htree] at hlv''
      by_cases hk : k'' = routeKey o
      · rw [if_pos hk] at hlv''
        rcases List.mem_append.mp hlv'' with h₁ | h₁
        · exact h.listsNodup _ lv'' h₁
        · simp only [List.mem_singleton] at h₁
          subst h₁
          rw [hpush_list]
          exact List.nodup_singleton _
      · rw [if_neg hk] at hlv''
        exact h.listsNodup k'' lv'' hlv''
    · intro k'' lv'' hlv'' oid hoid
      rw [htree] at hlv''
      by_cases hk : k'' = routeKey o
      · rw [if_pos hk] at hlv''
        rcases List.mem_append.mp hlv'' with h₁ | h₁
        · obtain ⟨o₀, h1, h2, h3, h4, h5⟩ := h.member _ lv'' h₁ oid hoid
          exact ⟨o₀, h1, h2, h3, by rw [h4, hk], h5⟩
        · simp only [List.mem_singleton] at h₁
          subst h₁
          rw [hpush_list, List.mem_singleton] at hoid
          subst hoid
          exact ⟨o, ho, rfl, hsid, by rw [hk], by rw [hpush_price]⟩
      · rw [if_neg hk] at hlv''
        exact h.member k'' lv'' hlv'' oid hoid
    · intro k''
      by_cases hk : k'' = routeKey o
      · rw [hk, obAddOrder_best_self_new hf, htree, if_pos rfl]
        rw [treeFirstPrice_eq_of_prices_eq
          (show ((ob.tree (routeKey o) ++
              [levelPushOrder
                (NewLevelNode (routeKey o).levelType (routePrice o)) o]).map
              (fun l => l.level.price)) =
            ((ob.tree (routeKey o) ++
              [NewLevelNode (routeKey o).levelType (routePrice o)]).map
              (fun l => l.level.price)) by
          rw [List.map_append, List.map_append]
          simp only [List.map_cons, List.map_nil, hpush_price]
          rfl)]
        rw [treeFirstPrice_append_singleton]
        rw [h.bestEq (routeKey o)]
        rfl
      · rw [htree, if_neg hk, obAddOrder_best_ne _ _ _ hk]
        exact h.bestEq k''

theorem MMWF_book {m : MarketManager} (h : MMWF m) {sid : Nat}
    {ob : OrderBook} (hob : alookup m.orderBooks sid = some ob) :
    BookWF m.orders sid ob :=
  h.books (sid, ob) (alookup_mem hob)

theorem MMWF_order_id {m : MarketManager} (h : MMWF m) {oid : Nat} {o : Order}
    (ho : alookup m.orders oid = some o) : o.id = oid :=
  h.orderIds (oid, o) (alookup_mem ho)

/-- Overwriting a registered order with a same-route fill keeps any book
well formed. -/
theorem BookWF_reg_fill {reg : List (Nat × Order)} {sid : Nat}
    {ob : OrderBook} (h : BookWF reg sid ob) {o : Order} (o' : Order)
    (ho : alookup reg o.id = some o)
    (hid : o'.id = o.id) (hsid : o'.symbolID = o.symbolID)
    (hk : routeKey o' = routeKey o) (hp : routePrice o' = routePrice o) :
    BookWF (updEntry reg o.id o') sid ob := by
  refine ⟨h.nodupPrices, h.listsNonempty, h.listsNodup, ?_, h.bestEq⟩
  intro k lv hlv oid hoid
  obtain ⟨o₀, h1, h2, h3, h4, h5⟩ := h.member k lv hlv oid hoid
  by_cases he : oid = o.id
  · subst he
    have ho₀ : o₀ = o := by
      have := h1.symm.trans ho
      exact Option.some.inj this
    subst ho₀
    refine ⟨o', alookup_updEntry_eq _ _ _ (by rw [h1]; rfl), ?_, ?_, ?_, ?_⟩
    · rw [hid, h2]
    · rw [hsid, h3]
    · rw [hk, h4]
    · rw [hp, h5]
  · exact ⟨o₀, (alookup_updEntry_ne _ _ _ _ he).trans h1, h2, h3, h4, h5⟩

/-- The state effect of the private `executeOrder` helper: well-formedness
is preserved; only the executed order's registry entry and its book's route
tree change, and the route tree only loses resting quantity — strictly so
for a complete fill of a resting order. -/
theorem executeOrderStep_good {m : MarketManager} {o : Order}
    (hwf : MMWF m) (ho : alookup m.orders o.id = some o)
    (price q : Nat) :
    MMWF (m.executeOrderStep o price q).mm ∧
    (m.executeOrderStep o price q).mm.orderBooks.map Prod.fst =
      m.orderBooks.map Prod.fst ∧
    (∀ sid', sid' ≠ o.symbolID →
      alookup (m.executeOrderStep o price q).mm.orderBooks sid' =
        alookup m.orderBooks sid') ∧
    (∀ oid, oid ≠ o.id →
      alookup (m.executeOrderStep o price q).mm.orders oid =
        alookup m.orders oid) ∧
    (∀ ob, alookup m.orderBooks o.symbolID = some ob →
      ∃ ob', alookup (m.executeOrderStep o price q).mm.orderBooks o.symbolID =
          some ob' ∧
        (∀ k, k ≠ routeKey o →
          ob'.tree k = ob.tree k ∧ ob'.best k = ob.best k) ∧
        ((ob'.tree (routeKey o)).map (fun lv => lv.level.price)).Sublist
          ((ob.tree (routeKey o)).map (fun lv => lv.level.price)) ∧
        sumOrders (ob'.tree (routeKey o)) ≤
          sumOrders (ob.tree (routeKey o)) ∧
        (o.leavesQuantity ≤ q →
          (∃ lv, findLevel (ob.tree (routeKey o)) (routePrice o) = some lv ∧
            o.id ∈ lv.orderList) →
          sumOrders (ob'.tree (routeKey o)) <
            sumOrders (ob.tree (routeKey o)))) := by
  unfold MarketManager.executeOrderStep
  cases hob : alookup m.orderBooks o.symbolID with
  | none =>
    refine ⟨hwf, rfl, fun _ _ => rfl, fun _ _ => rfl, ?_⟩
    intro ob hob'
    exact Option.noConfusion hob'
  | some ob =>
    dsimp only
    have hbwf : BookWF m.orders o.symbolID ob := MMWF_book hwf hob
    set o' : Order := { o with
      executedQuantity := o.executedQuantity + q
      leavesQuantity := o.leavesQuantity - q } with ho'def
    have hk' : routeKey o' = routeKey o := rfl
    have hp' : routePrice o' = routePrice o := rfl
    have hoid' : o'.id = o.id := rfl
    have hsid' : o'.symbolID = o.symbolID := rfl
    set ob1 : OrderBook := ob.ReduceOrder o' q
      (o.HiddenQuantity - o'.HiddenQuantity)
      (o.VisibleQuantity - o'.VisibleQuantity) with hob1def
    have hb1 : BookWF (updEntry m.orders o.id o') o.symbolID ob1 :=
      BookWF_reg_fill (BookWF_ReduceOrder hbwf o' _ _ _) o' ho hoid' hsid'
        hk' hp'
    have hlook1 : alookup (updEntry m.orders o.id o') o.id = some o' :=
      alookup_updEntry_eq _ _ _ (by rw [ho]; rfl)
    have hkeys1 : (updEntry m.orders o.id o').map Prod.fst =
        m.orders.map Prod.fst := updEntry_keys _ _ _
    have hids1 : ∀ p ∈ updEntry m.orders o.id o', p.2.id = p.1 := by
      intro p hp
      rcases mem_updEntry hp with hp1 | ⟨hp1, -⟩
      · rw [hp1]
      · exact hwf.orderIds p hp1
    have hprices1 : ((ob1.tree (routeKey o)).map (fun lv => lv.level.price)) =
        ((ob.tree (routeKey o)).map (fun lv => lv.level.price)) := by
      rw [hob1def]
      exact obReduceOrder_prices ob o' q _ _ (routeKey o)
    have hsum1 : sumOrders (ob1.tree (routeKey o)) =
        sumOrders (ob.tree (routeKey o)) := by
      rw [hob1def]
      exact obReduceOrder_sumOrders ob o' q _ _ (routeKey o)
    have hnd1 : ((ob1.tree (routeKey o)).map
        (fun lv => lv.level.price)).Nodup := by
      rw [hprices1]
      exact hbwf.nodupPrices (routeKey o)
    have hbooks_other : ∀ q₀ ∈ m.orderBooks, q₀.1 ≠ o.symbolID →
        ∀ reg', (∀ oid, oid ≠ o.id → (alookup m.orders oid).isSome →
          alookup reg' oid = alookup m.orders oid) →
        BookWF reg' q₀.1 q₀.2 := by
      intro q₀ hq₀ hne reg' hagree
      have hb₀ := hwf.books q₀ hq₀
      refine BookWF_regext hb₀ ?_
      intro oid hm
      have hne' : oid ≠ o.id :=
        bookMem_ne_of_symbol hb₀ ho (fun hc => hne hc.symm) hm
      exact hagree oid hne' (bookMem_isSome hb₀ hm)
    by_cases hl : o'.leavesQuantity = 0
    · rw [if_pos hl]
      have hb2raw := BookWF_DeleteOrder
        (eraseEntry (updEntry m.orders o.id o') o'.id) hb1 (o := o')
        (by rw [hoid']; exact hlook1)
        (fun oid hne _ => alookup_eraseEntry_ne _ _ _ (by
          rw [hoid']; exact hne))
      have hb2 := hb2raw.1
      refine ⟨?_, ?_, ?_, ?_, ?_⟩
      · refine ⟨?_, ?_, ?_, ?_⟩
        · rw [updEntry_keys]
          exact hwf.bookKeys
        · have hs := eraseEntry_keys_sublist (updEntry m.orders o.id o') o'.id
          rw [hkeys1] at hs
          exact hwf.orderKeys.sublist hs
        · intro p hp
          exact hids1 p (mem_eraseEntry hp).1
        · intro q₀ hq₀
          rcases mem_updEntry hq₀ with hq1 | ⟨hq1, hq2⟩
          · rw [hq1]
            exact hb2
          · exact hbooks_other q₀ hq1 hq2 _
              (fun oid hne hsome => by
                rw [alookup_eraseEntry_ne _ _ _ (by rw [hoid']; exact hne),
                  alookup_updEntry_ne _ _ _ _ hne])
      · rw [updEntry_keys]
      · intro sid' hne
        exact alookup_updEntry_ne _ _ _ _ hne
      · intro oid hne
        rw [alookup_eraseEntry_ne _ _ _ (by rw [hoid']; exact hne),
          alookup_updEntry_ne _ _ _ _ hne]
      · intro ob₀ hob₀
        cases Option.some.inj hob₀
        refine ⟨ob1.DeleteOrder o',
          alookup_updEntry_eq _ _ _ (by rw [hob]; rfl), ?_, ?_, ?_, ?_⟩
        · intro k hk
          constructor
          · rw [obDeleteOrder_tree_ne _ _ _ (by rw [hk']; exact hk), hob1def,
              obReduceOrder_tree_ne _ _ _ _ _ _ (by rw [hk']; exact hk)]
          · rw [obDeleteOrder_best_ne _ _ _ (by rw [hk']; exact hk), hob1def,
              obReduceOrder_best]
        · have h1 := obDeleteOrder_prices_sublist ob1 o' (routeKey o')
          rw [hk', hprices1] at h1
          exact h1
        · have h1 := @obDeleteOrder_sumOrders_le ob1 o'
            (by rw [hk']; exact hnd1)
          rw [hk'] at h1
          omega
        · intro hle hpres
          obtain ⟨lv, hfind, hmem⟩ := hpres
          obtain ⟨lv1, hfind1, hmem1⟩ : ∃ lv1,
              findLevel (ob1.tree (routeKey o)) (routePrice o) = some lv1 ∧
              o.id ∈ lv1.orderList := by
            rw [hob1def]
            unfold OrderBook.ReduceOrder
            rw [hk', hp', tree_setTree_self]
            rw [findLevel_mapLevel_eq _ _
              (fun lv₁ => { lv₁ with level :=
                { lv₁.level with
                  totalVolume := lv₁.level.totalVolume - q
                  hiddenVolume := lv₁.level.hiddenVolume -
                    (o.HiddenQuantity - o'.HiddenQuantity)
                  visibleVolume := lv₁.level.visibleVolume -
                    (o.VisibleQuantity - o'.VisibleQuantity) } })
              (fun lv₁ hp₁ => hp₁), hfind]
            exact ⟨_, rfl, hmem⟩
          have h1 := @obDeleteOrder_sumOrders_lt ob1 o' lv1
            (by rw [hk']; exact hnd1)
            (by rw [hk', hp']; exact hfind1)
            (by rw [hoid']; exact hmem1)
          rw [hk'] at h1
          omega
    · rw [if_neg hl]
      refine ⟨?_, ?_, ?_, ?_, ?_⟩
      · refine ⟨?_, ?_, ?_, ?_⟩
        · rw [updEntry_keys]
          exact hwf.bookKeys
        · rw [hkeys1]
          exact hwf.orderKeys
        · exact hids1
        · intro q₀ hq₀
          rcases mem_updEntry hq₀ with hq1 | ⟨hq1, hq2⟩
          · rw [hq1]
            exact hb1
          · exact hbooks_other q₀ hq1 hq2 _
              (fun oid hne hsome => alookup_updEntry_ne _ _ _ _ hne)
      · rw [updEntry_keys]
      · intro sid' hne
        exact alookup_updEntry_ne _ _ _ _ hne
      · intro oid hne
        exact alookup_updEntry_ne _ _ _ _ hne
      · intro ob₀ hob₀
        cases Option.some.inj hob₀
        refine ⟨ob1, alookup_updEntry_eq _ _ _ (by rw [hob]; rfl),
          ?_, ?_, ?_, ?_⟩
        · intro k hk
          constructor
          · rw [hob1def,
              obReduceOrder_tree_ne _ _ _ _ _ _ (by rw [hk']; exact hk)]
          · rw [hob1def, obReduceOrder_best]
        · rw [hprices1]
        · omega
        · intro hle hpres
          have hl2 : o.leavesQuantity - q ≠ 0 := hl
          omega

theorem findLevel_of_first {k : TreeKey} {ls : List LevelNode} {p : Nat}
    (h : treeFirstPrice k ls = some p) : ∃ lv, findLevel ls p = some lv := by
  have hmem := treeFirstPrice_mem h
  obtain ⟨lv, hlv, hp⟩ := List.mem_map.mp hmem
  have hs := findLevel_isSome_of_mem hlv
  rw [hp] at hs
  exact Option.isSome_iff_exists.mp hs

theorem matchMeasure_eq {m : MarketManager} {sid : Nat} {ob : OrderBook}
    (hob : alookup m.orderBooks sid = some ob) :
    matchMeasure m sid =
      sumOrders (ob.tree .bids) + sumOrders (ob.tree .asks) := by
  unfold matchMeasure
  rw [hob]
  rfl

/-- With fuel exceeding the resting bid+ask order count, the matching loop
preserves well-formedness, touches only the matched book, and exits with
that book uncrossed. -/
theorem matchLoop_good (fuel : Nat) :
    ∀ (m : MarketManager) (sid : Nat), MMWF m →
    matchMeasure m sid < fuel →
    MMWF (matchLoop fuel m sid).1 ∧
    (matchLoop fuel m sid).1.orderBooks.map Prod.fst =
      m.orderBooks.map Prod.fst ∧
    (∀ sid', sid' ≠ sid →
      alookup (matchLoop fuel m sid).1.orderBooks sid' =
        alookup m.orderBooks sid') ∧
    (∀ ob', alookup (matchLoop fuel m sid).1.orderBooks sid = some ob' →
      ∀ bp ap, ob'.bestBid = some bp → ob'.bestAsk = some ap → bp < ap) := by
  induction fuel with
  | zero =>
    intro m sid hwf hmeas
    omega
  | succ fuel ih =>
    intro m sid hwf hmeas
    rw [matchLoop]
    cases hob : alookup m.orderBooks sid with
    | none =>
      refine ⟨hwf, rfl, fun _ _ => rfl, ?_⟩
      intro ob' hob'
      rw [hob] at hob'
      exact Option.noConfusion hob'
    | some ob =>
      dsimp only
      have hbwf : BookWF m.orders sid ob := MMWF_book hwf hob
      cases hbb : ob.bestBid with
      | none =>
        dsimp only
        refine ⟨hwf, rfl, fun _ _ => rfl, ?_⟩
        intro ob' hob' bp ap hbp hap
        rw [hob] at hob'
        cases Option.some.inj hob'
        rw [hbb] at hbp
        exact Option.noConfusion hbp
      | some bidPrice =>
      cases hba : ob.bestAsk with
      | none =>
        dsimp only
        refine ⟨hwf, rfl, fun _ _ => rfl, ?_⟩
        intro ob' hob' bp ap hbp hap
        rw [hob] at hob'
        cases Option.some.inj hob'
        rw [hba] at hap
        exact Option.noConfusion hap
      | some askPrice =>
      dsimp only
      by_cases hlt : bidPrice < askPrice
      · rw [if_pos hlt]
        refine ⟨hwf, rfl, fun _ _ => rfl, ?_⟩
        intro ob' hob' bp ap hbp hap
        rw [hob] at hob'
        cases Option.some.inj hob'
        rw [hbb] at hbp
        rw [hba] at hap
        cases Option.some.inj hbp
        cases Option.some.inj hap
        exact hlt
      · rw [if_neg hlt]
        have hfbT : treeFirstPrice .bids (ob.tree .bids) = some bidPrice := by
          rw [← hbwf.bestEq .bids, best_bids_eq, hbb]
        have hfaT : treeFirstPrice .asks (ob.tree .asks) = some askPrice := by
          rw [← hbwf.bestEq .asks, best_asks_eq, hba]
        obtain ⟨bidLevel, hfb⟩ := findLevel_of_first hfbT
        obtain ⟨askLevel, hfa⟩ := findLevel_of_first hfaT
        have hfb' : findLevel ob.bids bidPrice = some bidLevel := hfb
        have hfa' : findLevel ob.asks askPrice = some askLevel := hfa
        rw [hfb', hfa']
        dsimp only
        have hbmem : bidLevel ∈ ob.tree .bids := findLevel_some_mem hfb
        have hamem : askLevel ∈ ob.tree .asks := findLevel_some_mem hfa
        have hbprice : bidLevel.level.price = bidPrice :=
          findLevel_some_price hfb
        have haprice : askLevel.level.price = askPrice :=
          findLevel_some_price hfa
        obtain ⟨bidID, btail, hbl⟩ : ∃ a t, bidLevel.orderList = a :: t := by
          cases hl : bidLevel.orderList with
          | nil => exact absurd hl (hbwf.listsNonempty .bids bidLevel hbmem)
          | cons a t => exact ⟨a, t, rfl⟩
        obtain ⟨askID, atail, hal⟩ : ∃ a t, askLevel.orderList = a :: t := by
          cases hl : askLevel.orderList with
          | nil => exact absurd hl (hbwf.listsNonempty .asks askLevel hamem)
          | cons a t => exact ⟨a, t, rfl⟩
        have hbh : bidLevel.orderList.head? = some bidID := by rw [hbl]; rfl
        have hah : askLevel.orderList.head? = some askID := by rw [hal]; rfl
        rw [hbh, hah]
        dsimp only
        have hbidmem : bidID ∈ bidLevel.orderList := by
          rw [hbl]
          exact List.mem_cons_self _ _
        have haskmem : askID ∈ askLevel.orderList := by
          rw [hal]
          exact List.mem_cons_self _ _
        obtain ⟨bidOrder, hbo, hb_id, hb_sid, hb_k, hb_p⟩ :=
          hbwf.member .bids bidLevel hbmem bidID hbidmem
        obtain ⟨askOrder, hao, ha_id, ha_sid, ha_k, ha_p⟩ :=
          hbwf.member .asks askLevel hamem askID haskmem
        rw [hbo, hao]
        dsimp only
        have hids_ne : bidID ≠ askID := by
          intro hc
          subst hc
          rw [hbo] at hao
          cases Option.some.inj hao
          rw [hb_k] at ha_k
          exact TreeKey.noConfusion ha_k
        have hbo2 : alookup m.orders bidOrder.id = some bidOrder := by
          rw [hb_id]
          exact hbo
        obtain ⟨hwf1, hkeys1, hbooks1, horders1, hbook1⟩ :=
          executeOrderStep_good hwf hbo2 askOrder.price
            (min bidOrder.leavesQuantity askOrder.leavesQuantity)
        obtain ⟨ob1, hob1, hframe1, hsub1, hsum1, hstrict1⟩ :=
          hbook1 ob (by rw [hb_sid]; exact hob)
        have hao1 : alookup (m.executeOrderStep bidOrder askOrder.price
            (min bidOrder.leavesQuantity askOrder.leavesQuantity)).mm.orders
            askID = some askOrder := by
          rw [horders1 askID (by rw [hb_id]; exact fun hc => hids_ne hc.symm)]
          exact hao
        rw [hao1]
        dsimp only
        have hao2 : alookup (m.executeOrderStep bidOrder askOrder.price
            (min bidOrder.leavesQuantity askOrder.leavesQuantity)).mm.orders
            askOrder.id = some askOrder := by
          rw [ha_id]
          exact hao1
        obtain ⟨hwf2, hkeys2, hbooks2, horders2, hbook2⟩ :=
          executeOrderStep_good hwf1 hao2 askOrder.price
            (min bidOrder.leavesQuantity askOrder.leavesQuantity)
        have hob1sid : alookup (m.executeOrderStep bidOrder askOrder.price
            (min bidOrder.leavesQuantity
              askOrder.leavesQuantity)).mm.orderBooks sid = some ob1 := by
          rw [← hb_sid]
          exact hob1
        obtain ⟨ob2, hob2, hframe2, hsub2, hsum2, hstrict2⟩ :=
          hbook2 ob1 (by rw [ha_sid]; exact hob1sid)
        have hob2sid : alookup ((m.executeOrderStep bidOrder askOrder.price
            (min bidOrder.leavesQuantity
              askOrder.leavesQuantity)).mm.executeOrderStep askOrder
              askOrder.price
              (min bidOrder.leavesQuantity
                askOrder.leavesQuantity)).mm.orderBooks sid = some ob2 := by
          rw [← ha_sid]
          exact hob2
        have hasks1 : ob1.tree .asks = ob.tree .asks :=
          (hframe1 .asks (by rw [hb_k]; exact fun hc =>
            TreeKey.noConfusion hc)).1
        have hbids2 : ob2.tree .bids = ob1.tree .bids :=
          (hframe2 .bids (by rw [ha_k]; exact fun hc =>
            TreeKey.noConfusion hc)).1
        have hsum1b : sumOrders (ob1.tree .bids) ≤
            sumOrders (ob.tree .bids) := by
          have h1 := hsum1
          rw [hb_k] at h1
          exact h1
        have hsum2a : sumOrders (ob2.tree .asks) ≤
            sumOrders (ob.tree .asks) := by
          have h1 := hsum2
          rw [ha_k, hasks1] at h1
          exact h1
        have hmeas2 : matchMeasure ((m.executeOrderStep bidOrder
            askOrder.price (min bidOrder.leavesQuantity
              askOrder.leavesQuantity)).mm.executeOrderStep askOrder
            askOrder.price (min bidOrder.leavesQuantity
              askOrder.leavesQuantity)).mm sid < matchMeasure m sid := by
          rw [matchMeasure_eq hob, matchMeasure_eq hob2sid, hbids2]
          by_cases hmin : bidOrder.leavesQuantity ≤ askOrder.leavesQuantity
          · have hstrict := hstrict1 (by omega) (by
              rw [hb_k, hb_p, hbprice]
              exact ⟨bidLevel, hfb, by rw [hb_id]; exact hbidmem⟩)
            rw [hb_k] at hstrict
            omega
          · have hstrict := hstrict2 (by omega) (by
              rw [ha_k, ha_p, haprice, hasks1]
              exact ⟨askLevel, hfa, by rw [ha_id]; exact haskmem⟩)
            rw [ha_k, hasks1] at hstrict
            omega
        obtain ⟨hrwf, hrkeys, hrbooks, hrcross⟩ := ih _ sid hwf2 (by omega)
        refine ⟨hrwf, ?_, ?_, ?_⟩
        · rw [hrkeys, hkeys2, hkeys1]
        · intro sid' hsid'
          rw [hrbooks sid' hsid',
            hbooks2 sid' (by rw [ha_sid]; exact hsid'),
            hbooks1 sid' (by rw [hb_sid]; exact hsid')]
        · exact hrcross

theorem alookup_of_mem_nodup {α : Type} {l : List (Nat × α)}
    (hnd : (l.map Prod.fst).Nodup) {q : Nat × α} (hq : q ∈ l) :
    alookup l q.1 = some q.2 := by
  induction l with
  | nil => simp at hq
  | cons p l ih =>
    simp only [List.map_cons, List.nodup_cons] at hnd
    rcases List.mem_cons.mp hq with h1 | h1
    · subst h1
      rw [alookup, if_pos rfl]
    · rw [alookup]
      by_cases hp : p.1 = q.1
      · exact absurd (by rw [hp]; exact List.mem_map.mpr ⟨q, h1, rfl⟩) hnd.1
      · rw [if_neg hp]
        exact ih hnd.2 h1

theorem noCross_mk {m₀ : MarketManager}
    (hnd : (m₀.orderBooks.map Prod.fst).Nodup)
    (h : ∀ sid ob, alookup m₀.orderBooks sid = some ob →
      ∀ bp ap, ob.bestBid = some bp → ob.bestAsk = some ap → bp < ap) :
    noCross m₀ := by
  intro q hq bp ap h1 h2
  exact h q.1 q.2 (alookup_of_mem_nodup hnd hq) bp ap h1 h2

theorem noCross_lookup {m₀ : MarketManager} (h : noCross m₀) {sid : Nat}
    {ob : OrderBook} (hob : alookup m₀.orderBooks sid = some ob) :
    ∀ bp ap, ob.bestBid = some bp → ob.bestAsk = some ap → bp < ap :=
  h (sid, ob) (alookup_mem hob)

theorem not_better_bids {p q : Nat} (h : ¬ better .bids p q = true) :
    p ≤ q := by
  simp [better, TreeKey.descending] at h
  omega

theorem not_better_asks {p q : Nat} (h : ¬ better .asks p q = true) :
    q ≤ p := by
  simp [better, TreeKey.descending] at h
  omega

/-- Rebuild `MMWF` after replacing one book and the registry. -/
theorem MMWF_set_book {m m' : MarketManager} (hwf : MMWF m) {sid₀ : Nat}
    {obNew : OrderBook}
    (hbooks' : m'.orderBooks = updEntry m.orderBooks sid₀ obNew)
    (hknd : (m'.orders.map Prod.fst).Nodup)
    (hids : ∀ p ∈ m'.orders, p.2.id = p.1)
    (hnew : BookWF m'.orders sid₀ obNew)
    (hagree : ∀ q ∈ m.orderBooks, q.1 ≠ sid₀ → ∀ oid, bookMem q.2 oid →
      alookup m'.orders oid = alookup m.orders oid) :
    MMWF m' := by
  refine ⟨?_, hknd, hids, ?_⟩
  · rw [hbooks', updEntry_keys]
    exact hwf.bookKeys
  · intro q hq
    rw [hbooks'] at hq
    rcases mem_updEntry hq with h1 | ⟨h1, h2⟩
    · rw [h1]
      exact hnew
    · exact BookWF_regext (hwf.books q h1) (hagree q h1 h2)

/-- Rebuild `noCross` after replacing one book. -/
theorem noCross_set_book {m m' : MarketManager} (hnc : noCross m)
    {sid₀ : Nat} {obNew : OrderBook}
    (hbooks' : m'.orderBooks = updEntry m.orderBooks sid₀ obNew)
    (hnew : ∀ bp ap, obNew.bestBid = some bp → obNew.bestAsk = some ap →
      bp < ap) :
    noCross m' := by
  intro q hq bp ap h1 h2
  rw [hbooks'] at hq
  rcases mem_updEntry hq with h3 | ⟨h3, -⟩
  · subst h3
    exact hnew bp ap h1 h2
  · exact hnc q h3 bp ap h1 h2

/-- After the matching loop runs on a well-formed state whose other books
are uncrossed, the whole state is good. -/
theorem GoodState_after_match {m2 : MarketManager} (hwf2 : MMWF m2)
    (sid : Nat)
    (hother : ∀ sid', sid' ≠ sid → ∀ ob',
      alookup m2.orderBooks sid' = some ob' →
      ∀ bp ap, ob'.bestBid = some bp → ob'.bestAsk = some ap → bp < ap) :
    GoodState (m2.matchOrders sid).1 := by
  unfold MarketManager.matchOrders
  obtain ⟨hwf', hkeys', hbooks', hcross'⟩ :=
    matchLoop_good (matchMeasure m2 sid + 1) m2 sid hwf2 (Nat.lt_succ_self _)
  refine ⟨hwf', noCross_mk hwf'.bookKeys ?_⟩
  intro sid₀ ob₀ hob₀ bp ap h1 h2
  by_cases hs : sid₀ = sid
  · subst hs
    exact hcross' ob₀ hob₀ bp ap h1 h2
  · rw [hbooks' sid₀ hs] at hob₀
    exact hother sid₀ hs ob₀ hob₀ bp ap h1 h2

theorem GoodState_EnableMatching {m : MarketManager} (h : GoodState m) :
    GoodState m.EnableMatching :=
  ⟨⟨h.1.bookKeys, h.1.orderKeys, h.1.orderIds, h.1.books⟩, h.2⟩

theorem GoodState_AddSymbol {m : MarketManager} (h : GoodState m)
    (s : Symbol) : GoodState (m.AddSymbol s).mm := by
  unfold MarketManager.AddSymbol
  by_cases hd : (alookup m.symbols s.id).isSome
  · rw [if_pos hd]
    exact h
  · rw [if_neg hd]
    exact ⟨⟨h.1.bookKeys, h.1.orderKeys, h.1.orderIds, h.1.books⟩, h.2⟩

theorem BookWF_NewOrderBook (reg : List (Nat × Order)) (sid : Nat)
    (s : Symbol) : BookWF reg sid (NewOrderBook s) := by
  have htree : ∀ k, (NewOrderBook s).tree k = [] := by
    intro k
    cases k <;> rfl
  have hbest : ∀ k, (NewOrderBook s).best k = none := by
    intro k
    cases k <;> rfl
  refine ⟨?_, ?_, ?_, ?_, ?_⟩
  · intro k
    rw [htree]
    exact List.nodup_nil
  · intro k lv hlv
    rw [htree] at hlv
    simp at hlv
  · intro k lv hlv
    rw [htree] at hlv
    simp at hlv
  · intro k lv hlv
    rw [htree] at hlv
    simp at hlv
  · intro k
    rw [htree, hbest]
    rfl

theorem GoodState_AddOrderBook {m : MarketManager} (h : GoodState m)
    (s : Symbol) : GoodState (m.AddOrderBook s).mm := by
  unfold MarketManager.AddOrderBook
  by_cases hd : (alookup m.orderBooks s.id).isSome
  · rw [if_pos hd]
    exact h
  · rw [if_neg hd]
    refine ⟨⟨?_, h.1.orderKeys, h.1.orderIds, ?_⟩, ?_⟩
    · rw [List.map_append]
      rw [List.nodup_append]
      refine ⟨h.1.bookKeys, by simp, ?_⟩
      intro x hx hy
      simp only [List.map_cons, List.map_nil, List.mem_singleton] at hy
      subst hy
      exact hd (alookup_isSome_of_mem_keys hx)
    · intro q hq
      rcases List.mem_append.mp hq with h1 | h1
      · exact h.1.books q h1
      · simp only [List.mem_singleton] at h1
        rw [h1]
        exact BookWF_NewOrderBook _ _ _
    · intro q hq bp ap h1 h2
      rcases List.mem_append.mp hq with h3 | h3
      · exact h.2 q h3 bp ap h1 h2
      · simp only [List.mem_singleton] at h3
        rw [h3] at h1
        exact Option.noConfusion h1

theorem GoodState_DeleteOrder {m : MarketManager} (h : GoodState m)
    (id : Nat) : GoodState (m.DeleteOrder id).mm := by
  obtain ⟨hwf, hnc⟩ := h
  unfold MarketManager.DeleteOrder
  cases ho : alookup m.orders id with
  | none => exact ⟨hwf, hnc⟩
  | some o =>
    dsimp only
    cases hob : alookup m.orderBooks o.symbolID with
    | none => exact ⟨hwf, hnc⟩
    | some ob =>
      dsimp only
      have hoid : o.id = id := MMWF_order_id hwf ho
      have ho2 : alookup m.orders o.id = some o := by rw [hoid]; exact ho
      have hbwf := MMWF_book hwf hob
      obtain ⟨hbw', hnm'⟩ := BookWF_DeleteOrder (eraseEntry m.orders id)
        hbwf ho2
        (fun oid hne _ => alookup_eraseEntry_ne _ _ _ (by
          rw [← hoid]
          exact hne))
      constructor
      · refine MMWF_set_book hwf rfl ?_ ?_ hbw' ?_
        · exact hwf.orderKeys.sublist (eraseEntry_keys_sublist _ _)
        · intro p hp
          exact hwf.orderIds p (mem_eraseEntry hp).1
        · intro q hq hqne oid hm
          have hne := bookMem_ne_of_symbol (hwf.books q hq) ho2
            (fun hc => hqne hc.symm) hm
          exact alookup_eraseEntry_ne _ _ _ (by
            rw [← hoid]
            exact hne)
      · refine noCross_set_book hnc rfl ?_
        intro bp ap h1 h2
        obtain ⟨p1, hp1, hnb1⟩ := best_worse_of_sublist hbwf hbw' .bids
          (obDeleteOrder_prices_sublist ob o .bids) h1
        obtain ⟨p2, hp2, hnb2⟩ := best_worse_of_sublist hbwf hbw' .asks
          (obDeleteOrder_prices_sublist ob o .asks) h2
        have hlt := noCross_lookup hnc hob p1 p2 hp1 hp2
        have hb1 := not_better_bids hnb1
        have hb2 := not_better_asks hnb2
        omega

theorem GoodState_ReduceOrder {m : MarketManager} (h : GoodState m)
    (id quantity : Nat) : GoodState (m.ReduceOrder id quantity).mm := by
  obtain ⟨hwf, hnc⟩ := h
  unfold MarketManager.ReduceOrder
  cases ho : alookup m.orders id with
  | none => exact ⟨hwf, hnc⟩
  | some o =>
    dsimp only
    by_cases hq0 : quantity = 0
    · rw [if_pos hq0]
      exact ⟨hwf, hnc⟩
    · rw [if_neg hq0]
      by_cases hge : o.leavesQuantity ≤ quantity
      · rw [if_pos hge]
        exact GoodState_DeleteOrder ⟨hwf, hnc⟩ id
      · rw [if_neg hge]
        cases hob : alookup m.orderBooks o.symbolID with
        | none => exact ⟨hwf, hnc⟩
        | some ob =>
          dsimp only
          have hoid : o.id = id := MMWF_order_id hwf ho
          have ho2 : alookup m.orders o.id = some o := by rw [hoid]; exact ho
          have hbwf := MMWF_book hwf hob
          have hb1 := BookWF_reg_fill
            (BookWF_ReduceOrder hbwf
              { o with leavesQuantity := o.leavesQuantity - quantity }
              quantity
              (o.HiddenQuantity -
                Order.HiddenQuantity
                  { o with leavesQuantity := o.leavesQuantity - quantity })
              (o.VisibleQuantity -
                Order.VisibleQuantity
                  { o with leavesQuantity := o.leavesQuantity - quantity }))
            { o with leavesQuantity := o.leavesQuantity - quantity }
            ho2 rfl rfl rfl rfl
          constructor
          · rw [show (id : Nat) = o.id from hoid.symm]
            refine MMWF_set_book hwf rfl ?_ ?_ hb1 ?_
            · rw [updEntry_keys]
              exact hwf.orderKeys
            · intro p hp
              rcases mem_updEntry hp with hp1 | ⟨hp1, -⟩
              · rw [hp1]
              · exact hwf.orderIds p hp1
            · intro q hq hqne oid hm
              have hne := bookMem_ne_of_symbol (hwf.books q hq) ho2
                (fun hc => hqne hc.symm) hm
              exact alookup_updEntry_ne _ _ _ _ hne
          · refine noCross_set_book hnc rfl ?_
            intro bp ap h1 h2
            have h1' : (ob.ReduceOrder
                { o with leavesQuantity := o.leavesQuantity - quantity }
                quantity
                (o.HiddenQuantity - Order.HiddenQuantity
                  { o with leavesQuantity := o.leavesQuantity - quantity })
                (o.VisibleQuantity - Order.VisibleQuantity
                  { o with leavesQuantity := o.leavesQuantity - quantity })).best
                .bids = some bp := h1
            have h2' : (ob.ReduceOrder
                { o with leavesQuantity := o.leavesQuantity - quantity }
                quantity
                (o.HiddenQuantity - Order.HiddenQuantity
                  { o with leavesQuantity := o.leavesQuantity - quantity })
                (o.VisibleQuantity - Order.VisibleQuantity
                  { o with leavesQuantity := o.leavesQuantity - quantity })).best
                .asks = some ap := h2
            rw [obReduceOrder_best] at h1' h2'
            exact noCross_lookup hnc hob bp ap h1' h2'

theorem GoodState_executeOrderStep {m : MarketManager} (h : GoodState m)
    {o : Order} (ho : alookup m.orders o.id = some o) (price q : Nat) :
    GoodState (m.executeOrderStep o price q).mm := by
  obtain ⟨hwf, hnc⟩ := h
  cases hob : alookup m.orderBooks o.symbolID with
  | none =>
    have hstep : m.executeOrderStep o price q = ⟨m, [], ErrorOK⟩ := by
      unfold MarketManager.executeOrderStep
      rw [hob]
    rw [hstep]
    exact ⟨hwf, hnc⟩
  | some ob =>
    obtain ⟨hwf', hkeys', hbooks', horders', hbook'⟩ :=
      executeOrderStep_good hwf ho price q
    obtain ⟨ob', hob', hframe', hsub', hsum', hstrict'⟩ := hbook' ob hob
    have hbwf := MMWF_book hwf hob
    have hbwf' := MMWF_book hwf' hob'
    refine ⟨hwf', noCross_mk hwf'.bookKeys ?_⟩
    intro sid₀ ob₀ hob₀ bp ap h1 h2
    by_cases hs : sid₀ = o.symbolID
    · subst hs
      rw [hob'] at hob₀
      cases Option.some.inj hob₀
      have hbids : ∃ p1, ob.best .bids = some p1 ∧ bp ≤ p1 := by
        by_cases hk : routeKey o = .bids
        · obtain ⟨p1, hp1, hnb⟩ := best_worse_of_sublist hbwf hbwf' .bids
            (by rw [← hk]; exact hsub') h1
          exact ⟨p1, hp1, not_better_bids hnb⟩
        · have := (hframe' .bids (fun hc => hk hc.symm)).2
          refine ⟨bp, ?_, le_refl bp⟩
          rw [← this]
          exact h1
      have hasks : ∃ p2, ob.best .asks = some p2 ∧ p2 ≤ ap := by
        by_cases hk : routeKey o = .asks
        · obtain ⟨p2, hp2, hnb⟩ := best_worse_of_sublist hbwf hbwf' .asks
            (by rw [← hk]; exact hsub') h2
          exact ⟨p2, hp2, not_better_asks hnb⟩
        · have := (hframe' .asks (fun hc => hk hc.symm)).2
          refine ⟨ap, ?_, le_refl ap⟩
          rw [← this]
          exact h2
      obtain ⟨p1, hp1, hle1⟩ := hbids
      obtain ⟨p2, hp2, hle2⟩ := hasks
      have hlt := noCross_lookup hnc hob p1 p2 hp1 hp2
      omega
    · rw [hbooks' sid₀ hs] at hob₀
      exact noCross_lookup hnc hob₀ bp ap h1 h2

theorem GoodState_ExecuteOrder {m : MarketManager} (h : GoodState m)
    (id quantity : Nat) : GoodState (m.ExecuteOrder id quantity).mm := by
  unfold MarketManager.ExecuteOrder
  cases ho : alookup m.orders id with
  | none => exact h
  | some o =>
    dsimp only
    by_cases hv : quantity = 0 ∨ o.leavesQuantity < quantity
    · rw [if_pos hv]
      exact h
    · rw [if_neg hv]
      have hoid : o.id = id := MMWF_order_id h.1 ho
      exact GoodState_executeOrderStep h (by rw [hoid]; exact ho) _ _

theorem GoodState_ExecuteOrderWithPrice {m : MarketManager} (h : GoodState m)
    (id price quantity : Nat) :
    GoodState (m.ExecuteOrderWithPrice id price quantity).mm := by
  unfold MarketManager.ExecuteOrderWithPrice
  cases ho : alookup m.orders id with
  | none => exact h
  | some o =>
    dsimp only
    by_cases hv : quantity = 0 ∨ o.leavesQuantity < quantity
    · rw [if_pos hv]
      exact h
    · rw [if_neg hv]
      have hoid : o.id = id := MMWF_order_id h.1 ho
      exact GoodState_executeOrderStep h (by rw [hoid]; exact ho) _ _

theorem GoodState_Match {m : MarketManager} (h : GoodState m) (sid : Nat) :
    GoodState (m.Match sid).mm := by
  unfold MarketManager.Match
  by_cases hob : (alookup m.orderBooks sid).isSome
  · rw [if_pos hob]
    exact GoodState_after_match h.1 sid
      (fun sid' _ ob' hob' => noCross_lookup h.2 hob')
  · rw [if_neg hob]
    exact h

theorem bookMem_DeleteOrder_sub {ob : OrderBook} {o : Order} {oid : Nat}
    (h : bookMem (ob.DeleteOrder o) oid) : bookMem ob oid := by
  obtain ⟨k, lv, hlv, hoid⟩ := h
  cases hf : findLevel (ob.tree (routeKey o)) (routePrice o) with
  | none =>
    rw [obDeleteOrder_eq_of_none hf] at hlv
    exact ⟨k, lv, hlv, hoid⟩
  | some lv₀ =>
    cases he : (levelRemoveOrder lv₀ o).orderList.isEmpty with
    | false =>
      by_cases hk : k = routeKey o
      · subst hk
        rw [obDeleteOrder_tree_self_keep hf he] at hlv
        rcases mem_mapLevel hlv with ⟨lv₁, h₁, hp₁, he₁⟩ | ⟨h₁, -⟩
        · subst he₁
          simp only [levelRemoveOrder] at hoid
          exact ⟨_, lv₀, findLevel_some_mem hf, List.mem_of_mem_erase hoid⟩
        · exact ⟨_, lv, h₁, hoid⟩
      · rw [obDeleteOrder_tree_ne _ _ _ hk] at hlv
        exact ⟨k, lv, hlv, hoid⟩
    | true =>
      by_cases hk : k = routeKey o
      · subst hk
        rw [obDeleteOrder_tree_self_del hf he] at hlv
        exact ⟨_, lv, (mem_removeLevel hlv).1, hoid⟩
      · rw [obDeleteOrder_tree_ne _ _ _ hk] at hlv
        exact ⟨k, lv, hlv, hoid⟩

theorem GoodState_ModifyOrder {m : MarketManager} (h : GoodState m)
    (hm : m.matching = true) (id newPrice newQuantity : Nat) :
    GoodState (m.ModifyOrder id newPrice newQuantity).mm := by
  obtain ⟨hwf, hnc⟩ := h
  unfold MarketManager.ModifyOrder
  cases ho : alookup m.orders id with
  | none => exact ⟨hwf, hnc⟩
  | some o =>
    dsimp only
    by_cases hq0 : newQuantity = 0
    · rw [if_pos hq0]
      exact ⟨hwf, hnc⟩
    · rw [if_neg hq0]
      cases hob : alookup m.orderBooks o.symbolID with
      | none => exact ⟨hwf, hnc⟩
      | some ob =>
        dsimp only
        rw [if_pos hm]
        dsimp only
        have hoid : o.id = id := MMWF_order_id hwf ho
        rw [show (id : Nat) = o.id from hoid.symm]
        have ho2 : alookup m.orders o.id = some o := by rw [hoid]; exact ho
        have hbwf := MMWF_book hwf hob
        obtain ⟨hbdel, hnmdel⟩ := BookWF_DeleteOrder
          (updEntry m.orders o.id
            { o with
              price := newPrice
              quantity := newQuantity
              leavesQuantity := newQuantity
              executedQuantity := 0 })
          hbwf ho2
          (fun oid hne _ => alookup_updEntry_ne _ _ _ _ hne)
        have hlookA := alookup_updEntry_eq m.orders o.id
          { o with
            price := newPrice
            quantity := newQuantity
            leavesQuantity := newQuantity
            executedQuantity := 0 } (by rw [ho2]; rfl)
        have hbadd := BookWF_AddOrder
          (o := { o with
            price := newPrice
            quantity := newQuantity
            leavesQuantity := newQuantity
            executedQuantity := 0 })
          hbdel hlookA hnmdel rfl
        have hwf1 : MMWF { m with
            orders := updEntry m.orders o.id
              { o with
                price := newPrice
                quantity := newQuantity
                leavesQuantity := newQuantity
                executedQuantity := 0 }
            orderBooks := updEntry m.orderBooks o.symbolID
              ((ob.DeleteOrder o).AddOrder
                { o with
                  price := newPrice
                  quantity := newQuantity
                  leavesQuantity := newQuantity
                  executedQuantity := 0 }) } := by
          refine MMWF_set_book hwf rfl ?_ ?_ hbadd ?_
          · rw [updEntry_keys]
            exact hwf.orderKeys
          · intro p hp
            rcases mem_updEntry hp with hp1 | ⟨hp1, -⟩
            · rw [hp1]
            · exact hwf.orderIds p hp1
          · intro q hq hqne oid hm₀
            have hne := bookMem_ne_of_symbol (hwf.books q hq) ho2
              (fun hc => hqne hc.symm) hm₀
            exact alookup_updEntry_ne _ _ _ _ hne
        exact GoodState_after_match hwf1 o.symbolID (by
          intro sid' hs ob' hob' bp ap h1 h2
          have hob'' : alookup (updEntry m.orderBooks o.symbolID
              ((ob.DeleteOrder o).AddOrder
                { o with
                  price := newPrice
                  quantity := newQuantity
                  leavesQuantity := newQuantity
                  executedQuantity := 0 })) sid' = some ob' := hob'
          rw [alookup_updEntry_ne _ _ _ _ hs] at hob''
          exact noCross_lookup hnc hob'' bp ap h1 h2)

theorem GoodState_MitigateOrder {m : MarketManager} (h : GoodState m)
    (hm : m.matching = true) (id newPrice newQuantity : Nat) :
    GoodState (m.MitigateOrder id newPrice newQuantity).mm := by
  obtain ⟨hwf, hnc⟩ := h
  unfold MarketManager.MitigateOrder
  cases ho : alookup m.orders id with
  | none => exact ⟨hwf, hnc⟩
  | some o =>
    dsimp only
    by_cases hq0 : newQuantity ≤ o.executedQuantity
    · rw [if_pos hq0]
      exact GoodState_DeleteOrder ⟨hwf, hnc⟩ id
    · rw [if_neg hq0]
      cases hob : alookup m.orderBooks o.symbolID with
      | none => exact ⟨hwf, hnc⟩
      | some ob =>
        dsimp only
        rw [if_pos hm]
        dsimp only
        have hoid : o.id = id := MMWF_order_id hwf ho
        rw [show (id : Nat) = o.id from hoid.symm]
        have ho2 : alookup m.orders o.id = some o := by rw [hoid]; exact ho
        have hbwf := MMWF_book hwf hob
        obtain ⟨hbdel, hnmdel⟩ := BookWF_DeleteOrder
          (updEntry m.orders o.id
            { o with
              price := newPrice
              quantity := newQuantity
              leavesQuantity := newQuantity - o.executedQuantity })
          hbwf ho2
          (fun oid hne _ => alookup_updEntry_ne _ _ _ _ hne)
        have hlookA := alookup_updEntry_eq m.orders o.id
          { o with
            price := newPrice
            quantity := newQuantity
            leavesQuantity := newQuantity - o.executedQuantity }
          (by rw [ho2]; rfl)
        have hbadd := BookWF_AddOrder
          (o := { o with
            price := newPrice
            quantity := newQuantity
            leavesQuantity := newQuantity - o.executedQuantity })
          hbdel hlookA hnmdel rfl
        have hwf1 : MMWF { m with
            orders := updEntry m.orders o.id
              { o with
                price := newPrice
                quantity := newQuantity
                leavesQuantity := newQuantity - o.executedQuantity }
            orderBooks := updEntry m.orderBooks o.symbolID
              ((ob.DeleteOrder o).AddOrder
                { o with
                  price := newPrice
                  quantity := newQuantity
                  leavesQuantity := newQuantity - o.executedQuantity }) } := by
          refine MMWF_set_book hwf rfl ?_ ?_ hbadd ?_
          · rw [updEntry_keys]
            exact hwf.orderKeys
          · intro p hp
            rcases mem_updEntry hp with hp1 | ⟨hp1, -⟩
            · rw [hp1]
            · exact hwf.orderIds p hp1
          · intro q hq hqne oid hm₀
            have hne := bookMem_ne_of_symbol (hwf.books q hq) ho2
              (fun hc => hqne hc.symm) hm₀
            exact alookup_updEntry_ne _ _ _ _ hne
        exact GoodState_after_match hwf1 o.symbolID (by
          intro sid' hs ob' hob' bp ap h1 h2
          have hob'' : alookup (updEntry m.orderBooks o.symbolID
              ((ob.DeleteOrder o).AddOrder
                { o with
                  price := newPrice
                  quantity := newQuantity
                  leavesQuantity := newQuantity - o.executedQuantity }))
              sid' = some ob' := hob'
          rw [alookup_updEntry_ne _ _ _ _ hs] at hob''
          exact noCross_lookup hnc hob'' bp ap h1 h2)

theorem updEntry_updEntry {α : Type} (l : List (Nat × α)) (k : Nat)
    (v v' : α) : updEntry (updEntry l k v) k v' = updEntry l k v' := by
  induction l with
  | nil => rfl
  | cons p l ih =>
    by_cases hp : p.1 = k
    · rw [updEntry_cons, if_pos hp, updEntry_cons, if_pos rfl,
        updEntry_cons, if_pos hp, ih]
    · rw [updEntry_cons, if_neg hp, updEntry_cons, if_neg hp,
        updEntry_cons, if_neg hp, ih]

theorem GoodState_ReplaceOrder {m : MarketManager} (h : GoodState m)
    (hm : m.matching = true) (id newID newPrice newQuantity : Nat) :
    GoodState (m.ReplaceOrder id newID newPrice newQuantity).mm := by
  obtain ⟨hwf, hnc⟩ := h
  unfold MarketManager.ReplaceOrder
  cases ho : alookup m.orders id with
  | none => exact ⟨hwf, hnc⟩
  | some o =>
    dsimp only
    by_cases hq0 : newQuantity = 0
    · rw [if_pos hq0]
      exact ⟨hwf, hnc⟩
    · rw [if_neg hq0]
      by_cases hdup : (alookup m.orders newID).isSome
      · rw [if_pos hdup]
        exact ⟨hwf, hnc⟩
      · rw [if_neg hdup]
        cases hob : alookup m.orderBooks o.symbolID with
        | none => exact ⟨hwf, hnc⟩
        | some ob =>
          dsimp only
          rw [if_pos hm]
          dsimp only
          rw [updEntry_updEntry]
          have hoid : o.id = id := MMWF_order_id hwf ho
          rw [show (id : Nat) = o.id from hoid.symm]
          have ho2 : alookup m.orders o.id = some o := by rw [hoid]; exact ho
          have hbwf := MMWF_book hwf hob
          have hnewnone : alookup m.orders newID = none := by
            cases hcase : alookup m.orders newID with
            | none => rfl
            | some v =>
              rw [hcase] at hdup
              exact absurd rfl hdup
          have hne_ids : newID ≠ o.id := by
            intro hc
            rw [hc, ho2] at hnewnone
            exact Option.noConfusion hnewnone
          set newOrder : Order :=
            { id := newID, symbolID := o.symbolID, otype := o.otype,
              side := o.side, price := newPrice, stopPrice := o.stopPrice,
              quantity := newQuantity, executedQuantity := 0,
              leavesQuantity := newQuantity, timeInForce := o.timeInForce,
              maxVisibleQuantity := o.maxVisibleQuantity,
              slippage := o.slippage,
              trailingDistance := o.trailingDistance,
              trailingStep := o.trailingStep } with hnew
          have hid_new : newOrder.id = newID := rfl
          have hsid_new : newOrder.symbolID = o.symbolID := rfl
          have hagree : ∀ oid, oid ≠ o.id → (alookup m.orders oid).isSome →
              alookup (eraseEntry m.orders o.id ++ [(newID, newOrder)]) oid =
                alookup m.orders oid := by
            intro oid hne hsome
            rw [alookup_append, alookup_eraseEntry_ne _ _ _ hne]
            obtain ⟨v, hv⟩ := Option.isSome_iff_exists.mp hsome
            rw [hv]
            rfl
          obtain ⟨hbdel, hnmdel⟩ := BookWF_DeleteOrder
            (eraseEntry m.orders o.id ++ [(newID, newOrder)])
            hbwf ho2 hagree
          have hlookB : alookup (eraseEntry m.orders o.id ++
              [(newID, newOrder)]) newOrder.id = some newOrder := by
            rw [hid_new, alookup_append,
              alookup_eraseEntry_ne _ _ _ hne_ids, hnewnone]
            rw [alookup, if_pos rfl]
            rfl
          have hnm2 : ¬ bookMem (ob.DeleteOrder o) newOrder.id := by
            rw [hid_new]
            intro hmem
            have hs := bookMem_isSome hbwf (bookMem_DeleteOrder_sub hmem)
            rw [hnewnone] at hs
            simp at hs
          have hbadd := BookWF_AddOrder (o := newOrder) hbdel hlookB hnm2
            hsid_new
          have hwf1 : MMWF { m with
              orders := eraseEntry m.orders o.id ++ [(newID, newOrder)]
              orderBooks := updEntry m.orderBooks o.symbolID
                ((ob.DeleteOrder o).AddOrder newOrder) } := by
            refine MMWF_set_book hwf rfl ?_ ?_ hbadd ?_
            · rw [List.map_append, List.nodup_append]
              refine ⟨hwf.orderKeys.sublist (eraseEntry_keys_sublist _ _),
                by simp, ?_⟩
              intro x hx hy
              simp only [List.map_cons, List.map_nil,
                List.mem_singleton] at hy
              subst hy
              have hx' := (eraseEntry_keys_sublist m.orders o.id).subset hx
              have hs := alookup_isSome_of_mem_keys hx'
              rw [hnewnone] at hs
              simp at hs
            · intro p hp
              rcases List.mem_append.mp hp with h1 | h1
              · exact hwf.orderIds p (mem_eraseEntry h1).1
              · simp only [List.mem_singleton] at h1
                rw [h1]
            · intro q hq hqne oid hm₀
              have hb₀ := hwf.books q hq
              exact hagree oid
                (bookMem_ne_of_symbol hb₀ ho2 (fun hc => hqne hc.symm) hm₀)
                (bookMem_isSome hb₀ hm₀)
          exact GoodState_after_match hwf1 o.symbolID (by
            intro sid' hs ob' hob' bp ap h1 h2
            have hob'' : alookup (updEntry m.orderBooks o.symbolID
                ((ob.DeleteOrder o).AddOrder newOrder)) sid' =
                some ob' := hob'
            rw [alookup_updEntry_ne _ _ _ _ hs] at hob''
            exact noCross_lookup hnc hob'' bp ap h1 h2)

theorem GoodState_AddOrder {m : MarketManager} (h : GoodState m)
    (hm : m.matching = true) (order : Order) :
    GoodState (m.AddOrder order).mm := by
  obtain ⟨hwf, hnc⟩ := h
  unfold MarketManager.AddOrder
  dsimp only
  by_cases hv : MarketManager.validateOrder order ≠ ErrorOK
  · rw [if_pos hv]
    exact ⟨hwf, hnc⟩
  · rw [if_neg hv]
    by_cases hdup : (alookup m.orders order.id).isSome
    · rw [if_pos hdup]
      exact ⟨hwf, hnc⟩
    · rw [if_neg hdup]
      cases hob : alookup m.orderBooks order.symbolID with
      | none => exact ⟨hwf, hnc⟩
      | some ob =>
        dsimp only
        rw [if_pos hm]
        dsimp only
        have hfresh : alookup m.orders order.id = none := by
          cases hcase : alookup m.orders order.id with
          | none => rfl
          | some v =>
            rw [hcase] at hdup
            exact absurd rfl hdup
        have hagree : ∀ oid, (alookup m.orders oid).isSome →
            alookup (m.orders ++ [(order.id, order)]) oid =
              alookup m.orders oid := by
          intro oid hsome
          rw [alookup_append]
          obtain ⟨v, hv'⟩ := Option.isSome_iff_exists.mp hsome
          rw [hv']
          rfl
        have hbwf := MMWF_book hwf hob
        have hbwf' : BookWF (m.orders ++ [(order.id, order)])
            order.symbolID ob :=
          BookWF_regext hbwf
            (fun oid hmem => hagree oid (bookMem_isSome hbwf hmem))
        have hlook : alookup (m.orders ++ [(order.id, order)]) order.id =
            some order := by
          rw [alookup_append, hfresh]
          rw [alookup, if_pos rfl]
          rfl
        have hnm : ¬ bookMem ob order.id := by
          intro hmem
          have hs := bookMem_isSome hbwf hmem
          rw [hfresh] at hs
          simp at hs
        have hbadd := BookWF_AddOrder (o := order) hbwf' hlook hnm rfl
        have hwf1 : MMWF { m with
            orders := m.orders ++ [(order.id, order)]
            orderBooks := updEntry m.orderBooks order.symbolID
              (ob.AddOrder order) } := by
          refine MMWF_set_book hwf rfl ?_ ?_ hbadd ?_
          · rw [List.map_append, List.nodup_append]
            refine ⟨hwf.orderKeys, by simp, ?_⟩
            intro x hx hy
            simp only [List.map_cons, List.map_nil, List.mem_singleton] at hy
            subst hy
            have hs := alookup_isSome_of_mem_keys hx
            rw [hfresh] at hs
            simp at hs
          · intro p hp
            rcases List.mem_append.mp hp with h1 | h1
            · exact hwf.orderIds p h1
            · simp only [List.mem_singleton] at h1
              rw [h1]
          · intro q hq hqne oid hm₀
            exact hagree oid (bookMem_isSome (hwf.books q hq) hm₀)
        exact GoodState_after_match hwf1 order.symbolID (by
          intro sid' hs ob' hob' bp ap h1 h2
          have hob'' : alookup (updEntry m.orderBooks order.symbolID
              (ob.AddOrder order)) sid' = some ob' := hob'
          rw [alookup_updEntry_ne _ _ _ _ hs] at hob''
          exact noCross_lookup hnc hob'' bp ap h1 h2)

theorem GoodState_deleteOrdersRun {m : MarketManager} (h : GoodState m)
    (ids : List Nat) : GoodState (deleteOrdersRun m ids).1 := by
  induction ids generalizing m with
  | nil => exact h
  | cons id rest ih =>
    rw [deleteOrdersRun]
    dsimp only
    exact ih (GoodState_DeleteOrder h id)

theorem GoodState_DeleteOrderBook {m : MarketManager} (h : GoodState m)
    (id : Nat) : GoodState (m.DeleteOrderBook id).mm := by
  unfold MarketManager.DeleteOrderBook
  cases hob : alookup m.orderBooks id with
  | none => exact h
  | some ob =>
    dsimp only
    obtain ⟨hwfr, hncr⟩ := GoodState_deleteOrdersRun h
      ((m.orders.filter (fun p => p.2.symbolID == id)).map (fun p => p.1))
    refine ⟨⟨?_, hwfr.orderKeys, hwfr.orderIds, ?_⟩, ?_⟩
    · exact hwfr.bookKeys.sublist (eraseEntry_keys_sublist _ _)
    · intro q hq
      exact hwfr.books q (mem_eraseEntry hq).1
    · intro q hq bp ap h1 h2
      exact hncr q (mem_eraseEntry hq).1 bp ap h1 h2

theorem GoodState_DeleteSymbol {m : MarketManager} (h : GoodState m)
    (id : Nat) : GoodState (m.DeleteSymbol id).mm := by
  unfold MarketManager.DeleteSymbol
  cases hs : alookup m.symbols id with
  | none => exact h
  | some symbol =>
    dsimp only
    by_cases hob : (alookup m.orderBooks id).isSome
    · rw [if_pos hob]
      have h2 := GoodState_DeleteOrderBook h id
      exact ⟨⟨h2.1.bookKeys, h2.1.orderKeys, h2.1.orderIds, h2.1.books⟩,
        h2.2⟩
    · rw [if_neg hob]
      exact ⟨⟨h.1.bookKeys, h.1.orderKeys, h.1.orderIds, h.1.books⟩, h.2⟩

theorem executeOrderStep_matching (m : MarketManager) (o : Order)
    (price q : Nat) :
    (m.executeOrderStep o price q).mm.matching = m.matching := by
  unfold MarketManager.executeOrderStep
  split
  · rfl
  · dsimp only
    split
    all_goals rfl

theorem matchLoop_matching (fuel : Nat) :
    ∀ m sid, (matchLoop fuel m sid).1.matching = m.matching := by
  induction fuel with
  | zero =>
    intro m sid
    rfl
  | succ fuel ih =>
    intro m sid
    rw [matchLoop]
    repeat' split
    all_goals dsimp only
    all_goals repeat' split
    all_goals first
      | rfl
      | (rw [ih, executeOrderStep_matching, executeOrderStep_matching])
      | (rw [ih, executeOrderStep_matching])

theorem matchOrders_matching (m : MarketManager) (sid : Nat) :
    (m.matchOrders sid).1.matching = m.matching :=
  matchLoop_matching _ _ _

theorem matching_AddSymbol (m : MarketManager) (s : Symbol) :
    (m.AddSymbol s).mm.matching = m.matching := by
  unfold MarketManager.AddSymbol
  try dsimp only
  repeat' split
  all_goals try dsimp only
  all_goals repeat' split
  all_goals first
    | rfl

theorem matching_AddOrderBook (m : MarketManager) (s : Symbol) :
    (m.AddOrderBook s).mm.matching = m.matching := by
  unfold MarketManager.AddOrderBook
  try dsimp only
  repeat' split
  all_goals try dsimp only
  all_goals repeat' split
  all_goals first
    | rfl

theorem matching_DeleteOrder (m : MarketManager) (id : Nat) :
    (m.DeleteOrder id).mm.matching = m.matching := by
  unfold MarketManager.DeleteOrder
  try dsimp only
  repeat' split
  all_goals try dsimp only
  all_goals repeat' split
  all_goals first
    | rfl

theorem matching_ReduceOrder (m : MarketManager) (id q : Nat) :
    (m.ReduceOrder id q).mm.matching = m.matching := by
  unfold MarketManager.ReduceOrder
  try dsimp only
  repeat' split
  all_goals try dsimp only
  all_goals repeat' split
  all_goals first
    | rfl
    | (exact matching_DeleteOrder _ _)

theorem matching_ModifyOrder (m : MarketManager) (id p q : Nat) :
    (m.ModifyOrder id p q).mm.matching = m.matching := by
  unfold MarketManager.ModifyOrder
  try dsimp only
  repeat' split
  all_goals try dsimp only
  all_goals repeat' split
  all_goals first
    | rfl
    | (exact matchOrders_matching _ _)

theorem matching_MitigateOrder (m : MarketManager) (id p q : Nat) :
    (m.MitigateOrder id p q).mm.matching = m.matching := by
  unfold MarketManager.MitigateOrder
  try dsimp only
  repeat' split
  all_goals try dsimp only
  all_goals repeat' split
  all_goals first
    | rfl
    | (exact matching_DeleteOrder _ _)
    | (exact matchOrders_matching _ _)

theorem matching_ReplaceOrder (m : MarketManager) (id nid p q : Nat) :
    (m.ReplaceOrder id nid p q).mm.matching = m.matching := by
  unfold MarketManager.ReplaceOrder
  try dsimp only
  repeat' split
  all_goals try dsimp only
  all_goals repeat' split
  all_goals first
    | rfl
    | (exact matchOrders_matching _ _)

theorem matching_AddOrder (m : MarketManager) (o : Order) :
    (m.AddOrder o).mm.matching = m.matching := by
  unfold MarketManager.AddOrder
  try dsimp only
  repeat' split
  all_goals try dsimp only
  all_goals repeat' split
  all_goals first
    | rfl
    | (exact matchOrders_matching _ _)

theorem matching_ExecuteOrder (m : MarketManager) (id q : Nat) :
    (m.ExecuteOrder id q).mm.matching = m.matching := by
  unfold MarketManager.ExecuteOrder
  try dsimp only
  repeat' split
  all_goals try dsimp only
  all_goals repeat' split
  all_goals first
    | rfl
    | (exact executeOrderStep_matching _ _ _ _)

theorem matching_ExecuteOrderWithPrice (m : MarketManager) (id p q : Nat) :
    (m.ExecuteOrderWithPrice id p q).mm.matching = m.matching := by
  unfold MarketManager.ExecuteOrderWithPrice
  try dsimp only
  repeat' split
  all_goals try dsimp only
  all_goals repeat' split
  all_goals first
    | rfl
    | (exact executeOrderStep_matching _ _ _ _)

theorem matching_Match (m : MarketManager) (sid : Nat) :
    (m.Match sid).mm.matching = m.matching := by
  unfold MarketManager.Match
  try dsimp only
  repeat' split
  all_goals try dsimp only
  all_goals repeat' split
  all_goals first
    | rfl
    | (exact matchOrders_matching _ _)

theorem matching_deleteOrdersRun (ids : List Nat) :
    ∀ m, (deleteOrdersRun m ids).1.matching = m.matching := by
  induction ids with
  | nil =>
    intro m
    rfl
  | cons id rest ih =>
    intro m
    rw [deleteOrdersRun]
    dsimp only
    rw [ih]
    exact matching_DeleteOrder m id

theorem matching_DeleteOrderBook (m : MarketManager) (id : Nat) :
    (m.DeleteOrderBook id).mm.matching = m.matching := by
  unfold MarketManager.DeleteOrderBook
  try dsimp only
  repeat' split
  all_goals try dsimp only
  all_goals repeat' split
  all_goals first
    | rfl
    | (exact matching_deleteOrdersRun _ _)

theorem matching_DeleteSymbol (m : MarketManager) (id : Nat) :
    (m.DeleteSymbol id).mm.matching = m.matching := by
  unfold MarketManager.DeleteSymbol
  try dsimp only
  repeat' split
  all_goals try dsimp only
  all_goals repeat' split
  all_goals first
    | rfl
    | (exact matching_DeleteOrderBook _ _)
    | (rw [matching_DeleteOrderBook])

/-- States reachable from a fresh manager with automatic matching enabled
through the public mutating operations. -/
inductive Reachable : MarketManager → Prop where
  | base : Reachable NewMarketManager.EnableMatching
  | addSymbol {m : MarketManager} (s : Symbol) :
      Reachable m → Reachable (m.AddSymbol s).mm
  | addOrderBook {m : MarketManager} (s : Symbol) :
      Reachable m → Reachable (m.AddOrderBook s).mm
  | deleteSymbol {m : MarketManager} (id : Nat) :
      Reachable m → Reachable (m.DeleteSymbol id).mm
  | deleteOrderBook {m : MarketManager} (id : Nat) :
      Reachable m → Reachable (m.DeleteOrderBook id).mm
  | addOrder {m : MarketManager} (o : Order) :
      Reachable m → Reachable (m.AddOrder o).mm
  | reduceOrder {m : MarketManager} (id q : Nat) :
      Reachable m → Reachable (m.ReduceOrder id q).mm
  | modifyOrder {m : MarketManager} (id p q : Nat) :
      Reachable m → Reachable (m.ModifyOrder id p q).mm
  | mitigateOrder {m : MarketManager} (id p q : Nat) :
      Reachable m → Reachable (m.MitigateOrder id p q).mm
  | replaceOrder {m : MarketManager} (id nid p q : Nat) :
      Reachable m → Reachable (m.ReplaceOrder id nid p q).mm
  | deleteOrder {m : MarketManager} (id : Nat) :
      Reachable m → Reachable (m.DeleteOrder id).mm
  | executeOrder {m : MarketManager} (id q : Nat) :
      Reachable m → Reachable (m.ExecuteOrder id q).mm
  | executeOrderWithPrice {m : MarketManager} (id p q : Nat) :
      Reachable m → Reachable (m.ExecuteOrderWithPrice id p q).mm
  | matchBook {m : MarketManager} (sid : Nat) :
      Reachable m → Reachable (m.Match sid).mm

/-- Matching stays enabled along every reachable trace. -/
theorem Reachable_matching {m : MarketManager} (h : Reachable m) :
    m.matching = true := by
  induction h with
  | base => rfl
  | addSymbol s h ih => rw [matching_AddSymbol]; exact ih
  | addOrderBook s h ih => rw [matching_AddOrderBook]; exact ih
  | deleteSymbol id h ih => rw [matching_DeleteSymbol]; exact ih
  | deleteOrderBook id h ih => rw [matching_DeleteOrderBook]; exact ih
  | addOrder o h ih => rw [matching_AddOrder]; exact ih
  | reduceOrder id q h ih => rw [matching_ReduceOrder]; exact ih
  | modifyOrder id p q h ih => rw [matching_ModifyOrder]; exact ih
  | mitigateOrder id p q h ih => rw [matching_MitigateOrder]; exact ih
  | replaceOrder id nid p q h ih => rw [matching_ReplaceOrder]; exact ih
  | deleteOrder id h ih => rw [matching_DeleteOrder]; exact ih
  | executeOrder id q h ih => rw [matching_ExecuteOrder]; exact ih
  | executeOrderWithPrice id p q h ih =>
    rw [matching_ExecuteOrderWithPrice]; exact ih
  | matchBook sid h ih => rw [matching_Match]; exact ih

/-- The C3 invariant holds in every reachable state. -/
theorem Reachable_good {m : MarketManager} (h : Reachable m) :
    GoodState m := by
  induction h with
  | base =>
    refine ⟨⟨List.nodup_nil, List.nodup_nil, ?_, ?_⟩, ?_⟩
    · intro p hp
      simp [NewMarketManager, MarketManager.EnableMatching] at hp
    · intro q hq
      simp [NewMarketManager, MarketManager.EnableMatching] at hq
    · intro q hq
      simp [NewMarketManager, MarketManager.EnableMatching] at hq
  | addSymbol s h ih => exact GoodState_AddSymbol ih s
  | addOrderBook s h ih => exact GoodState_AddOrderBook ih s
  | deleteSymbol id h ih => exact GoodState_DeleteSymbol ih id
  | deleteOrderBook id h ih => exact GoodState_DeleteOrderBook ih id
  | addOrder o h ih =>
    exact GoodState_AddOrder ih (Reachable_matching h) o
  | reduceOrder id q h ih => exact GoodState_ReduceOrder ih id q
  | modifyOrder id p q h ih =>
    exact GoodState_ModifyOrder ih (Reachable_matching h) id p q
  | mitigateOrder id p q h ih =>
    exact GoodState_MitigateOrder ih (Reachable_matching h) id p q
  | replaceOrder id nid p q h ih =>
    exact GoodState_ReplaceOrder ih (Reachable_matching h) id nid p q
  | deleteOrder id h ih => exact GoodState_DeleteOrder ih id
  | executeOrder id q h ih => exact GoodState_ExecuteOrder ih id q
  | executeOrderWithPrice id p q h ih =>
    exact GoodState_ExecuteOrderWithPrice ih id p q
  | matchBook sid h ih => exact GoodState_Match ih sid

/-- C3: for every sequence of MarketManager operations performed while
automatic matching is enabled, every post-operation state of every order
book satisfies: if both the bid side and the ask side are non-empty, then
the best bid price is strictly below the best ask price — no resting
crossed book between matching cycles. -/
theorem c3_no_crossed_book {m : MarketManager} (hr : Reachable m)
    {sid : Nat} {ob : OrderBook} (hob : (sid, ob) ∈ m.orderBooks)
    (hb : ob.bids ≠ []) (ha : ob.asks ≠ []) :
    ∃ bp ap, ob.bestBid = some bp ∧ ob.bestAsk = some ap ∧ bp < ap := by
  obtain ⟨hwf, hnc⟩ := Reachable_good hr
  have hbwf := hwf.books (sid, ob) hob
  obtain ⟨bp, hbp⟩ : ∃ bp, ob.bestBid = some bp := by
    cases hfb : treeFirstPrice .bids (ob.tree .bids) with
    | none => exact absurd ((treeFirstPrice_eq_none_iff _ _).mp hfb) hb
    | some bp =>
      refine ⟨bp, ?_⟩
      rw [← best_bids_eq, hbwf.bestEq .bids, hfb]
  obtain ⟨ap, hap⟩ : ∃ ap, ob.bestAsk = some ap := by
    cases hfa : treeFirstPrice .asks (ob.tree .asks) with
    | none => exact absurd ((treeFirstPrice_eq_none_iff _ _).mp hfa) ha
    | some ap =>
      refine ⟨ap, ?_⟩
      rw [← best_asks_eq, hbwf.bestEq .asks, hfa]
  exact ⟨bp, ap, hbp, hap, hnc (sid, ob) hob bp ap hbp hap⟩

/-- A concrete four-operation trace: symbol, book, resting buy at 100,
resting sell at 101. -/
def c3Wm : MarketManager :=
  ((((NewMarketManager.EnableMatching.AddSymbol exSymbol).mm.AddOrderBook
    exSymbol).mm.AddOrder (exLimit 1 OrderSideBuy 100 5)).mm.AddOrder
    (exLimit 2 OrderSideSell 101 5)).mm

/-- The book of symbol 1 in that state. -/
def c3Wob : OrderBook :=
  (alookup c3Wm.orderBooks 1).getD (NewOrderBook exSymbol)

/-- Witness for C3 at the concrete trace: both sides rest and
best bid 100 < best ask 101. -/
theorem c3_witness :
    ∃ bp ap, c3Wob.bestBid = some bp ∧ c3Wob.bestAsk = some ap ∧
      bp < ap :=
  @c3_no_crossed_book c3Wm
    (Reachable.addOrder (exLimit 2 OrderSideSell 101 5)
      (Reachable.addOrder (exLimit 1 OrderSideBuy 100 5)
        (Reachable.addOrderBook exSymbol
          (Reachable.addSymbol exSymbol Reachable.base))))
    1 c3Wob (by decide) (by decide) (by decide)

end GoTrader
